import Mathlib

/-!
# LiveCode object streams (`engine/src/objectstream.cpp`)

A shallow embedding of `MCObjectInputStream` and `MCObjectOutputStream`:
the buffered reader and writer that sit on a raw byte channel, the
variable-length tag header codec and the fixed-width integer codecs.

Conventions of the embedding

* `uint32_t` variables are natural numbers; every subtraction and addition
  the source performs on them is reduced modulo `2 ^ 32` (`sub32`, `add32`).
* `m_mark` of the input stream is a signed 32-bit integer (the source tests
  `m_mark < 0`); it is an `Int` reduced to the signed range by `wrapInt32`.
* A `while` loop becomes a function that is structurally recursive on a
  fuel argument and returns `none` when the fuel runs out.
* The channel (`IO_handle`, `IO_read`, `MCS_write`) is outside the source
  file; it is modelled as a byte list that is consumed, a byte list that
  is produced and a script of statuses with which the next calls fail.
-/

namespace ObjectStream

/-- One `char` of the C++ source: an octet. -/
abbrev Byte := Fin 256

/-- Status codes of the I/O layer that the source file uses. -/
inductive IO_stat where
  | IO_NORMAL
  | IO_EOF
  | IO_ERROR
  deriving DecidableEq, Repr

open IO_stat

/-- Capacity of the internal buffer of both streams (`new char[16384]`). -/
def capacity : Nat := 16384

/-- Subtraction of two `uint32_t` values, as the machine performs it. -/
def sub32 (a b : Nat) : Nat := (a + 4294967296 - b % 4294967296) % 4294967296

/-- Addition of two `uint32_t` values, as the machine performs it. -/
def add32 (a b : Nat) : Nat := (a + b) % 4294967296

/-- Reduction of an integer to the range of `int32_t` (two's complement). -/
def wrapInt32 (x : Int) : Int := (x + 2147483648) % 4294967296 - 2147483648

/-- Modelled from the spec: `MCU_min`, the smaller of two unsigned values
(the helper lives in the utility layer, outside this source file). -/
def MCU_min (a b : Nat) : Nat := if a < b then a else b

/-- The `n` bytes of a memory block that start at offset `off`. -/
def slice (mem : List Byte) (off n : Nat) : List Byte := (mem.drop off).take n

/-- Copy of `src` into a memory block at offset `off` (`memcpy`/`memmove`
with destination `mem + off`); the block keeps its length. -/
def blit (mem : List Byte) (off : Nat) (src : List Byte) : List Byte :=
  mem.take off ++ src ++ mem.drop (off + src.length)

/-- Modelled from the spec: the channel handle. The spec treats the raw
byte channel as an external collaborator that supplies a read and a write
primitive returning a status. `data` are the bytes the channel can still
deliver, `sink` the bytes it has accepted so far, and `faults` the
non-normal statuses with which the coming calls fail, in call order. -/
structure IO_handle where
  data : List Byte
  sink : List Byte
  faults : List IO_stat
  deriving DecidableEq

/-- Modelled from the spec: `IO_read(ptr, size, 1, stream)`, the channel's
read primitive for one item of `size` bytes. A scripted fault is returned
first; otherwise the call succeeds exactly when the channel still holds
`size` bytes, and a channel that holds fewer reports `IO_EOF`. A failed
call transfers nothing. -/
def IO_read (h : IO_handle) (size : Nat) : IO_stat × List Byte × IO_handle :=
  match h.faults with
  | st :: rest =>
    if st = IO_NORMAL then
      if size ≤ h.data.length then
        (IO_NORMAL, h.data.take size, { h with data := h.data.drop size, faults := rest })
      else (IO_EOF, [], { h with faults := rest })
    else (st, [], { h with faults := rest })
  | [] =>
    if size ≤ h.data.length then
      (IO_NORMAL, h.data.take size, { h with data := h.data.drop size })
    else (IO_EOF, [], h)

/-- Modelled from the spec: `MCS_write(ptr, size, 1, stream)`, the
channel's write primitive. A scripted fault is returned first and accepts
nothing; otherwise all bytes are appended to what the channel received. -/
def MCS_write (h : IO_handle) (bytes : List Byte) : IO_stat × IO_handle :=
  match h.faults with
  | st :: rest =>
    if st = IO_NORMAL then (IO_NORMAL, { h with sink := h.sink ++ bytes, faults := rest })
    else (st, { h with faults := rest })
  | [] => (IO_NORMAL, { h with sink := h.sink ++ bytes })

/-! ## Host representation of integers -/

/-- Memory image of the `n`-byte unsigned integer `v` on a little-endian
host: least significant byte first. -/
def bytesLE : Nat → Nat → List Byte
  | 0, _ => []
  | n + 1, v => Fin.ofNat (v % 256) :: bytesLE n (v / 256)

/-- Value of a memory image on a little-endian host. -/
def valueLE : List Byte → Nat
  | [] => 0
  | b :: bs => b.val + 256 * valueLE bs

/-- Memory image of the `n`-byte unsigned integer `v` on the host;
` little_endian` tells whether `__LITTLE_ENDIAN__` is defined. -/
def hostBytes ( little_endian : Bool) (n v : Nat) : List Byte :=
  if little_endian then bytesLE n v else (bytesLE n v).reverse

/-- Value that the host reads from a memory image (`memcpy` into an
unsigned integer variable of that many bytes). -/
def hostValue ( little_endian : Bool) (mem : List Byte) : Nat :=
  if little_endian then valueLE mem else valueLE mem.reverse

/-- Modelled from the spec: `MCSwapInt16HostToNetwork`, a macro of the
core headers. Network order is big-endian, so a little-endian host
exchanges the two bytes and a big-endian host changes nothing. -/
def MCSwapInt16HostToNetwork ( little_endian : Bool) (x : Nat) : Nat :=
  if little_endian then ((x >>> 8) ||| ((x &&& 0xFF) <<< 8)) % 65536 else x

/-- Modelled from the spec: `MCSwapInt16NetworkToHost`, the same exchange
in the other direction. -/
def MCSwapInt16NetworkToHost ( little_endian : Bool) (x : Nat) : Nat :=
  MCSwapInt16HostToNetwork little_endian x

/-- Modelled from the spec: `MCSwapInt32HostToNetwork`, a macro of the
core headers: the four bytes are reversed on a little-endian host. -/
def MCSwapInt32HostToNetwork ( little_endian : Bool) (x : Nat) : Nat :=
  if little_endian then
    ((x >>> 24) ||| ((x >>> 8) &&& 0xFF00) ||| ((x &&& 0xFF00) <<< 8) |||
      ((x &&& 0xFF) <<< 24)) % 4294967296
  else x

/-- Modelled from the spec: `MCSwapInt32NetworkToHost`, the same reversal
in the other direction. -/
def MCSwapInt32NetworkToHost ( little_endian : Bool) (x : Nat) : Nat :=
  MCSwapInt32HostToNetwork little_endian x

/-- The 64-bit conversion that `ReadU64` and `WriteU64` spell out: the
identity without `__LITTLE_ENDIAN__`, the shift-and-mask expression of
the source with it (`uint64_t` arithmetic, so modulo `2 ^ 64`). -/
def swapInt64 ( little_endian : Bool) (x : Nat) : Nat :=
  if little_endian then
    ((x >>> 56) ||| ((x >>> 40) &&& 0xFF00) ||| ((x >>> 24) &&& 0xFF0000) |||
      ((x >>> 8) &&& 0xFF000000) ||| ((x &&& 0xFF000000) <<< 8) |||
      ((x &&& 0xFF0000) <<< 24) ||| ((x &&& 0xFF00) <<< 40) |||
      ((x <<< 56) % 18446744073709551616)) % 18446744073709551616
  else x

/-- Conversion of a 16-bit pattern to `signed short`. -/
def toInt16 (x : Nat) : Int := if x % 65536 < 32768 then (x % 65536 : Nat) else (x % 65536 : Nat) - 65536

/-! ## Input stream -/

/-- State of an `MCObjectInputStream`. `m_buffer` is `none` until the
first fill allocates the 16384-byte array. -/
structure MCObjectInputStream where
  m_stream : IO_handle
  m_buffer : Option (List Byte)
  m_frontier : Nat
  m_limit : Nat
  m_bound : Nat
  m_remaining : Nat
  m_mark : Int
  deriving DecidableEq

namespace MCObjectInputStream

/-- The constructor `MCObjectInputStream(p_stream, p_remaining)`. -/
def new (p_stream : IO_handle) (p_remaining : Nat) : MCObjectInputStream :=
  { m_stream := p_stream, m_buffer := none, m_frontier := 0, m_limit := 0,
    m_bound := 0, m_remaining := p_remaining, m_mark := 0 }

/-- Contents of the buffer array; a freshly allocated array is modelled
as zero-filled (the source never reads a byte it has not written). -/
def bufferBytes (s : MCObjectInputStream) : List Byte :=
  match s.m_buffer with
  | some b => b
  | none => List.replicate capacity 0

/-- `MCObjectInputStream::Fill`. Allocation of the buffer always succeeds
in the model, so the `IO_ERROR` return after a failed `new` has no
counterpart here. -/
def Fill (s : MCObjectInputStream) : IO_stat × MCObjectInputStream :=
  if s.m_remaining = 0 then (IO_EOF, s)
  else
    -- if (m_buffer == nil) m_buffer = new char[16384];
    let buf := s.bufferBytes
    -- memmove(m_buffer, m_buffer + m_frontier, m_bound - m_frontier)
    let buf := blit buf 0 (slice buf s.m_frontier (sub32 s.m_bound s.m_frontier))
    let s1 : MCObjectInputStream :=
      { s with
        m_buffer := some buf
        m_limit := sub32 s.m_limit s.m_frontier
        m_bound := sub32 s.m_bound s.m_frontier
        m_mark := wrapInt32 (s.m_mark - s.m_frontier)
        m_frontier := 0 }
    let t_available := MCU_min s1.m_remaining (sub32 16384 s1.m_bound)
    match IO_read s1.m_stream t_available with
    | (IO_NORMAL, bytes, h) =>
      (IO_NORMAL,
        { s1 with
          m_stream := h
          m_buffer := some (blit buf s1.m_bound bytes)
          m_bound := add32 s1.m_bound t_available
          m_remaining := sub32 s1.m_remaining t_available
          m_limit := add32 s1.m_limit t_available })
    | (t_stat, _, h) => (t_stat, { s1 with m_stream := h })

/-- The loop of `MCObjectInputStream::Read`, one iteration per unit of
fuel. The second component of the result lists the bytes copied to
`p_buffer`, in order; it stays empty when `p_buffer` is `NULL`
(`p_buffer = false`). -/
def ReadLoop : Nat → MCObjectInputStream → Bool → Nat →
    Option (IO_stat × List Byte × MCObjectInputStream)
  | fuel, s, p_buffer, p_amount =>
    if p_amount = 0 then some (IO_NORMAL, [], s)
    else
      match fuel with
      | 0 => none
      | fuel + 1 =>
        let r := if s.m_limit = s.m_frontier then Fill s else (IO_NORMAL, s)
        if r.1 ≠ IO_NORMAL then some (r.1, [], r.2)
        else
          let s1 := r.2
          let t_available := MCU_min (sub32 s1.m_limit s1.m_frontier) p_amount
          let copied := if p_buffer then slice s1.bufferBytes s1.m_frontier t_available else []
          match ReadLoop fuel { s1 with m_frontier := add32 s1.m_frontier t_available }
              p_buffer (p_amount - t_available) with
          | none => none
          | some (st, out, s2) => some (st, copied ++ out, s2)

/-- `MCObjectInputStream::Read`. An iteration that does not return
consumes at least one byte or changes nothing at all, so `p_amount`
iterations decide the call: `none` stands for a loop that never exits. -/
def Read (s : MCObjectInputStream) (p_buffer : Bool) (p_amount : Nat) :
    Option (IO_stat × List Byte × MCObjectInputStream) :=
  ReadLoop p_amount s p_buffer p_amount

/-- `MCObjectInputStream::Flush`: `Read(NULL, m_remaining)`. -/
def Flush (s : MCObjectInputStream) : Option (IO_stat × MCObjectInputStream) :=
  (Read s false s.m_remaining).map fun r => (r.1, r.2.2)

/-- `MCObjectInputStream::Mark`. The `uint32_t` frontier is stored into
the signed mark. -/
def Mark (s : MCObjectInputStream) : IO_stat × MCObjectInputStream :=
  (IO_NORMAL, { s with m_mark := wrapInt32 s.m_frontier })

/-- `MCObjectInputStream::Skip`. -/
def Skip (s : MCObjectInputStream) (p_length : Nat) :
    Option (IO_stat × MCObjectInputStream) :=
  -- m_mark -= m_frontier;
  let s1 : MCObjectInputStream := { s with m_mark := wrapInt32 (s.m_mark - s.m_frontier) }
  -- m_mark += p_length;
  let s2 : MCObjectInputStream := { s1 with m_mark := wrapInt32 (s1.m_mark + p_length) }
  if s2.m_mark < 0 then some (IO_ERROR, s2)
  else if s2.m_mark > 0 then
    (Read s2 false s2.m_mark.toNat).map fun r => (r.1, r.2.2)
  else some (IO_NORMAL, s2)

/-- `MCObjectInputStream::ReadU8`. The value is present when the status
is `IO_NORMAL`; otherwise `r_value` holds no defined result. -/
def ReadU8 (s : MCObjectInputStream) : Option (IO_stat × Option Nat × MCObjectInputStream) :=
  (Read s true 1).map fun r =>
    (r.1, if r.1 = IO_NORMAL then some (valueLE r.2.1) else none, r.2.2)

/-- `MCObjectInputStream::ReadU16`. -/
def ReadU16 ( little_endian : Bool) (s : MCObjectInputStream) :
    Option (IO_stat × Option Nat × MCObjectInputStream) :=
  (Read s true 2).map fun r =>
    (r.1,
      if r.1 = IO_NORMAL then
        some (MCSwapInt16NetworkToHost little_endian (hostValue little_endian r.2.1))
      else none,
      r.2.2)

/-- `MCObjectInputStream::ReadU32`. -/
def ReadU32 ( little_endian : Bool) (s : MCObjectInputStream) :
    Option (IO_stat × Option Nat × MCObjectInputStream) :=
  (Read s true 4).map fun r =>
    (r.1,
      if r.1 = IO_NORMAL then
        some (MCSwapInt32NetworkToHost little_endian (hostValue little_endian r.2.1))
      else none,
      r.2.2)

/-- `MCObjectInputStream::ReadU64`. -/
def ReadU64 ( little_endian : Bool) (s : MCObjectInputStream) :
    Option (IO_stat × Option Nat × MCObjectInputStream) :=
  (Read s true 8).map fun r =>
    (r.1,
      if r.1 = IO_NORMAL then
        some (swapInt64 little_endian (hostValue little_endian r.2.1))
      else none,
      r.2.2)

/-- `MCObjectInputStream::ReadS16`. -/
def ReadS16 ( little_endian : Bool) (s : MCObjectInputStream) :
    Option (IO_stat × Option Int × MCObjectInputStream) :=
  (Read s true 2).map fun r =>
    (r.1,
      if r.1 = IO_NORMAL then
        some (toInt16 (MCSwapInt16NetworkToHost little_endian (hostValue little_endian r.2.1)))
      else none,
      r.2.2)

/-- Result of `ReadTag`: the values stored through `r_flags`, `r_length`
and `r_header_length`. -/
structure Tag where
  flags : Nat
  length : Nat
  header_length : Nat
  deriving DecidableEq, Repr

/-- `MCObjectInputStream::ReadTag`. The three out-parameters are assigned
only on the paths that return `IO_NORMAL`. -/
def ReadTag ( little_endian : Bool) (s : MCObjectInputStream) :
    Option (IO_stat × Option Tag × MCObjectInputStream) :=
  match ReadU32 little_endian s with
  | none => none
  | some (IO_NORMAL, some t_tag, s1) =>
    if t_tag &&& (1 <<< 31) = 0 then
      some (IO_NORMAL,
        some { flags := t_tag &&& 0xFF, length := t_tag >>> 8, header_length := 4 }, s1)
    else
      match ReadU32 little_endian s1 with
      | none => none
      | some (IO_NORMAL, some t_extension, s2) =>
        some (IO_NORMAL,
          some { flags := (t_tag &&& 0xFF) ||| (((t_extension &&& 0xFFFFFF) <<< 8) % 4294967296)
                 length := ((t_tag >>> 8) &&& 0x7fffff) ||| ((t_extension &&& 0xFF000000) >>> 1)
                 header_length := 8 }, s2)
      | some (t_stat, _, s2) => some (t_stat, none, s2)
  | some (t_stat, _, s1) => some (t_stat, none, s1)

/-- The `for` loop of `ReadCString` over the bytes between the frontier
and the limit: the final `t_offset` and whether a zero byte was met. -/
def scanCString : List Byte → Nat × Bool
  | [] => (0, false)
  | b :: bs =>
    if b = 0 then (1, true)
    else ((scanCString bs).1 + 1, (scanCString bs).2)

/-- The `while` loop of `ReadCString`, one iteration per unit of fuel;
`t_output` is the block accumulated so far. Failure of `realloc` is not
modelled. -/
def ReadCStringLoop : Nat → MCObjectInputStream → List Byte →
    Option (IO_stat × List Byte × MCObjectInputStream)
  | 0, _, _ => none
  | fuel + 1, s, t_output =>
    let r := if s.m_limit = s.m_frontier then Fill s else (IO_NORMAL, s)
    if r.1 ≠ IO_NORMAL then some (r.1, t_output, r.2)
    else
      let s1 := r.2
      let scan := scanCString (slice s1.bufferBytes s1.m_frontier (sub32 s1.m_limit s1.m_frontier))
      let t_offset := scan.1
      let t_output := t_output ++ slice s1.bufferBytes s1.m_frontier t_offset
      let s2 : MCObjectInputStream := { s1 with m_frontier := add32 s1.m_frontier t_offset }
      if scan.2 then some (IO_NORMAL, t_output, s2)
      else ReadCStringLoop fuel s2 t_output

/-- `MCObjectInputStream::ReadCString`. The value is what `r_value`
receives on the `IO_NORMAL` path: `none` for `NULL`, otherwise the
accumulated block, terminator included. Every iteration but the first
starts with a fill, which takes at least one byte off `m_remaining` or
changes nothing at all, so `m_remaining + 2` iterations decide the call. -/
def ReadCString (s : MCObjectInputStream) :
    Option (IO_stat × Option (List Byte) × MCObjectInputStream) :=
  match ReadCStringLoop (s.m_remaining + 2) s [] with
  | none => none
  | some (IO_NORMAL, t_output, s1) =>
    match t_output with
    | [] => some (IO_NORMAL, none, s1)
    | b :: _ => if b = 0 then some (IO_NORMAL, none, s1) else some (IO_NORMAL, some t_output, s1)
  | some (t_stat, _, s1) => some (t_stat, none, s1)


end MCObjectInputStream

/-! ## Output stream -/

/-- State of an `MCObjectOutputStream`; the buffer is allocated by the
constructor. -/
structure MCObjectOutputStream where
  m_stream : IO_handle
  m_buffer : List Byte
  m_frontier : Nat
  m_mark : Nat
  deriving DecidableEq

namespace MCObjectOutputStream

/-- The constructor `MCObjectOutputStream(p_stream)`; the fresh array is
modelled as zero-filled. -/
def new (p_stream : IO_handle) : MCObjectOutputStream :=
  { m_stream := p_stream, m_buffer := List.replicate capacity 0, m_frontier := 0, m_mark := 0 }

/-- `MCObjectOutputStream::Flush`. The argument `p_end` is not used by
the source. -/
def Flush (s : MCObjectOutputStream) (_p_end : Bool) : IO_stat × MCObjectOutputStream :=
  let s1 : MCObjectOutputStream := { s with m_mark := s.m_frontier }
  match MCS_write s1.m_stream (slice s1.m_buffer 0 s1.m_mark) with
  | (IO_NORMAL, h) =>
    (IO_NORMAL,
      { s1 with
        m_stream := h
        -- memmove(m_buffer, m_buffer + m_mark, m_frontier - m_mark)
        m_buffer := blit s1.m_buffer 0
          (slice s1.m_buffer s1.m_mark (sub32 s1.m_frontier s1.m_mark))
        m_frontier := sub32 s1.m_frontier s1.m_mark
        m_mark := 0 })
  | (t_stat, h) => (t_stat, { s1 with m_stream := h })

/-- The loop of `MCObjectOutputStream::Write`, one iteration per unit of
fuel; `p_buffer` lists the bytes at the source pointer. -/
def WriteLoop : Nat → MCObjectOutputStream → List Byte → Nat →
    Option (IO_stat × MCObjectOutputStream)
  | fuel, s, p_buffer, p_amount =>
    if p_amount = 0 then some (IO_NORMAL, s)
    else
      match fuel with
      | 0 => none
      | fuel + 1 =>
        let r := if s.m_frontier = 16384 then Flush s false else (IO_NORMAL, s)
        if r.1 ≠ IO_NORMAL then some r
        else
          let s1 := r.2
          let t_available := MCU_min (sub32 16384 s1.m_frontier) p_amount
          WriteLoop fuel
            { s1 with
              m_buffer := blit s1.m_buffer s1.m_frontier (p_buffer.take t_available)
              m_frontier := add32 s1.m_frontier t_available }
            (p_buffer.drop t_available) (p_amount - t_available)

/-- `MCObjectOutputStream::Write`. Every iteration that does not return
copies at least one byte, so `p_amount` iterations decide the call. -/
def Write (s : MCObjectOutputStream) (p_buffer : List Byte) (p_amount : Nat) :
    Option (IO_stat × MCObjectOutputStream) :=
  WriteLoop p_amount s p_buffer p_amount

/-- `MCObjectOutputStream::WriteU8`. -/
def WriteU8 (s : MCObjectOutputStream) (p_value : Nat) : Option (IO_stat × MCObjectOutputStream) :=
  Write s (bytesLE 1 p_value) 1

/-- `MCObjectOutputStream::WriteU16`. -/
def WriteU16 ( little_endian : Bool) (s : MCObjectOutputStream) (p_value : Nat) :
    Option (IO_stat × MCObjectOutputStream) :=
  Write s (hostBytes little_endian 2 (MCSwapInt16HostToNetwork little_endian p_value)) 2

/-- `MCObjectOutputStream::WriteU32`. -/
def WriteU32 ( little_endian : Bool) (s : MCObjectOutputStream) (p_value : Nat) :
    Option (IO_stat × MCObjectOutputStream) :=
  Write s (hostBytes little_endian 4 (MCSwapInt32HostToNetwork little_endian p_value)) 4

/-- `MCObjectOutputStream::WriteU64`. -/
def WriteU64 ( little_endian : Bool) (s : MCObjectOutputStream) (p_value : Nat) :
    Option (IO_stat × MCObjectOutputStream) :=
  Write s (hostBytes little_endian 8 (swapInt64 little_endian p_value)) 8

/-- `MCObjectOutputStream::WriteTag`; the words are computed in
`uint32_t` arithmetic. -/
def WriteTag ( little_endian : Bool) (s : MCObjectOutputStream) (p_flags p_length : Nat) :
    Option (IO_stat × MCObjectOutputStream) :=
  if p_flags ≤ 255 ∧ p_length < 1 <<< 23 then
    WriteU32 little_endian s (p_flags ||| ((p_length <<< 8) % 4294967296))
  else
    match WriteU32 little_endian s
        ((p_flags &&& 0xFF) ||| (((p_length &&& 0x7FFFFF) <<< 8) % 4294967296) ||| (1 <<< 31)) with
    | some (IO_NORMAL, s1) =>
      WriteU32 little_endian s1 ((p_flags >>> 8) ||| (((p_length >>> 23) <<< 24) % 4294967296))
    | r => r

/-- Length of the C string stored in a memory block (`strlen`). -/
def strlen (mem : List Byte) : Nat := (mem.takeWhile fun b => b ≠ 0).length

/-- `MCObjectOutputStream::WriteCString`. A non-null `p_value` lists the
bytes at the pointer, which hold the text and its terminator. -/
def WriteCString (s : MCObjectOutputStream) (p_value : Option (List Byte)) :
    Option (IO_stat × MCObjectOutputStream) :=
  match p_value with
  | none => WriteU8 s 0
  | some mem =>
    let t_length := add32 (strlen mem) 1
    Write s mem t_length

/-- Bytes that a sequence of output calls puts on the wire: the calls
`w` run on a fresh stream over an empty channel, a final `Flush(true)`
follows, and the channel's sink is the result. `none` when a call fails
or does not return. -/
def emitted (w : MCObjectOutputStream → Option (IO_stat × MCObjectOutputStream)) :
    Option (List Byte) :=
  match w (new { data := [], sink := [], faults := [] }) with
  | some (IO_NORMAL, s) =>
    match Flush s true with
    | (IO_NORMAL, s1) => some s1.m_stream.sink
    | _ => none
  | _ => none

end MCObjectOutputStream

/-! ## Abstract view of the input stream -/

namespace MCObjectInputStream

/-- Structural invariant of the input stream: the cursors are ordered, the
limit coincides with the bound, the buffer array has its 16384 bytes and
`m_remaining` is a `uint32_t`. -/
def Inv (s : MCObjectInputStream) : Prop :=
  s.m_frontier ≤ s.m_limit ∧ s.m_limit = s.m_bound ∧ s.m_bound ≤ 16384 ∧
    s.m_remaining < 4294967296 ∧ s.bufferBytes.length = 16384

/-- The channel under the stream does not fail: no fault is scripted and
the channel holds the bytes of the bounded region that are still to be
loaded. -/
def NonFailing (s : MCObjectInputStream) : Prop :=
  s.m_stream.faults = [] ∧ s.m_remaining ≤ s.m_stream.data.length

/-- The unread bytes of the bounded region, in stream order: those
buffered between the frontier and the limit, then those still in the
channel. -/
def unread (s : MCObjectInputStream) : List Byte :=
  slice s.bufferBytes s.m_frontier (s.m_limit - s.m_frontier) ++
    s.m_stream.data.take s.m_remaining

/-- The stream is exhausted. -/
def exhausted (s : MCObjectInputStream) : Prop :=
  s.m_remaining = 0 ∧ s.m_frontier = s.m_limit

/-- Offset of the marked position relative to the frontier, as `Skip`
computes it in 32-bit arithmetic. -/
def markOffset (s : MCObjectInputStream) : Int := wrapInt32 (s.m_mark - s.m_frontier)

/-- States that the public operations reach from a constructed stream,
whatever their status. -/
inductive Reachable : MCObjectInputStream → Prop
  | new (p_stream : IO_handle) (p_remaining : Nat) (h : p_remaining < 4294967296) :
      Reachable (MCObjectInputStream.new p_stream p_remaining)
  | read {s s1 : MCObjectInputStream} {p_buffer : Bool} {p_amount : Nat} {st : IO_stat}
      {out : List Byte} :
      Reachable s → Read s p_buffer p_amount = some (st, out, s1) → Reachable s1
  | readCString {s s1 : MCObjectInputStream} {st : IO_stat} {v : Option (List Byte)} :
      Reachable s → ReadCString s = some (st, v, s1) → Reachable s1
  | readTag {s s1 : MCObjectInputStream} { little_endian : Bool} {st : IO_stat} {v : Option Tag} :
      Reachable s → ReadTag little_endian s = some (st, v, s1) → Reachable s1
  | mark {s : MCObjectInputStream} : Reachable s → Reachable (Mark s).2
  | skip {s s1 : MCObjectInputStream} {p_length : Nat} {st : IO_stat} :
      Reachable s → Skip s p_length = some (st, s1) → Reachable s1
  | flush {s s1 : MCObjectInputStream} {st : IO_stat} :
      Reachable s → Flush s = some (st, s1) → Reachable s1

end MCObjectInputStream

/-! ## Call sequences and round trips -/

namespace MCObjectInputStream

/-- A sequence of `Read` calls with a non-null destination and the given
amounts: the statuses in call order, the delivered bytes concatenated in
call order, and the final state. -/
def readCalls : MCObjectInputStream → List Nat →
    Option (List IO_stat × List Byte × MCObjectInputStream)
  | s, [] => some ([], [], s)
  | s, n :: ns =>
    match Read s true n with
    | none => none
    | some (st, out, s1) =>
      match readCalls s1 ns with
      | none => none
      | some (sts, outs, s2) => some (st :: sts, out ++ outs, s2)

/-- `Consumed s k s1`: a sequence of `Read` calls (of any destination,
amount and status) leads from `s` to `s1` and takes `k` bytes off the
unread region. -/
inductive Consumed : MCObjectInputStream → Nat → MCObjectInputStream → Prop
  | refl (s : MCObjectInputStream) : Consumed s 0 s
  | read {s s1 s2 : MCObjectInputStream} {k : Nat} {p_buffer : Bool} {p_amount : Nat}
      {st : IO_stat} {out : List Byte} :
      Consumed s k s1 → Read s1 p_buffer p_amount = some (st, out, s2) →
      Consumed s (k + ((unread s1).length - (unread s2).length)) s2

end MCObjectInputStream

namespace MCObjectOutputStream

/-- Structural invariant of the output stream. -/
def Inv (s : MCObjectOutputStream) : Prop :=
  s.m_frontier ≤ 16384 ∧ s.m_buffer.length = 16384

/-- Everything written so far, in order: the bytes already handed to the
channel followed by `buffer[0, frontier)`. -/
def written (s : MCObjectOutputStream) : List Byte :=
  s.m_stream.sink ++ slice s.m_buffer 0 s.m_frontier

/-- A sequence of `Write` calls, each with a byte string and its length:
the statuses in call order and the final state. -/
def writeCalls : MCObjectOutputStream → List (List Byte) →
    Option (List IO_stat × MCObjectOutputStream)
  | s, [] => some ([], s)
  | s, d :: ds =>
    match Write s d d.length with
    | none => none
    | some (st, s1) =>
      match writeCalls s1 ds with
      | none => none
      | some (sts, s2) => some (st :: sts, s2)

/-- States that the public operations reach from a constructed output
stream, whatever their status and whatever the channel does. The typed
writes `WriteU8` .. `WriteU64` are single `Write` calls. -/
inductive Reachable : MCObjectOutputStream → Prop
  | new (p_stream : IO_handle) : Reachable (MCObjectOutputStream.new p_stream)
  | write {s s1 : MCObjectOutputStream} {p_buffer : List Byte} {p_amount : Nat} {st : IO_stat} :
      Reachable s → Write s p_buffer p_amount = some (st, s1) → Reachable s1
  | writeTag {s s1 : MCObjectOutputStream} { little_endian : Bool} {p_flags p_length : Nat}
      {st : IO_stat} :
      Reachable s → WriteTag little_endian s p_flags p_length = some (st, s1) → Reachable s1
  | writeCString {s s1 : MCObjectOutputStream} {p_value : Option (List Byte)} {st : IO_stat} :
      Reachable s → WriteCString s p_value = some (st, s1) → Reachable s1
  | flush {s : MCObjectOutputStream} {p_end : Bool} :
      Reachable s → Reachable (Flush s p_end).2

end MCObjectOutputStream

/-- A writer and a reader round-trip the value `v`: the writer, run on a
fresh output stream, puts bytes `bs` on the wire, and in every reachable
input-stream state over a channel that does not fail whose unread bytes
start with `bs`, the reader returns `IO_NORMAL` with `v` and consumes
exactly `bs`. -/
def RoundTrip {α : Type}
    (w : MCObjectOutputStream → Option (IO_stat × MCObjectOutputStream))
    (r : MCObjectInputStream → Option (IO_stat × Option α × MCObjectInputStream))
    (v : α) : Prop :=
  ∃ bs, MCObjectOutputStream.emitted w = some bs ∧
    ∀ (s : MCObjectInputStream) (rest : List Byte),
      MCObjectInputStream.Reachable s → MCObjectInputStream.NonFailing s →
      MCObjectInputStream.unread s = bs ++ rest →
      ∃ s1, r s = some (IO_NORMAL, some v, s1) ∧ MCObjectInputStream.unread s1 = rest

/-! ## Arithmetic and memory lemmas -/

theorem sub32_of_le {a b : Nat} (h : b ≤ a) (ha : a < 4294967296) : sub32 a b = a - b := by
  unfold sub32; omega

theorem add32_of_lt {a b : Nat} (h : a + b < 4294967296) : add32 a b = a + b := by
  unfold add32; omega

theorem MCU_min_eq (a b : Nat) : MCU_min a b = min a b := by
  unfold MCU_min; split <;> omega

theorem wrapInt32_of_range {x : Int} (h1 : -2147483648 ≤ x) (h2 : x < 2147483648) :
    wrapInt32 x = x := by
  unfold wrapInt32; omega

theorem wrapInt32_sub_wrap (x y : Int) : wrapInt32 (wrapInt32 x - y) = wrapInt32 (x - y) := by
  unfold wrapInt32; omega

theorem wrapInt32_add_wrap (x y : Int) : wrapInt32 (wrapInt32 x + y) = wrapInt32 (x + y) := by
  unfold wrapInt32; omega

theorem blit_length {mem src : List Byte} {off : Nat} (h : off + src.length ≤ mem.length) :
    (blit mem off src).length = mem.length := by
  simp [blit]; omega

theorem blit_nil (mem : List Byte) : blit mem 0 [] = mem := by
  simp [blit]

theorem slice_blit {mem src : List Byte} {off : Nat} (h : off ≤ mem.length) :
    slice (blit mem off src) off src.length = src := by
  have h1 : (mem.take off).length = off := by simp [h]
  unfold slice blit
  rw [List.append_assoc, List.drop_left' h1, List.take_left]

/-! ## The input stream over a channel that does not fail -/

namespace MCObjectInputStream

theorem unread_length {s : MCObjectInputStream} (hi : Inv s) (hn : NonFailing s) :
    (unread s).length = (s.m_limit - s.m_frontier) + s.m_remaining := by
  obtain ⟨h1, h2, h3, h4, h5⟩ := hi
  obtain ⟨_, h7⟩ := hn
  simp only [unread, slice, List.length_append, List.length_take, List.length_drop]
  omega

/-- A fill in a state whose buffered bytes are used up, over a channel
that does not fail: it loads `min(m_remaining, 16384)` bytes and leaves
the unread bytes and the mark offset as they were. -/
theorem Fill_spec {s : MCObjectInputStream} (hi : Inv s) (hn : NonFailing s)
    (hf : s.m_limit = s.m_frontier) (hr : s.m_remaining ≠ 0) :
    (Fill s).1 = IO_NORMAL ∧ Inv (Fill s).2 ∧ NonFailing (Fill s).2 ∧ (Fill s).2.m_frontier = 0 ∧
      0 < (Fill s).2.m_limit ∧ unread (Fill s).2 = unread s ∧
      markOffset (Fill s).2 = markOffset s ∧
      (Fill s).2.m_limit + (Fill s).2.m_remaining = s.m_remaining := by
  obtain ⟨h1, h2, h3, h4, h5⟩ := hi
  obtain ⟨h6, h7⟩ := hn
  have hb : sub32 s.m_bound s.m_frontier = 0 := by
    rw [sub32_of_le (by omega) (by omega)]; omega
  have hl : sub32 s.m_limit s.m_frontier = 0 := by
    rw [sub32_of_le (by omega) (by omega)]; omega
  have ha : MCU_min s.m_remaining (sub32 16384 0) = min s.m_remaining 16384 := by
    rw [MCU_min_eq, sub32_of_le (by omega) (by omega)]
  have hle : min s.m_remaining 16384 ≤ s.m_stream.data.length := by omega
  have hlen : (List.take (min s.m_remaining 16384) s.m_stream.data).length
      = min s.m_remaining 16384 := by
    rw [List.length_take]; omega
  have hs : slice (blit s.bufferBytes 0 (List.take (min s.m_remaining 16384) s.m_stream.data))
      0 (min s.m_remaining 16384)
      = List.take (min s.m_remaining 16384) s.m_stream.data := by
    have := @slice_blit s.bufferBytes
      (List.take (min s.m_remaining 16384) s.m_stream.data) 0 (by omega)
    rwa [hlen] at this
  have ea : add32 0 (min s.m_remaining 16384) = min s.m_remaining 16384 := by
    rw [add32_of_lt (by omega)]; omega
  have es : sub32 s.m_remaining (min s.m_remaining 16384)
      = s.m_remaining - min s.m_remaining 16384 := sub32_of_le (by omega) h4
  have key : Fill s = (IO_NORMAL,
      { m_stream := { s.m_stream with data := s.m_stream.data.drop (min s.m_remaining 16384) }
        m_buffer := some (blit s.bufferBytes 0
          (List.take (min s.m_remaining 16384) s.m_stream.data))
        m_frontier := 0
        m_limit := min s.m_remaining 16384
        m_bound := min s.m_remaining 16384
        m_remaining := s.m_remaining - min s.m_remaining 16384
        m_mark := wrapInt32 (s.m_mark - s.m_frontier) }) := by
    unfold Fill
    simp only [hr, if_false, hb, hl, ha, slice, List.take_zero, blit_nil, IO_read, h6, hle,
      if_true, ea, es]
  rw [key]
  refine ⟨rfl, ⟨?_, rfl, ?_, ?_, ?_⟩, ⟨h6, ?_⟩, rfl, ?_, ?_, ?_, ?_⟩
  · dsimp only; omega
  · dsimp only; omega
  · dsimp only; omega
  · show (blit s.bufferBytes 0 (List.take (min s.m_remaining 16384) s.m_stream.data)).length
      = 16384
    rw [blit_length (by omega)]; exact h5
  · dsimp only
    rw [List.length_drop]
    omega
  · dsimp only; omega
  · show slice (blit s.bufferBytes 0 (List.take (min s.m_remaining 16384) s.m_stream.data)) 0
        (min s.m_remaining 16384 - 0)
        ++ List.take (s.m_remaining - min s.m_remaining 16384)
          (List.drop (min s.m_remaining 16384) s.m_stream.data) = unread s
    unfold unread
    rw [Nat.sub_zero, hs]
    have e1 : s.m_limit - s.m_frontier = 0 := by omega
    rw [e1]
    simp only [slice, List.take_zero, List.nil_append]
    have e2 : s.m_remaining
        = min s.m_remaining 16384 + (s.m_remaining - min s.m_remaining 16384) := by omega
    conv_rhs => rw [e2, List.take_add]
  · dsimp only [markOffset]
    rw [wrapInt32_sub_wrap]; simp
  · dsimp only; omega

theorem ReadLoop_zero (fuel : Nat) (s : MCObjectInputStream) (b : Bool) :
    ReadLoop fuel s b 0 = some (IO_NORMAL, [], s) := by
  unfold ReadLoop; simp

theorem ReadLoop_fail (fuel : Nat) (s s1 : MCObjectInputStream) (b : Bool) (n : Nat)
    (st : IO_stat) (hn : n ≠ 0) (hst : st ≠ IO_NORMAL)
    (h : (if s.m_limit = s.m_frontier then Fill s else (IO_NORMAL, s)) = (st, s1)) :
    ReadLoop (fuel + 1) s b n = some (st, [], s1) := by
  conv_lhs => unfold ReadLoop
  simp only [hn, if_false, h, ne_eq, hst, not_false_eq_true, if_true]

theorem ReadLoop_step (fuel : Nat) (s s1 : MCObjectInputStream) (b : Bool) (n t : Nat)
    (hn : n ≠ 0) (ht : t = MCU_min (sub32 s1.m_limit s1.m_frontier) n)
    (h : (if s.m_limit = s.m_frontier then Fill s else (IO_NORMAL, s)) = (IO_NORMAL, s1)) :
    ReadLoop (fuel + 1) s b n =
      match ReadLoop fuel { s1 with m_frontier := add32 s1.m_frontier t } b (n - t) with
      | none => none
      | some (st, out, s2) =>
        some (st, (if b then slice s1.bufferBytes s1.m_frontier t else []) ++ out, s2) := by
  conv_lhs => unfold ReadLoop
  subst ht
  simp only [hn, if_false, h, ne_eq, not_true_eq_false]

/-- Advancing the frontier by `t` buffered bytes. -/
theorem advance_spec {s : MCObjectInputStream} (hi : Inv s) (t : Nat)
    (ht : t ≤ s.m_limit - s.m_frontier) :
    Inv { s with m_frontier := s.m_frontier + t } ∧
      (NonFailing s → NonFailing { s with m_frontier := s.m_frontier + t }) ∧
      unread s = slice s.bufferBytes s.m_frontier t ++
        unread { s with m_frontier := s.m_frontier + t } ∧
      markOffset { s with m_frontier := s.m_frontier + t } = wrapInt32 (markOffset s - t) := by
  obtain ⟨h1, h2, h3, h4, h5⟩ := hi
  refine ⟨⟨?_, h2, h3, h4, h5⟩, fun h => h, ?_, ?_⟩
  · dsimp only; omega
  · show slice s.bufferBytes s.m_frontier (s.m_limit - s.m_frontier) ++ _
      = slice s.bufferBytes s.m_frontier t ++
        (slice s.bufferBytes (s.m_frontier + t) (s.m_limit - (s.m_frontier + t)) ++ _)
    have e : s.m_limit - s.m_frontier = t + (s.m_limit - (s.m_frontier + t)) := by omega
    rw [← List.append_assoc]
    congr 1
    unfold slice
    rw [e, List.take_add, List.drop_drop]
  · dsimp only [markOffset]
    rw [wrapInt32_sub_wrap]
    congr 1
    push_cast
    omega

theorem markOffset_wrap (s : MCObjectInputStream) :
    wrapInt32 (markOffset s - (0 : Nat)) = markOffset s := by
  unfold markOffset
  rw [wrapInt32_sub_wrap]; simp

/-- The read loop over a channel that does not fail: with fuel for
`n` iterations it returns, with `IO_NORMAL` and the next `n` unread bytes
when that many are unread, with `IO_EOF` and all unread bytes otherwise. -/
theorem ReadLoop_spec (fuel : Nat) : ∀ (s : MCObjectInputStream) (b : Bool) (n : Nat),
    Inv s → NonFailing s → n ≤ fuel →
    ∃ s1, ReadLoop fuel s b n =
        some (if n ≤ (unread s).length then IO_NORMAL else IO_EOF,
          if b then (unread s).take n else [], s1) ∧
      Inv s1 ∧ NonFailing s1 ∧ unread s1 = (unread s).drop n ∧
      markOffset s1 = wrapInt32 (markOffset s - (min n (unread s).length : Nat)) := by
  induction fuel with
  | zero =>
    intro s b n hi hn hle
    have h0 : n = 0 := by omega
    subst h0
    refine ⟨s, ?_, hi, hn, by simp, ?_⟩
    · rw [ReadLoop_zero]; simp
    · rw [Nat.zero_min, markOffset_wrap]
  | succ fuel ih =>
    intro s b n hi hn hle
    by_cases h0 : n = 0
    · subst h0
      refine ⟨s, ?_, hi, hn, by simp, ?_⟩
      · rw [ReadLoop_zero]; simp
      · rw [Nat.zero_min, markOffset_wrap]
    have core : ∀ s1 : MCObjectInputStream, Inv s1 → NonFailing s1 →
        s1.m_frontier < s1.m_limit →
        (if s.m_limit = s.m_frontier then Fill s else (IO_NORMAL, s)) = (IO_NORMAL, s1) →
        unread s1 = unread s → markOffset s1 = markOffset s →
        ∃ s2, ReadLoop (fuel + 1) s b n =
          some (if n ≤ (unread s).length then IO_NORMAL else IO_EOF,
            if b then (unread s).take n else [], s2) ∧
        Inv s2 ∧ NonFailing s2 ∧ unread s2 = (unread s).drop n ∧
        markOffset s2 = wrapInt32 (markOffset s - (min n (unread s).length : Nat)) := by
      intro s1 hi1 hn1 hlt hr hu hm
      obtain ⟨t, ht⟩ : ∃ t, t = MCU_min (sub32 s1.m_limit s1.m_frontier) n := ⟨_, rfl⟩
      have hi1' := hi1
      obtain ⟨g1, g2, g3, g4, g5⟩ := hi1'
      have ht2 : t = min (s1.m_limit - s1.m_frontier) n := by
        rw [ht, MCU_min_eq, sub32_of_le (by omega) (by omega)]
      have ht3 : 1 ≤ t ∧ t ≤ n ∧ t ≤ s1.m_limit - s1.m_frontier := by omega
      have hadd : add32 s1.m_frontier t = s1.m_frontier + t := add32_of_lt (by omega)
      obtain ⟨a1, a2, a3, a4⟩ := advance_spec hi1 t ht3.2.2
      obtain ⟨s2, r1, r2, r3, r4, r5⟩ :=
        ih { s1 with m_frontier := s1.m_frontier + t } b (n - t) a1 (a2 hn1) (by omega)
      have hcl : (slice s1.bufferBytes s1.m_frontier t).length = t := by
        simp only [slice, List.length_take, List.length_drop]; omega
      have hlen : (unread s).length
          = t + (unread { s1 with m_frontier := s1.m_frontier + t }).length := by
        rw [← hu, a3, List.length_append, hcl]
      have hnt : n = (slice s1.bufferBytes s1.m_frontier t).length + (n - t) := by
        rw [hcl]; omega
      refine ⟨s2, ?_, r2, r3, ?_, ?_⟩
      · rw [ReadLoop_step fuel s s1 b n t h0 ht hr, hadd, r1]
        simp only
        congr 2
        · by_cases hc : n ≤ (unread s).length
          · rw [if_pos hc, if_pos (by omega)]
          · rw [if_neg hc, if_neg (by omega)]
        · congr 1
          cases b
          · simp
          · simp only [if_true]
            rw [← hu, a3]
            conv_rhs => rw [hnt, List.take_append]
      · rw [r4, ← hu, a3]
        conv_rhs => rw [hnt, List.drop_append]
      · rw [r5, a4, wrapInt32_sub_wrap, hm]
        congr 1
        rw [hlen]
        have : (min n (t + (unread { s1 with m_frontier := s1.m_frontier + t }).length) : Nat)
            = t + min (n - t) (unread { s1 with m_frontier := s1.m_frontier + t }).length := by
          omega
        rw [this]; push_cast; omega
    by_cases hf : s.m_limit = s.m_frontier
    · by_cases hr : s.m_remaining = 0
      · have hul : (unread s).length = 0 := by
          rw [unread_length hi hn]; omega
        have hu : unread s = [] := List.eq_nil_of_length_eq_zero hul
        refine ⟨s, ?_, hi, hn, by simp [hu], ?_⟩
        · rw [ReadLoop_fail fuel s s b n IO_EOF h0 (by decide)
            (by rw [if_pos hf]; unfold Fill; rw [if_pos hr])]
          rw [hu]; simp [h0]
        · rw [hul, Nat.min_zero, markOffset_wrap]
      · obtain ⟨f1, f2, f3, f4, f5, f6, f7, _⟩ := Fill_spec hi hn hf hr
        exact core (Fill s).2 f2 f3 (by omega)
          (by rw [if_pos hf]; exact Prod.ext f1 rfl) f6 f7
    · exact core s hi hn (by have := hi.1; omega) (by rw [if_neg hf]) rfl rfl

/-! ## The structural invariant over any channel -/

theorem IO_read_length (h : IO_handle) (n : Nat) (hn : (IO_read h n).1 = IO_NORMAL) :
    (IO_read h n).2.1.length = n := by
  unfold IO_read at hn ⊢
  split at hn
  · split at hn
    · split at hn
      · rename_i h1 h2 h3
        simp only [h2, h3, if_true, List.length_take]; omega
      · cases hn
    · rename_i h1 h2
      exact absurd hn h2
  · split at hn
    · rename_i h1 h2
      simp only [h2, if_true, List.length_take]; omega
    · cases hn

/-- A fill keeps the structural invariant and never increases
`m_remaining`, whatever the channel does. -/
theorem Fill_Inv {s : MCObjectInputStream} (hi : Inv s) :
    Inv (Fill s).2 ∧ (Fill s).2.m_remaining ≤ s.m_remaining := by
  obtain ⟨h1, h2, h3, h4, h5⟩ := hi
  unfold Fill
  by_cases hr : s.m_remaining = 0
  · rw [if_pos hr]; exact ⟨⟨h1, h2, h3, h4, h5⟩, Nat.le_refl _⟩
  rw [if_neg hr]
  have hb : sub32 s.m_bound s.m_frontier = s.m_bound - s.m_frontier :=
    sub32_of_le (by omega) (by omega)
  have hl : sub32 s.m_limit s.m_frontier = s.m_bound - s.m_frontier := by
    rw [sub32_of_le (by omega) (by omega)]; omega
  have h16 : sub32 16384 (s.m_bound - s.m_frontier) = 16384 - (s.m_bound - s.m_frontier) :=
    sub32_of_le (by omega) (by omega)
  have hlen1 : (blit s.bufferBytes 0
      (slice s.bufferBytes s.m_frontier (s.m_bound - s.m_frontier))).length = 16384 := by
    rw [blit_length]
    · exact h5
    · simp only [slice, List.length_take, List.length_drop]; omega
  simp only [hb, hl, h16, MCU_min_eq]
  have hio := IO_read_length s.m_stream
    (min s.m_remaining (16384 - (s.m_bound - s.m_frontier)))
  rcases hrd : IO_read s.m_stream (min s.m_remaining (16384 - (s.m_bound - s.m_frontier)))
    with ⟨st, bytes, h⟩
  rw [hrd] at hio
  cases st
  · have hbl : bytes.length = min s.m_remaining (16384 - (s.m_bound - s.m_frontier)) := hio rfl
    dsimp only
    rw [add32_of_lt (by omega), sub32_of_le (by omega) h4]
    refine ⟨⟨Nat.zero_le _, rfl, ?_, ?_, ?_⟩, ?_⟩
    · dsimp only; omega
    · dsimp only; omega
    · show (blit (blit s.bufferBytes 0
          (slice s.bufferBytes s.m_frontier (s.m_bound - s.m_frontier)))
          (s.m_bound - s.m_frontier) bytes).length = 16384
      rw [blit_length (by rw [hlen1, hbl]; omega)]; exact hlen1
    · dsimp only; omega
  · exact ⟨⟨Nat.zero_le _, rfl, by dsimp only; omega, h4, hlen1⟩, Nat.le_refl _⟩
  · exact ⟨⟨Nat.zero_le _, rfl, by dsimp only; omega, h4, hlen1⟩, Nat.le_refl _⟩

/-- The optional fill at the head of a loop iteration keeps the
invariant. -/
theorem refill_Inv {s : MCObjectInputStream} (hi : Inv s) :
    Inv (if s.m_limit = s.m_frontier then Fill s else (IO_NORMAL, s)).2 ∧
      (if s.m_limit = s.m_frontier then Fill s else (IO_NORMAL, s)).2.m_remaining
        ≤ s.m_remaining := by
  by_cases hf : s.m_limit = s.m_frontier
  · rw [if_pos hf]; exact Fill_Inv hi
  · rw [if_neg hf]; exact ⟨hi, Nat.le_refl _⟩

/-- Moving the frontier forward inside the buffered bytes keeps the
invariant. -/
theorem advance32_Inv {s : MCObjectInputStream} (hi : Inv s) (t : Nat)
    (ht : t ≤ s.m_limit - s.m_frontier) :
    Inv { s with m_frontier := add32 s.m_frontier t } := by
  obtain ⟨h1, h2, h3, h4, h5⟩ := hi
  rw [add32_of_lt (by omega)]
  exact ⟨by dsimp only; omega, h2, h3, h4, h5⟩

/-- The read loop keeps the structural invariant and never increases
`m_remaining`, whatever the channel does and whatever status results. -/
theorem ReadLoop_Inv (fuel : Nat) : ∀ (s s1 : MCObjectInputStream) (b : Bool) (n : Nat)
    (st : IO_stat) (out : List Byte),
    Inv s → ReadLoop fuel s b n = some (st, out, s1) →
    Inv s1 ∧ s1.m_remaining ≤ s.m_remaining := by
  induction fuel with
  | zero =>
    intro s s1 b n st out hi h
    unfold ReadLoop at h
    by_cases h0 : n = 0
    · simp only [h0, if_true, Option.some.injEq, Prod.mk.injEq] at h
      obtain ⟨_, _, rfl⟩ := h
      exact ⟨hi, Nat.le_refl _⟩
    · simp only [h0, if_false] at h
      cases h
  | succ fuel ih =>
    intro s s1 b n st out hi h
    by_cases h0 : n = 0
    · subst h0
      rw [ReadLoop_zero] at h
      simp only [Option.some.injEq, Prod.mk.injEq] at h
      obtain ⟨_, _, rfl⟩ := h
      exact ⟨hi, Nat.le_refl _⟩
    obtain ⟨r1, r2⟩ := refill_Inv hi
    rcases hr : (if s.m_limit = s.m_frontier then Fill s else (IO_NORMAL, s)) with ⟨st0, s0⟩
    rw [hr] at r1 r2
    dsimp only at r1 r2
    by_cases hst : st0 = IO_NORMAL
    · subst hst
      rw [ReadLoop_step fuel s s0 b n _ h0 rfl hr] at h
      have hadv := advance32_Inv r1 (MCU_min (sub32 s0.m_limit s0.m_frontier) n) (by
        rw [MCU_min_eq, sub32_of_le (by have := r1.1; omega)
          (by have := r1.2.1; have := r1.2.2.1; omega)]
        omega)
      split at h
      · cases h
      · rename_i st2 out2 s2 heq
        simp only [Option.some.injEq, Prod.mk.injEq] at h
        obtain ⟨_, _, rfl⟩ := h
        obtain ⟨i1, i2⟩ := ih _ _ _ _ _ _ hadv heq
        exact ⟨i1, Nat.le_trans i2 r2⟩
    · rw [ReadLoop_fail fuel s s0 b n st0 h0 hst hr] at h
      simp only [Option.some.injEq, Prod.mk.injEq] at h
      obtain ⟨_, _, rfl⟩ := h
      exact ⟨r1, r2⟩

theorem scanCString_le (l : List Byte) : (scanCString l).1 ≤ l.length := by
  induction l with
  | nil => simp [scanCString]
  | cons b bs ih =>
    unfold scanCString
    split
    · simp
    · simp only [List.length_cons]; omega

/-- The string loop keeps the structural invariant and never increases
`m_remaining`. -/
theorem ReadCStringLoop_Inv (fuel : Nat) : ∀ (s s1 : MCObjectInputStream) (acc out : List Byte)
    (st : IO_stat),
    Inv s → ReadCStringLoop fuel s acc = some (st, out, s1) →
    Inv s1 ∧ s1.m_remaining ≤ s.m_remaining := by
  induction fuel with
  | zero =>
    intro s s1 acc out st hi h
    unfold ReadCStringLoop at h
    cases h
  | succ fuel ih =>
    intro s s1 acc out st hi h
    obtain ⟨r1, r2⟩ := refill_Inv hi
    unfold ReadCStringLoop at h
    rcases hr : (if s.m_limit = s.m_frontier then Fill s else (IO_NORMAL, s)) with ⟨st0, s0⟩
    rw [hr] at r1 r2 h
    dsimp only at r1 r2 h
    have hadv := advance32_Inv r1
      (scanCString (slice s0.bufferBytes s0.m_frontier (sub32 s0.m_limit s0.m_frontier))).1 (by
        refine Nat.le_trans (scanCString_le _) ?_
        rw [sub32_of_le (by have := r1.1; omega)
          (by have := r1.2.1; have := r1.2.2.1; omega)]
        simp only [slice, List.length_take]
        omega)
    by_cases hst : st0 = IO_NORMAL
    · subst hst
      simp only [ne_eq, not_true_eq_false, if_false] at h
      split at h
      · simp only [Option.some.injEq, Prod.mk.injEq] at h
        obtain ⟨_, _, rfl⟩ := h
        exact ⟨hadv, r2⟩
      · obtain ⟨i1, i2⟩ := ih _ _ _ _ _ hadv h
        exact ⟨i1, Nat.le_trans i2 r2⟩
    · simp only [ne_eq, hst, not_false_eq_true, if_true, Option.some.injEq, Prod.mk.injEq] at h
      obtain ⟨_, _, rfl⟩ := h
      exact ⟨r1, r2⟩

theorem Read_Inv {s s1 : MCObjectInputStream} {b : Bool} {n : Nat} {st : IO_stat}
    {out : List Byte} (hi : Inv s) (h : Read s b n = some (st, out, s1)) :
    Inv s1 ∧ s1.m_remaining ≤ s.m_remaining :=
  ReadLoop_Inv n s s1 b n st out hi h

theorem ReadU32_Inv {s s1 : MCObjectInputStream} {le : Bool} {st : IO_stat} {v : Option Nat}
    (hi : Inv s) (h : ReadU32 le s = some (st, v, s1)) :
    Inv s1 ∧ s1.m_remaining ≤ s.m_remaining := by
  unfold ReadU32 at h
  rcases hr : Read s true 4 with _ | ⟨st0, out0, s0⟩
  · rw [hr] at h; cases h
  · rw [hr] at h
    simp only [Option.map_some', Option.some.injEq, Prod.mk.injEq] at h
    obtain ⟨_, _, rfl⟩ := h
    exact Read_Inv hi hr

theorem ReadTag_Inv {s s1 : MCObjectInputStream} {le : Bool} {st : IO_stat} {v : Option Tag}
    (hi : Inv s) (h : ReadTag le s = some (st, v, s1)) :
    Inv s1 ∧ s1.m_remaining ≤ s.m_remaining := by
  unfold ReadTag at h
  split at h
  · cases h
  · rename_i t_tag s0 h1
    have ⟨i1, i2⟩ := ReadU32_Inv hi h1
    split at h
    · simp only [Option.some.injEq, Prod.mk.injEq] at h
      obtain ⟨_, _, rfl⟩ := h
      exact ⟨i1, i2⟩
    · split at h
      · cases h
      · rename_i t_ext s2 h2
        simp only [Option.some.injEq, Prod.mk.injEq] at h
        obtain ⟨_, _, rfl⟩ := h
        have ⟨j1, j2⟩ := ReadU32_Inv i1 h2
        exact ⟨j1, Nat.le_trans j2 i2⟩
      · rename_i st2 v2 s2 _ h2
        simp only [Option.some.injEq, Prod.mk.injEq] at h
        obtain ⟨_, _, rfl⟩ := h
        have ⟨j1, j2⟩ := ReadU32_Inv i1 h2
        exact ⟨j1, Nat.le_trans j2 i2⟩
  · rename_i st0 v0 s0 _ h1
    simp only [Option.some.injEq, Prod.mk.injEq] at h
    obtain ⟨_, _, rfl⟩ := h
    exact ReadU32_Inv hi h1

theorem ReadCString_Inv {s s1 : MCObjectInputStream} {st : IO_stat} {v : Option (List Byte)}
    (hi : Inv s) (h : ReadCString s = some (st, v, s1)) :
    Inv s1 ∧ s1.m_remaining ≤ s.m_remaining := by
  unfold ReadCString at h
  split at h
  · cases h
  · rename_i out s0 h1
    have hh := ReadCStringLoop_Inv _ _ _ _ _ _ hi h1
    split at h
    · simp only [Option.some.injEq, Prod.mk.injEq] at h
      obtain ⟨_, _, rfl⟩ := h
      exact hh
    · split at h <;>
      · simp only [Option.some.injEq, Prod.mk.injEq] at h
        obtain ⟨_, _, rfl⟩ := h
        exact hh
  · rename_i st0 out s0 _ h1
    simp only [Option.some.injEq, Prod.mk.injEq] at h
    obtain ⟨_, _, rfl⟩ := h
    exact ReadCStringLoop_Inv _ _ _ _ _ _ hi h1

theorem Inv_mark {s : MCObjectInputStream} (m : Int) (hi : Inv s) :
    Inv { s with m_mark := m } := by
  obtain ⟨h1, h2, h3, h4, h5⟩ := hi
  exact ⟨h1, h2, h3, h4, h5⟩

theorem NonFailing_mark {s : MCObjectInputStream} (m : Int) (hn : NonFailing s) :
    NonFailing { s with m_mark := m } := hn

theorem unread_mark (s : MCObjectInputStream) (m : Int) :
    unread { s with m_mark := m } = unread s := rfl

theorem Skip_Inv {s s1 : MCObjectInputStream} {n : Nat} {st : IO_stat}
    (hi : Inv s) (h : Skip s n = some (st, s1)) :
    Inv s1 ∧ s1.m_remaining ≤ s.m_remaining := by
  unfold Skip at h
  dsimp only at h
  split at h
  · simp only [Option.some.injEq, Prod.mk.injEq] at h
    obtain ⟨_, rfl⟩ := h
    exact ⟨hi, Nat.le_refl _⟩
  · split at h
    · rcases hr : Read { s with m_mark := wrapInt32 (wrapInt32 (s.m_mark - s.m_frontier) + n) }
        false (wrapInt32 (wrapInt32 (s.m_mark - s.m_frontier) + n)).toNat
        with _ | ⟨st0, out0, s0⟩
      · rw [hr] at h; cases h
      · rw [hr] at h
        simp only [Option.map_some', Option.some.injEq, Prod.mk.injEq] at h
        obtain ⟨_, rfl⟩ := h
        have hh := Read_Inv (Inv_mark _ hi) hr
        exact hh
    · simp only [Option.some.injEq, Prod.mk.injEq] at h
      obtain ⟨_, rfl⟩ := h
      exact ⟨hi, Nat.le_refl _⟩

theorem Flush_Inv {s s1 : MCObjectInputStream} {st : IO_stat}
    (hi : Inv s) (h : Flush s = some (st, s1)) :
    Inv s1 ∧ s1.m_remaining ≤ s.m_remaining := by
  unfold Flush at h
  rcases hr : Read s false s.m_remaining with _ | ⟨st0, out0, s0⟩
  · rw [hr] at h; cases h
  · rw [hr] at h
    simp only [Option.map_some', Option.some.injEq, Prod.mk.injEq] at h
    obtain ⟨_, rfl⟩ := h
    exact Read_Inv hi hr

/-- Every reachable state satisfies the structural invariant. -/
theorem Reachable_Inv {s : MCObjectInputStream} (h : Reachable s) : Inv s := by
  induction h with
  | new p_stream p_remaining h =>
    refine ⟨Nat.le_refl _, rfl, Nat.zero_le _, h, ?_⟩
    show (List.replicate capacity (0 : Byte)).length = 16384
    rw [List.length_replicate]; rfl
  | read _ h ih => exact (Read_Inv ih h).1
  | readCString _ h ih => exact (ReadCString_Inv ih h).1
  | readTag _ h ih => exact (ReadTag_Inv ih h).1
  | mark _ ih => exact Inv_mark _ ih
  | skip _ h ih => exact (Skip_Inv ih h).1
  | flush _ h ih => exact (Flush_Inv ih h).1

/-! ## Reads over a channel that does not fail -/

/-- `Read` over a channel that does not fail. -/
theorem Read_spec {s : MCObjectInputStream} (hi : Inv s) (hn : NonFailing s) (b : Bool)
    (n : Nat) :
    ∃ s1, Read s b n =
        some (if n ≤ (unread s).length then IO_NORMAL else IO_EOF,
          if b then (unread s).take n else [], s1) ∧
      Inv s1 ∧ NonFailing s1 ∧ unread s1 = (unread s).drop n ∧
      markOffset s1 = wrapInt32 (markOffset s - (min n (unread s).length : Nat)) :=
  ReadLoop_spec n s b n hi hn (Nat.le_refl n)

theorem unread_new (h : IO_handle) (R : Nat) :
    unread (MCObjectInputStream.new h R) = h.data.take R := by
  simp [unread, MCObjectInputStream.new, slice]

theorem Inv_new (h : IO_handle) (R : Nat) (hR : R < 4294967296) :
    Inv (MCObjectInputStream.new h R) :=
  Reachable_Inv (Reachable.new h R hR)

theorem readCalls_spec (amounts : List Nat) : ∀ (s : MCObjectInputStream),
    Inv s → NonFailing s → amounts.sum ≤ (unread s).length →
    ∃ s1, readCalls s amounts =
        some (amounts.map (fun _ => IO_NORMAL), (unread s).take amounts.sum, s1) ∧
      Inv s1 ∧ NonFailing s1 ∧ unread s1 = (unread s).drop amounts.sum := by
  induction amounts with
  | nil =>
    intro s hi hn _
    exact ⟨s, by simp [readCalls], hi, hn, by simp⟩
  | cons n ns ih =>
    intro s hi hn hsum
    rw [List.sum_cons] at hsum
    obtain ⟨s1, r1, r2, r3, r4, _⟩ := Read_spec hi hn true n
    rw [if_pos (by omega)] at r1
    obtain ⟨s2, q1, q2, q3, q4⟩ := ih s1 r2 r3 (by
      rw [r4, List.length_drop]; omega)
    refine ⟨s2, ?_, q2, q3, ?_⟩
    · unfold readCalls
      rw [r1]
      simp only [q1, if_true, List.map_cons, List.sum_cons, r4]
      rw [List.take_add]
    · rw [q4, r4, List.drop_drop, List.sum_cons]

theorem Mark_snd (s : MCObjectInputStream) :
    (Mark s).2 = { s with m_mark := wrapInt32 (s.m_frontier : Int) } := rfl

theorem markOffset_mark (s : MCObjectInputStream) (m : Int) :
    markOffset { s with m_mark := m } = wrapInt32 (m - s.m_frontier) := rfl

theorem markOffset_Mark {s : MCObjectInputStream} (hi : Inv s) : markOffset (Mark s).2 = 0 := by
  obtain ⟨h1, h2, h3, _, _⟩ := hi
  rw [Mark_snd, markOffset_mark, wrapInt32_sub_wrap]
  unfold wrapInt32
  omega

/-- What a sequence of reads does to the unread bytes and to the mark
offset, over a channel that does not fail. -/
theorem Consumed_spec {s s1 : MCObjectInputStream} {k : Nat} (hc : Consumed s k s1) :
    Inv s → NonFailing s →
    Inv s1 ∧ NonFailing s1 ∧ k ≤ (unread s).length ∧ unread s1 = (unread s).drop k ∧
      markOffset s1 = wrapInt32 (markOffset s - k) := by
  induction hc with
  | refl =>
    intro hi hn
    exact ⟨hi, hn, Nat.zero_le _, by simp, (markOffset_wrap s).symm⟩
  | read _ hr ih =>
    rename_i sa sb k b n st out _
    intro hi hn
    obtain ⟨i1, i2, i3, i4, i5⟩ := ih hi hn
    obtain ⟨s2, r1, r2, r3, r4, r5⟩ := Read_spec i1 i2 b n
    rw [hr] at r1
    simp only [Option.some.injEq, Prod.mk.injEq] at r1
    obtain ⟨_, _, rfl⟩ := r1
    have hl1 : (unread sa).length = (unread s).length - k := by
      rw [i4, List.length_drop]
    have hl2 : (unread sb).length = (unread sa).length - n := by
      rw [r4, List.length_drop]
    have hcn : (unread sa).length - (unread sb).length = min n (unread sa).length := by
      omega
    refine ⟨r2, r3, by omega, ?_, ?_⟩
    · rw [hcn]
      by_cases hle : n ≤ (unread sa).length
      · rw [Nat.min_eq_left hle, r4, i4, List.drop_drop]
      · rw [Nat.min_eq_right (by omega), r4, List.drop_eq_nil_of_le (by omega)]
        symm
        apply List.drop_eq_nil_of_le
        omega
    · rw [hcn, r5, i5, wrapInt32_sub_wrap]
      congr 1
      push_cast
      omega

theorem Skip_eq (s : MCObjectInputStream) (L : Nat) (m : Int)
    (hm : m = wrapInt32 (markOffset s + L)) :
    Skip s L =
      if m < 0 then some (IO_ERROR, { s with m_mark := m })
      else if m > 0 then
        (Read { s with m_mark := m } false m.toNat).map fun r => (r.1, r.2.2)
      else some (IO_NORMAL, { s with m_mark := m }) := by
  subst hm
  unfold Skip markOffset
  dsimp only

/-- `Skip` over a channel that does not fail, in terms of the mark
offset `m = (mark - frontier) + length` reduced to 32 bits: a negative
`m` gives `IO_ERROR` and reads nothing, otherwise `m` bytes are read. -/
theorem Skip_spec {s : MCObjectInputStream} (hi : Inv s) (hn : NonFailing s) (L : Nat) :
    (wrapInt32 (markOffset s + L) < 0 →
      ∃ s1, Skip s L = some (IO_ERROR, s1) ∧ unread s1 = unread s) ∧
    (0 ≤ wrapInt32 (markOffset s + L) →
      ∃ s1, Skip s L =
          some (if (wrapInt32 (markOffset s + L)).toNat ≤ (unread s).length
            then IO_NORMAL else IO_EOF, s1) ∧
        unread s1 = (unread s).drop (wrapInt32 (markOffset s + L)).toNat) := by
  obtain ⟨m, hm⟩ : ∃ m, m = wrapInt32 (markOffset s + L) := ⟨_, rfl⟩
  rw [Skip_eq s L m hm, ← hm]
  constructor
  · intro h
    exact ⟨_, by rw [if_pos h], unread_mark s m⟩
  · intro h
    rw [if_neg (by omega)]
    by_cases h0 : m = 0
    · subst h0
      refine ⟨{ s with m_mark := 0 }, ?_, ?_⟩
      · simp only [gt_iff_lt, lt_irrefl, if_false, Int.toNat_zero, Nat.zero_le, if_true]
      · rw [unread_mark]; simp
    · obtain ⟨s1, r1, _, _, r4, _⟩ := Read_spec (Inv_mark m hi) (NonFailing_mark m hn) false
        m.toNat
      rw [unread_mark] at r1 r4
      refine ⟨s1, ?_, r4⟩
      rw [if_pos (by omega), r1]
      rfl

/-- A stream over 2147483650 bytes: after `Mark()` and a read of
2147483649 bytes one byte is unread and the mark offset has wrapped
around to 2147483647, so `Skip(0)` reads on to the end of the region. -/
theorem long_read_then_skip (data : List Byte) (hlen : data.length = 2147483650) :
    ∃ s s1,
      Consumed (Mark (MCObjectInputStream.new
        { data := data, sink := [], faults := [] } 2147483650)).2 2147483649 s ∧
      (unread s).length = 1 ∧ Skip s 0 = some (IO_EOF, s1) ∧ unread s1 = [] := by
  have hi0 := Inv_new { data := data, sink := [], faults := [] } 2147483650 (by omega)
  have hn0 : NonFailing (MCObjectInputStream.new
      { data := data, sink := [], faults := [] } 2147483650) := ⟨rfl, Nat.le_of_eq hlen.symm⟩
  have hu0 : (unread (MCObjectInputStream.new
      { data := data, sink := [], faults := [] } 2147483650)).length = 2147483650 := by
    rw [unread_new, List.length_take]; dsimp only; omega
  have hmo := markOffset_Mark hi0
  rw [Mark_snd] at hmo ⊢
  have hum := unread_mark (MCObjectInputStream.new
      { data := data, sink := [], faults := [] } 2147483650)
    (wrapInt32 ((MCObjectInputStream.new
      { data := data, sink := [], faults := [] } 2147483650).m_frontier : Int))
  obtain ⟨s, r1, r2, r3, r4, r5⟩ := Read_spec (Inv_mark _ hi0) (NonFailing_mark _ hn0) false
    2147483649
  rw [hum] at r4 r5
  rw [hmo, hu0] at r5
  have hus : (unread s).length = 1 := by
    rw [r4, List.length_drop, hu0]
  have hc := Consumed.read (Consumed.refl _) r1
  rw [hum, hu0, hus] at hc
  have hm : wrapInt32 (markOffset s + (0 : Nat)) = 2147483647 := by
    rw [r5, wrapInt32_add_wrap]
    unfold wrapInt32
    omega
  obtain ⟨s1, q1, q2⟩ := (Skip_spec r2 r3 0).2 (by rw [hm]; omega)
  rw [hm, hus] at q1
  refine ⟨s, s1, hc, hus, ?_, ?_⟩
  · rw [q1, if_neg (by omega)]
  · rw [q2, hm]
    exact List.drop_eq_nil_of_le (by rw [hus]; omega)

end MCObjectInputStream

/-! ## The output stream over a channel that does not fail -/

namespace MCObjectOutputStream

theorem take_blit {mem src : List Byte} {off : Nat} (h : off ≤ mem.length) :
    slice (blit mem off src) 0 (off + src.length) = mem.take off ++ src := by
  have h1 : (mem.take off ++ src).length = off + src.length := by
    rw [List.length_append, List.length_take, Nat.min_eq_left h]
  unfold slice blit
  rw [List.drop_zero, List.take_left' h1]

theorem Inv_fresh (h : IO_handle) : Inv (MCObjectOutputStream.new h) := by
  refine ⟨Nat.zero_le _, ?_⟩
  show (List.replicate capacity (0 : Byte)).length = 16384
  rw [List.length_replicate]; rfl

theorem written_new (h : IO_handle) : written (MCObjectOutputStream.new h) = h.sink := by
  show h.sink ++ slice (List.replicate capacity (0 : Byte)) 0 0 = h.sink
  unfold slice
  rw [List.take_zero, List.append_nil]

/-- A flush over a channel that does not fail hands `buffer[0, frontier)`
to the channel and empties the buffer. -/
theorem Flush_spec {s : MCObjectOutputStream} (hi : Inv s) (hf : s.m_stream.faults = [])
    (e : Bool) :
    (Flush s e).1 = IO_NORMAL ∧ Inv (Flush s e).2 ∧ (Flush s e).2.m_stream.faults = [] ∧
      (Flush s e).2.m_frontier = 0 ∧ (Flush s e).2.m_stream.sink = written s ∧
      written (Flush s e).2 = written s := by
  obtain ⟨h1, h2⟩ := hi
  have h0 : sub32 s.m_frontier s.m_frontier = 0 := by
    rw [sub32_of_le (Nat.le_refl _) (by omega)]; omega
  have key : Flush s e = (IO_NORMAL,
      { m_stream := { s.m_stream with sink := s.m_stream.sink ++ slice s.m_buffer 0 s.m_frontier }
        m_buffer := s.m_buffer
        m_frontier := 0
        m_mark := 0 }) := by
    unfold Flush
    simp only [MCS_write, hf, h0, slice, List.take_zero, blit_nil, List.drop_zero]
  rw [key]
  refine ⟨rfl, ⟨Nat.zero_le _, h2⟩, hf, rfl, rfl, ?_⟩
  show (s.m_stream.sink ++ slice s.m_buffer 0 s.m_frontier) ++ slice s.m_buffer 0 0
    = s.m_stream.sink ++ slice s.m_buffer 0 s.m_frontier
  unfold slice
  rw [List.take_zero, List.append_nil]

theorem WriteLoop_zero (fuel : Nat) (s : MCObjectOutputStream) (d : List Byte) :
    WriteLoop fuel s d 0 = some (IO_NORMAL, s) := by
  unfold WriteLoop; simp

theorem WriteLoop_step (fuel : Nat) (s s1 : MCObjectOutputStream) (d : List Byte) (n t : Nat)
    (hn : n ≠ 0) (ht : t = MCU_min (sub32 16384 s1.m_frontier) n)
    (h : (if s.m_frontier = 16384 then Flush s false else (IO_NORMAL, s)) = (IO_NORMAL, s1)) :
    WriteLoop (fuel + 1) s d n =
      WriteLoop fuel
        { s1 with
          m_buffer := blit s1.m_buffer s1.m_frontier (d.take t)
          m_frontier := add32 s1.m_frontier t }
        (d.drop t) (n - t) := by
  conv_lhs => unfold WriteLoop
  subst ht
  simp only [hn, if_false, h, ne_eq, not_true_eq_false]

/-- The write loop over a channel that does not fail: with fuel for `n`
iterations it returns `IO_NORMAL` and appends the `n` source bytes to what
has been written. -/
theorem WriteLoop_spec (fuel : Nat) : ∀ (s : MCObjectOutputStream) (d : List Byte) (n : Nat),
    Inv s → s.m_stream.faults = [] → n ≤ d.length → n ≤ fuel →
    ∃ s1, WriteLoop fuel s d n = some (IO_NORMAL, s1) ∧ Inv s1 ∧ s1.m_stream.faults = [] ∧
      written s1 = written s ++ d.take n := by
  induction fuel with
  | zero =>
    intro s d n hi hf _ hle
    have h0 : n = 0 := by omega
    subst h0
    exact ⟨s, WriteLoop_zero 0 s d, hi, hf, by simp⟩
  | succ fuel ih =>
    intro s d n hi hf hd hle
    by_cases h0 : n = 0
    · subst h0
      exact ⟨s, WriteLoop_zero _ s d, hi, hf, by simp⟩
    have core : ∀ s1 : MCObjectOutputStream, Inv s1 → s1.m_stream.faults = [] →
        s1.m_frontier < 16384 →
        (if s.m_frontier = 16384 then Flush s false else (IO_NORMAL, s)) = (IO_NORMAL, s1) →
        written s1 = written s →
        ∃ s2, WriteLoop (fuel + 1) s d n = some (IO_NORMAL, s2) ∧ Inv s2 ∧
          s2.m_stream.faults = [] ∧ written s2 = written s ++ d.take n := by
      intro s1 hi1 hf1 hlt hr hw
      obtain ⟨g1, g2⟩ := hi1
      obtain ⟨t, ht⟩ : ∃ t, t = MCU_min (sub32 16384 s1.m_frontier) n := ⟨_, rfl⟩
      have ht2 : t = min (16384 - s1.m_frontier) n := by
        rw [ht, MCU_min_eq, sub32_of_le (by omega) (by omega)]
      have ht3 : 1 ≤ t ∧ t ≤ n ∧ s1.m_frontier + t ≤ 16384 := by omega
      have hadd : add32 s1.m_frontier t = s1.m_frontier + t := add32_of_lt (by omega)
      have htl : (d.take t).length = t := by
        rw [List.length_take]; omega
      have hi2 : Inv { s1 with
          m_buffer := blit s1.m_buffer s1.m_frontier (d.take t)
          m_frontier := s1.m_frontier + t } := by
        refine ⟨ht3.2.2, ?_⟩
        show (blit s1.m_buffer s1.m_frontier (d.take t)).length = 16384
        rw [blit_length (by rw [htl]; omega)]; exact g2
      obtain ⟨s2, r1, r2, r3, r4⟩ := ih _ (d.drop t) (n - t) hi2 hf1
        (by rw [List.length_drop]; omega) (by omega)
      refine ⟨s2, ?_, r2, r3, ?_⟩
      · rw [WriteLoop_step fuel s s1 d n t h0 ht hr, hadd, r1]
      · rw [r4, ← hw]
        show (s1.m_stream.sink ++
            slice (blit s1.m_buffer s1.m_frontier (d.take t)) 0 (s1.m_frontier + t)) ++
            (d.drop t).take (n - t)
          = (s1.m_stream.sink ++ slice s1.m_buffer 0 s1.m_frontier) ++ d.take n
        have e1 := @take_blit s1.m_buffer (d.take t) s1.m_frontier (by omega)
        rw [htl] at e1
        have e2 : n = t + (n - t) := by omega
        rw [e1]
        conv_rhs => rw [e2, List.take_add]
        simp only [slice, List.drop_zero, List.append_assoc]
    by_cases hfull : s.m_frontier = 16384
    · obtain ⟨f1, f2, f3, f4, _, f6⟩ := Flush_spec hi hf false
      exact core (Flush s false).2 f2 f3 (by omega)
        (by rw [if_pos hfull]; exact Prod.ext f1 rfl) f6
    · exact core s hi hf (by have := hi.1; omega) (by rw [if_neg hfull]) rfl

/-- `Write` over a channel that does not fail. -/
theorem Write_spec {s : MCObjectOutputStream} (hi : Inv s) (hf : s.m_stream.faults = [])
    (d : List Byte) (n : Nat) (hn : n ≤ d.length) :
    ∃ s1, Write s d n = some (IO_NORMAL, s1) ∧ Inv s1 ∧ s1.m_stream.faults = [] ∧
      written s1 = written s ++ d.take n :=
  WriteLoop_spec n s d n hi hf hn (Nat.le_refl n)

theorem writeCalls_spec (ds : List (List Byte)) : ∀ (s : MCObjectOutputStream),
    Inv s → s.m_stream.faults = [] →
    ∃ s1, writeCalls s ds = some (ds.map (fun _ => IO_NORMAL), s1) ∧ Inv s1 ∧
      s1.m_stream.faults = [] ∧ written s1 = written s ++ ds.flatten := by
  induction ds with
  | nil =>
    intro s hi hf
    exact ⟨s, rfl, hi, hf, by simp⟩
  | cons d ds ih =>
    intro s hi hf
    obtain ⟨s1, r1, r2, r3, r4⟩ := Write_spec hi hf d d.length (Nat.le_refl _)
    obtain ⟨s2, q1, q2, q3, q4⟩ := ih s1 r2 r3
    refine ⟨s2, ?_, q2, q3, ?_⟩
    · unfold writeCalls
      rw [r1]
      simp only [q1, List.map_cons]
    · rw [q4, r4, List.take_length, List.flatten_cons, List.append_assoc]

end MCObjectOutputStream

/-! ## Bit-level arithmetic of the codecs -/

theorem and_mask (x k n : Nat) :
    x &&& ((2 ^ n - 1) * 2 ^ k) = (x / 2 ^ k % 2 ^ n) * 2 ^ k := by
  apply Nat.eq_of_testBit_eq
  intro i
  rw [Nat.testBit_and, Nat.mul_comm (2 ^ n - 1), Nat.mul_comm (x / 2 ^ k % 2 ^ n),
    Nat.testBit_mul_pow_two, Nat.testBit_mul_pow_two, Nat.testBit_two_pow_sub_one,
    Nat.testBit_mod_two_pow, ← Nat.shiftRight_eq_div_pow, Nat.testBit_shiftRight]
  by_cases h : k ≤ i
  · have e : k + (i - k) = i := by omega
    simp [h, e, Bool.and_comm]
  · simp [h]

theorem or_disjoint (a b k : Nat) (h : a < 2 ^ k) : a ||| (b * 2 ^ k) = a + b * 2 ^ k := by
  rw [Nat.lor_comm, Nat.mul_comm b, ← Nat.mul_add_lt_is_or h, Nat.add_comm]

theorem and_0xFF (x : Nat) : x &&& 0xFF = x % 256 := Nat.and_pow_two_sub_one_eq_mod x 8

theorem and_0xFF00 (x : Nat) : x &&& 0xFF00 = (x / 256 % 256) * 256 := and_mask x 8 8

theorem and_0xFF0000 (x : Nat) : x &&& 0xFF0000 = (x / 65536 % 256) * 65536 := and_mask x 16 8

theorem and_0xFF000000 (x : Nat) : x &&& 0xFF000000 = (x / 16777216 % 256) * 16777216 :=
  and_mask x 24 8

theorem and_0xFFFFFF (x : Nat) : x &&& 0xFFFFFF = x % 16777216 :=
  Nat.and_pow_two_sub_one_eq_mod x 24

theorem and_0x7FFFFF (x : Nat) : x &&& 0x7FFFFF = x % 8388608 :=
  Nat.and_pow_two_sub_one_eq_mod x 23

theorem and_bit31 (x : Nat) : x &&& (1 <<< 31) = (x / 2147483648 % 2) * 2147483648 :=
  and_mask x 31 1

/-- The 16-bit exchange in arithmetic form. -/
theorem swap16_arith (x : Nat) (hx : x < 65536) :
    MCSwapInt16HostToNetwork true x = x / 256 + (x % 256) * 256 := by
  unfold MCSwapInt16HostToNetwork
  rw [if_pos rfl, and_0xFF, Nat.shiftRight_eq_div_pow, Nat.shiftLeft_eq,
    or_disjoint _ _ 8 (by omega)]
  omega

/-- The 32-bit reversal in arithmetic form. -/
theorem swap32_arith (x : Nat) (hx : x < 4294967296) :
    MCSwapInt32HostToNetwork true x =
      x / 16777216 + (x / 65536 % 256) * 256 + (x / 256 % 256) * 65536 +
        (x % 256) * 16777216 := by
  unfold MCSwapInt32HostToNetwork
  have e2 : (x &&& 0xFF00) <<< 8 = (x / 256 % 256) * 2 ^ 16 := by
    rw [and_0xFF00, Nat.shiftLeft_eq]; omega
  have e3 : (x &&& 0xFF) <<< 24 = (x % 256) * 2 ^ 24 := by
    rw [and_0xFF, Nat.shiftLeft_eq]
  have e1 : (x >>> 8) &&& 0xFF00 = (x / 65536 % 256) * 2 ^ 8 := by
    rw [and_0xFF00, Nat.shiftRight_eq_div_pow]; omega
  rw [if_pos rfl, e1, e2, e3, Nat.shiftRight_eq_div_pow, or_disjoint _ _ 8 (by omega),
    or_disjoint _ _ 16 (by omega), or_disjoint _ _ 24 (by omega)]
  omega

/-- The 64-bit shift-and-mask expression in arithmetic form: the eight
bytes of `x` in reverse order. -/
theorem swap64_arith (x : Nat) (hx : x < 18446744073709551616) :
    swapInt64 true x =
      x / 72057594037927936 + (x / 281474976710656 % 256) * 256 +
        (x / 1099511627776 % 256) * 65536 + (x / 4294967296 % 256) * 16777216 +
        (x / 16777216 % 256) * 4294967296 + (x / 65536 % 256) * 1099511627776 +
        (x / 256 % 256) * 281474976710656 + (x % 256) * 72057594037927936 := by
  unfold swapInt64
  have e1 : (x >>> 40) &&& 0xFF00 = (x / 281474976710656 % 256) * 2 ^ 8 := by
    rw [and_0xFF00, Nat.shiftRight_eq_div_pow]; omega
  have e2 : (x >>> 24) &&& 0xFF0000 = (x / 1099511627776 % 256) * 2 ^ 16 := by
    rw [and_0xFF0000, Nat.shiftRight_eq_div_pow]; omega
  have e3 : (x >>> 8) &&& 0xFF000000 = (x / 4294967296 % 256) * 2 ^ 24 := by
    rw [and_0xFF000000, Nat.shiftRight_eq_div_pow]; omega
  have e4 : (x &&& 0xFF000000) <<< 8 = (x / 16777216 % 256) * 2 ^ 32 := by
    rw [and_0xFF000000, Nat.shiftLeft_eq]; omega
  have e5 : (x &&& 0xFF0000) <<< 24 = (x / 65536 % 256) * 2 ^ 40 := by
    rw [and_0xFF0000, Nat.shiftLeft_eq]; omega
  have e6 : (x &&& 0xFF00) <<< 40 = (x / 256 % 256) * 2 ^ 48 := by
    rw [and_0xFF00, Nat.shiftLeft_eq]; omega
  have e7 : (x <<< 56) % 18446744073709551616 = (x % 256) * 2 ^ 56 := by
    rw [Nat.shiftLeft_eq]; omega
  rw [if_pos rfl, e1, e2, e3, e4, e5, e6, e7, Nat.shiftRight_eq_div_pow,
    or_disjoint _ _ 8 (by omega), or_disjoint _ _ 16 (by omega), or_disjoint _ _ 24 (by omega),
    or_disjoint _ _ 32 (by omega), or_disjoint _ _ 40 (by omega), or_disjoint _ _ 48 (by omega),
    or_disjoint _ _ 56 (by omega)]
  omega

theorem val_ofNat (a : Nat) : ((Fin.ofNat a : Byte)).val = a % 256 := rfl

theorem ofNat_val (b : Byte) : (Fin.ofNat b.val : Byte) = b := by
  apply Fin.ext
  rw [val_ofNat]
  exact Nat.mod_eq_of_lt b.isLt

theorem bytesLE_length (n v : Nat) : (bytesLE n v).length = n := by
  induction n generalizing v with
  | zero => rfl
  | succ n ih => simp only [bytesLE, List.length_cons, ih]

/-- The memory image of a value read back on the same host. -/
theorem valueLE_bytesLE (n v : Nat) : valueLE (bytesLE n v) = v % 256 ^ n := by
  induction n generalizing v with
  | zero => simp [bytesLE, valueLE, Nat.mod_one]
  | succ n ih =>
    simp only [bytesLE, valueLE, val_ofNat, ih]
    rw [Nat.pow_succ', Nat.mod_mul, Nat.mod_mod]

/-- Every memory image is the image of its value. -/
theorem bytesLE_valueLE (bs : List Byte) : bytesLE bs.length (valueLE bs) = bs := by
  induction bs with
  | nil => rfl
  | cons b bs ih =>
    have hb := b.isLt
    have e1 : (b.val + 256 * valueLE bs) % 256 = b.val := by omega
    have e2 : (b.val + 256 * valueLE bs) / 256 = valueLE bs := by omega
    simp only [List.length_cons, bytesLE, valueLE, e1, e2, ih, ofNat_val]

theorem swap16_reverse (x : Nat) (hx : x < 65536) :
    MCSwapInt16HostToNetwork true x = valueLE (bytesLE 2 x).reverse := by
  rw [swap16_arith x hx]
  simp only [bytesLE, valueLE, val_ofNat, List.reverse_cons, List.reverse_nil, List.nil_append,
    List.cons_append, Nat.div_div_eq_div_mul, Nat.mod_mod, Nat.reduceMul]
  have h1 : x / 256 % 256 = x / 256 := by omega
  rw [h1]
  generalize x / 256 = a1
  generalize x % 256 = a0
  omega

theorem swap32_reverse (x : Nat) (hx : x < 4294967296) :
    MCSwapInt32HostToNetwork true x = valueLE (bytesLE 4 x).reverse := by
  rw [swap32_arith x hx]
  simp only [bytesLE, valueLE, val_ofNat, List.reverse_cons, List.reverse_nil, List.nil_append,
    List.cons_append, Nat.div_div_eq_div_mul, Nat.mod_mod, Nat.reduceMul]
  have h1 : x / 16777216 % 256 = x / 16777216 := by omega
  rw [h1]
  generalize x / 16777216 = a3
  generalize x / 65536 % 256 = a2
  generalize x / 256 % 256 = a1
  generalize x % 256 = a0
  omega

theorem swap64_reverse (x : Nat) (hx : x < 18446744073709551616) :
    swapInt64 true x = valueLE (bytesLE 8 x).reverse := by
  rw [swap64_arith x hx]
  simp only [bytesLE, valueLE, val_ofNat, List.reverse_cons, List.reverse_nil, List.nil_append,
    List.cons_append, Nat.div_div_eq_div_mul, Nat.mod_mod, Nat.reduceMul]
  have h1 : x / 72057594037927936 % 256 = x / 72057594037927936 := by omega
  rw [h1]
  generalize x / 72057594037927936 = a7
  generalize x / 281474976710656 % 256 = a6
  generalize x / 1099511627776 % 256 = a5
  generalize x / 4294967296 % 256 = a4
  generalize x / 16777216 % 256 = a3
  generalize x / 65536 % 256 = a2
  generalize x / 256 % 256 = a1
  generalize x % 256 = a0
  omega

theorem valueLE_lt (bs : List Byte) : valueLE bs < 256 ^ bs.length := by
  induction bs with
  | nil => simp [valueLE]
  | cons b bs ih =>
    have hb := b.isLt
    simp only [valueLE, List.length_cons, Nat.pow_succ]
    omega

/-- On a little-endian host, the memory image of the byte-reversed value
is the reversed memory image. -/
theorem bytesLE_reverse (n x : Nat) :
    bytesLE n (valueLE (bytesLE n x).reverse) = (bytesLE n x).reverse := by
  have h := bytesLE_valueLE (bytesLE n x).reverse
  rwa [List.length_reverse, bytesLE_length] at h

/-- On either host, `WriteU16` hands the two bytes of `v` to `Write`
most significant first. -/
theorem hostBytes_network16 (le : Bool) (v : Nat) (hv : v < 65536) :
    hostBytes le 2 (MCSwapInt16HostToNetwork le v) = (bytesLE 2 v).reverse := by
  cases le
  · rfl
  · rw [swap16_reverse v hv]
    exact bytesLE_reverse 2 v

/-- On either host, `ReadU16` recovers `v` from its two bytes, most
significant first. -/
theorem hostValue_network16 (le : Bool) (v : Nat) (hv : v < 65536) :
    MCSwapInt16NetworkToHost le (hostValue le (bytesLE 2 v).reverse) = v := by
  have hval : valueLE (bytesLE 2 v) = v := by
    rw [valueLE_bytesLE]; exact Nat.mod_eq_of_lt hv
  have hlt : valueLE (bytesLE 2 v).reverse < 65536 := by
    have := valueLE_lt (bytesLE 2 v).reverse
    rwa [List.length_reverse, bytesLE_length] at this
  cases le
  · show valueLE ((bytesLE 2 v).reverse).reverse = v
    rw [List.reverse_reverse, hval]
  · show MCSwapInt16HostToNetwork true (valueLE (bytesLE 2 v).reverse) = v
    rw [swap16_reverse _ hlt, bytesLE_reverse, List.reverse_reverse, hval]

theorem hostBytes_network32 (le : Bool) (v : Nat) (hv : v < 4294967296) :
    hostBytes le 4 (MCSwapInt32HostToNetwork le v) = (bytesLE 4 v).reverse := by
  cases le
  · rfl
  · rw [swap32_reverse v hv]
    exact bytesLE_reverse 4 v

theorem hostValue_network32 (le : Bool) (v : Nat) (hv : v < 4294967296) :
    MCSwapInt32NetworkToHost le (hostValue le (bytesLE 4 v).reverse) = v := by
  have hval : valueLE (bytesLE 4 v) = v := by
    rw [valueLE_bytesLE]; exact Nat.mod_eq_of_lt hv
  have hlt : valueLE (bytesLE 4 v).reverse < 4294967296 := by
    have := valueLE_lt (bytesLE 4 v).reverse
    rwa [List.length_reverse, bytesLE_length] at this
  cases le
  · show valueLE ((bytesLE 4 v).reverse).reverse = v
    rw [List.reverse_reverse, hval]
  · show MCSwapInt32HostToNetwork true (valueLE (bytesLE 4 v).reverse) = v
    rw [swap32_reverse _ hlt, bytesLE_reverse, List.reverse_reverse, hval]

theorem hostBytes_network64 (le : Bool) (v : Nat) (hv : v < 18446744073709551616) :
    hostBytes le 8 (swapInt64 le v) = (bytesLE 8 v).reverse := by
  cases le
  · rfl
  · rw [swap64_reverse v hv]
    exact bytesLE_reverse 8 v

theorem hostValue_network64 (le : Bool) (v : Nat) (hv : v < 18446744073709551616) :
    swapInt64 le (hostValue le (bytesLE 8 v).reverse) = v := by
  have hval : valueLE (bytesLE 8 v) = v := by
    rw [valueLE_bytesLE]; exact Nat.mod_eq_of_lt hv
  have hlt : valueLE (bytesLE 8 v).reverse < 18446744073709551616 := by
    have := valueLE_lt (bytesLE 8 v).reverse
    rwa [List.length_reverse, bytesLE_length] at this
  cases le
  · show valueLE ((bytesLE 8 v).reverse).reverse = v
    rw [List.reverse_reverse, hval]
  · show swapInt64 true (valueLE (bytesLE 8 v).reverse) = v
    rw [swap64_reverse _ hlt, bytesLE_reverse, List.reverse_reverse, hval]

/-! ## Typed writes and reads -/

/-- The `n` bytes of `v` in network order: most significant first. -/
theorem wire_length (n v : Nat) : ((bytesLE n v).reverse).length = n := by
  rw [List.length_reverse, bytesLE_length]

namespace MCObjectOutputStream

/-- What `emitted` returns for calls that succeed on the fresh stream. -/
theorem emitted_of (w : MCObjectOutputStream → Option (IO_stat × MCObjectOutputStream))
    (s1 : MCObjectOutputStream) (bs : List Byte)
    (h : w (MCObjectOutputStream.new { data := [], sink := [], faults := [] })
      = some (IO_NORMAL, s1))
    (hi : Inv s1) (hf : s1.m_stream.faults = []) (hw : written s1 = bs) :
    emitted w = some bs := by
  obtain ⟨f1, _, _, _, f5, _⟩ := Flush_spec hi hf true
  unfold emitted
  rw [h]
  dsimp only
  have e : Flush s1 true = (IO_NORMAL, (Flush s1 true).2) := Prod.ext f1 rfl
  rw [e]
  dsimp only
  rw [f5, hw]

theorem Write_all {s : MCObjectOutputStream} (hi : Inv s) (hf : s.m_stream.faults = [])
    (d : List Byte) (n : Nat) (hn : d.length = n) :
    ∃ s1, Write s d n = some (IO_NORMAL, s1) ∧ Inv s1 ∧ s1.m_stream.faults = [] ∧
      written s1 = written s ++ d := by
  obtain ⟨s1, r1, r2, r3, r4⟩ := Write_spec hi hf d n (Nat.le_of_eq hn.symm)
  refine ⟨s1, r1, r2, r3, ?_⟩
  rw [r4, ← hn, List.take_length]

theorem WriteU8_spec {s : MCObjectOutputStream} (hi : Inv s) (hf : s.m_stream.faults = [])
    (v : Nat) :
    ∃ s1, WriteU8 s v = some (IO_NORMAL, s1) ∧ Inv s1 ∧ s1.m_stream.faults = [] ∧
      written s1 = written s ++ bytesLE 1 v :=
  Write_all hi hf (bytesLE 1 v) 1 (bytesLE_length 1 v)

theorem WriteU16_spec {s : MCObjectOutputStream} (hi : Inv s) (hf : s.m_stream.faults = [])
    (le : Bool) (v : Nat) (hv : v < 65536) :
    ∃ s1, WriteU16 le s v = some (IO_NORMAL, s1) ∧ Inv s1 ∧ s1.m_stream.faults = [] ∧
      written s1 = written s ++ (bytesLE 2 v).reverse := by
  unfold WriteU16
  rw [hostBytes_network16 le v hv]
  exact Write_all hi hf _ 2 (wire_length 2 v)

theorem WriteU32_spec {s : MCObjectOutputStream} (hi : Inv s) (hf : s.m_stream.faults = [])
    (le : Bool) (v : Nat) (hv : v < 4294967296) :
    ∃ s1, WriteU32 le s v = some (IO_NORMAL, s1) ∧ Inv s1 ∧ s1.m_stream.faults = [] ∧
      written s1 = written s ++ (bytesLE 4 v).reverse := by
  unfold WriteU32
  rw [hostBytes_network32 le v hv]
  exact Write_all hi hf _ 4 (wire_length 4 v)

theorem WriteU64_spec {s : MCObjectOutputStream} (hi : Inv s) (hf : s.m_stream.faults = [])
    (le : Bool) (v : Nat) (hv : v < 18446744073709551616) :
    ∃ s1, WriteU64 le s v = some (IO_NORMAL, s1) ∧ Inv s1 ∧ s1.m_stream.faults = [] ∧
      written s1 = written s ++ (bytesLE 8 v).reverse := by
  unfold WriteU64
  rw [hostBytes_network64 le v hv]
  exact Write_all hi hf _ 8 (wire_length 8 v)

end MCObjectOutputStream

namespace MCObjectInputStream

/-- Reading exactly a prefix of the unread bytes. -/
theorem Read_prefix {s : MCObjectInputStream} (hi : Inv s) (hn : NonFailing s)
    (bs rest : List Byte) (n : Nat) (hl : bs.length = n) (hu : unread s = bs ++ rest) :
    ∃ s1, Read s true n = some (IO_NORMAL, bs, s1) ∧ Inv s1 ∧ NonFailing s1 ∧
      unread s1 = rest := by
  obtain ⟨s1, r1, r2, r3, r4, _⟩ := Read_spec hi hn true n
  subst hl
  rw [hu] at r1 r4
  rw [if_pos (by rw [List.length_append]; omega), List.take_left] at r1
  rw [List.drop_left] at r4
  exact ⟨s1, r1, r2, r3, r4⟩

theorem ReadU8_spec {s : MCObjectInputStream} (hi : Inv s) (hn : NonFailing s)
    (v : Nat) (hv : v < 256) (rest : List Byte) (hu : unread s = bytesLE 1 v ++ rest) :
    ∃ s1, ReadU8 s = some (IO_NORMAL, some v, s1) ∧ Inv s1 ∧ NonFailing s1 ∧
      unread s1 = rest := by
  obtain ⟨s1, r1, r2, r3, r4⟩ := Read_prefix hi hn _ rest 1 (bytesLE_length 1 v) hu
  refine ⟨s1, ?_, r2, r3, r4⟩
  unfold ReadU8
  rw [r1]
  simp only [Option.map_some', if_true, valueLE_bytesLE]
  rw [Nat.mod_eq_of_lt (by omega)]

theorem ReadU16_spec {s : MCObjectInputStream} (hi : Inv s) (hn : NonFailing s) (le : Bool)
    (v : Nat) (hv : v < 65536) (rest : List Byte)
    (hu : unread s = (bytesLE 2 v).reverse ++ rest) :
    ∃ s1, ReadU16 le s = some (IO_NORMAL, some v, s1) ∧ Inv s1 ∧ NonFailing s1 ∧
      unread s1 = rest := by
  obtain ⟨s1, r1, r2, r3, r4⟩ := Read_prefix hi hn _ rest 2 (wire_length 2 v) hu
  refine ⟨s1, ?_, r2, r3, r4⟩
  unfold ReadU16
  rw [r1]
  simp only [Option.map_some', if_true, hostValue_network16 le v hv]

theorem ReadS16_spec {s : MCObjectInputStream} (hi : Inv s) (hn : NonFailing s) (le : Bool)
    (v : Nat) (hv : v < 65536) (rest : List Byte)
    (hu : unread s = (bytesLE 2 v).reverse ++ rest) :
    ∃ s1, ReadS16 le s = some (IO_NORMAL, some (toInt16 v), s1) ∧ Inv s1 ∧ NonFailing s1 ∧
      unread s1 = rest := by
  obtain ⟨s1, r1, r2, r3, r4⟩ := Read_prefix hi hn _ rest 2 (wire_length 2 v) hu
  refine ⟨s1, ?_, r2, r3, r4⟩
  unfold ReadS16
  rw [r1]
  simp only [Option.map_some', if_true, hostValue_network16 le v hv]

theorem ReadU32_spec {s : MCObjectInputStream} (hi : Inv s) (hn : NonFailing s) (le : Bool)
    (v : Nat) (hv : v < 4294967296) (rest : List Byte)
    (hu : unread s = (bytesLE 4 v).reverse ++ rest) :
    ∃ s1, ReadU32 le s = some (IO_NORMAL, some v, s1) ∧ Inv s1 ∧ NonFailing s1 ∧
      unread s1 = rest := by
  obtain ⟨s1, r1, r2, r3, r4⟩ := Read_prefix hi hn _ rest 4 (wire_length 4 v) hu
  refine ⟨s1, ?_, r2, r3, r4⟩
  unfold ReadU32
  rw [r1]
  simp only [Option.map_some', if_true, hostValue_network32 le v hv]

theorem ReadU64_spec {s : MCObjectInputStream} (hi : Inv s) (hn : NonFailing s) (le : Bool)
    (v : Nat) (hv : v < 18446744073709551616) (rest : List Byte)
    (hu : unread s = (bytesLE 8 v).reverse ++ rest) :
    ∃ s1, ReadU64 le s = some (IO_NORMAL, some v, s1) ∧ Inv s1 ∧ NonFailing s1 ∧
      unread s1 = rest := by
  obtain ⟨s1, r1, r2, r3, r4⟩ := Read_prefix hi hn _ rest 8 (wire_length 8 v) hu
  refine ⟨s1, ?_, r2, r3, r4⟩
  unfold ReadU64
  rw [r1]
  simp only [Option.map_some', if_true, hostValue_network64 le v hv]

end MCObjectInputStream

/-! ## The tag header codec -/

theorem shr8 (w : Nat) : w >>> 8 = w / 256 := Nat.shiftRight_eq_div_pow w 8

/-- The only word of a short tag header. -/
theorem tag_short (flags length : Nat) (h1 : flags ≤ 255) (h2 : length < 8388608) :
    flags ||| ((length <<< 8) % 4294967296) = flags + length * 256 := by
  have e : (length <<< 8) % 4294967296 = length * 2 ^ 8 := by
    rw [Nat.shiftLeft_eq]; omega
  rw [e, or_disjoint _ _ 8 (by omega)]
  omega

/-- The first word of a long tag header. -/
theorem tag_long1 (flags length : Nat) :
    (flags &&& 0xFF) ||| (((length &&& 0x7FFFFF) <<< 8) % 4294967296) ||| (1 <<< 31)
      = flags % 256 + (length % 8388608) * 256 + 2147483648 := by
  have e : ((length &&& 0x7FFFFF) <<< 8) % 4294967296 = (length % 8388608) * 2 ^ 8 := by
    rw [and_0x7FFFFF, Nat.shiftLeft_eq]; omega
  have e1 : (1 <<< 31 : Nat) = 1 * 2 ^ 31 := Nat.shiftLeft_eq 1 31
  rw [e, e1, and_0xFF, or_disjoint _ _ 8 (by omega), or_disjoint _ _ 31 (by omega)]
  omega

/-- The second word of a long tag header. -/
theorem tag_long2 (flags length : Nat) (hf : flags < 4294967296) :
    (flags >>> 8) ||| (((length >>> 23) <<< 24) % 4294967296)
      = flags / 256 + (length / 8388608 % 256) * 16777216 := by
  have e : ((length >>> 23) <<< 24) % 4294967296 = (length / 8388608 % 256) * 2 ^ 24 := by
    rw [Nat.shiftRight_eq_div_pow, Nat.shiftLeft_eq]; omega
  rw [e, shr8, or_disjoint _ _ 24 (by omega)]
  omega

/-- The discriminator test of `ReadTag`. -/
theorem tag_top_bit (w : Nat) (hw : w < 4294967296) :
    w &&& (1 <<< 31) = 0 ↔ w < 2147483648 := by
  rw [and_bit31]; omega

/-- The flags that `ReadTag` rebuilds from a long header. -/
theorem tag_read_flags (w1 w2 : Nat) :
    (w1 &&& 0xFF) ||| (((w2 &&& 0xFFFFFF) <<< 8) % 4294967296)
      = w1 % 256 + (w2 % 16777216) * 256 := by
  have e : ((w2 &&& 0xFFFFFF) <<< 8) % 4294967296 = (w2 % 16777216) * 2 ^ 8 := by
    rw [and_0xFFFFFF, Nat.shiftLeft_eq]; omega
  rw [e, and_0xFF, or_disjoint _ _ 8 (by omega)]
  omega

/-- The length that `ReadTag` rebuilds from a long header. -/
theorem tag_read_length (w1 w2 : Nat) :
    ((w1 >>> 8) &&& 0x7fffff) ||| ((w2 &&& 0xFF000000) >>> 1)
      = w1 / 256 % 8388608 + (w2 / 16777216 % 256) * 8388608 := by
  have e : (w2 &&& 0xFF000000) >>> 1 = (w2 / 16777216 % 256) * 2 ^ 23 := by
    rw [and_0xFF000000, Nat.shiftRight_eq_div_pow]; omega
  rw [e, and_0x7FFFFF, shr8, or_disjoint _ _ 23 (by omega)]
  omega

namespace MCObjectInputStream

/-- `ReadTag` on a header whose first word has the top bit clear. -/
theorem ReadTag_short {s : MCObjectInputStream} (hi : Inv s) (hn : NonFailing s) (le : Bool)
    (w : Nat) (hw : w < 2147483648) (rest : List Byte)
    (hu : unread s = (bytesLE 4 w).reverse ++ rest) :
    ∃ s1, ReadTag le s =
        some (IO_NORMAL, some { flags := w % 256, length := w / 256, header_length := 4 }, s1) ∧
      Inv s1 ∧ NonFailing s1 ∧ unread s1 = rest := by
  obtain ⟨s1, r1, r2, r3, r4⟩ := ReadU32_spec hi hn le w (by omega) rest hu
  refine ⟨s1, ?_, r2, r3, r4⟩
  unfold ReadTag
  rw [r1]
  simp only
  rw [if_pos ((tag_top_bit w (by omega)).mpr hw), and_0xFF, shr8]

/-- `ReadTag` on a header whose first word has the top bit set. -/
theorem ReadTag_long {s : MCObjectInputStream} (hi : Inv s) (hn : NonFailing s) (le : Bool)
    (w1 w2 : Nat) (h1 : 2147483648 ≤ w1) (h1' : w1 < 4294967296) (h2 : w2 < 4294967296)
    (rest : List Byte)
    (hu : unread s = (bytesLE 4 w1).reverse ++ ((bytesLE 4 w2).reverse ++ rest)) :
    ∃ s2, ReadTag le s =
        some (IO_NORMAL,
          some { flags := w1 % 256 + (w2 % 16777216) * 256
                 length := w1 / 256 % 8388608 + (w2 / 16777216 % 256) * 8388608
                 header_length := 8 }, s2) ∧
      Inv s2 ∧ NonFailing s2 ∧ unread s2 = rest := by
  obtain ⟨s1, r1, r2, r3, r4⟩ := ReadU32_spec hi hn le w1 h1' _ hu
  obtain ⟨s2, q1, q2, q3, q4⟩ := ReadU32_spec r2 r3 le w2 h2 rest r4
  refine ⟨s2, ?_, q2, q3, q4⟩
  unfold ReadTag
  rw [r1]
  simp only
  rw [if_neg (by rw [tag_top_bit w1 h1']; omega), q1]
  simp only
  rw [tag_read_flags, tag_read_length]

end MCObjectInputStream

namespace MCObjectOutputStream

theorem WriteTag_short {s : MCObjectOutputStream} (hi : Inv s) (hf : s.m_stream.faults = [])
    (le : Bool) (flags length : Nat) (h1 : flags ≤ 255) (h2 : length < 8388608) :
    ∃ s1, WriteTag le s flags length = some (IO_NORMAL, s1) ∧ Inv s1 ∧
      s1.m_stream.faults = [] ∧
      written s1 = written s ++ (bytesLE 4 (flags + length * 256)).reverse := by
  have e23 : (1 <<< 23 : Nat) = 8388608 := rfl
  unfold WriteTag
  rw [e23, if_pos ⟨h1, h2⟩, tag_short flags length h1 h2]
  exact WriteU32_spec hi hf le _ (by omega)

theorem WriteTag_long {s : MCObjectOutputStream} (hi : Inv s) (hf : s.m_stream.faults = [])
    (le : Bool) (flags length : Nat) (hfl : flags < 4294967296)
    (h : ¬ (flags ≤ 255 ∧ length < 8388608)) :
    ∃ s2, WriteTag le s flags length = some (IO_NORMAL, s2) ∧ Inv s2 ∧
      s2.m_stream.faults = [] ∧
      written s2 = written s ++
        ((bytesLE 4 (flags % 256 + (length % 8388608) * 256 + 2147483648)).reverse ++
          (bytesLE 4 (flags / 256 + (length / 8388608 % 256) * 16777216)).reverse) := by
  obtain ⟨s1, r1, r2, r3, r4⟩ := WriteU32_spec hi hf le
    (flags % 256 + (length % 8388608) * 256 + 2147483648) (by omega)
  obtain ⟨s2, q1, q2, q3, q4⟩ := WriteU32_spec r2 r3 le
    (flags / 256 + (length / 8388608 % 256) * 16777216) (by omega)
  refine ⟨s2, ?_, q2, q3, ?_⟩
  · have e23 : (1 <<< 23 : Nat) = 8388608 := rfl
    unfold WriteTag
    rw [e23, if_neg h, tag_long1, tag_long2 flags length hfl, r1]
    exact q1
  · rw [q4, r4, List.append_assoc]

end MCObjectOutputStream

/-! ## Tag headers over arbitrary bytes -/

/-- On either host, `ReadU32` turns any four bytes into the value they
spell in network order. -/
theorem decode32 (le : Bool) (bs : List Byte) (hl : bs.length = 4) :
    MCSwapInt32NetworkToHost le (hostValue le bs) = valueLE bs.reverse := by
  have hv : valueLE bs.reverse < 4294967296 := by
    have := valueLE_lt bs.reverse
    rwa [List.length_reverse, hl] at this
  have hb : (bytesLE 4 (valueLE bs.reverse)).reverse = bs := by
    have := bytesLE_valueLE bs.reverse
    rw [List.length_reverse, hl] at this
    rw [this, List.reverse_reverse]
  have := hostValue_network32 le (valueLE bs.reverse) hv
  rwa [hb] at this

namespace MCObjectInputStream

/-- `ReadU32` in any state over a channel that does not fail. -/
theorem ReadU32_any {s : MCObjectInputStream} (hi : Inv s) (hn : NonFailing s) (le : Bool) :
    ∃ s1, ReadU32 le s =
        some (if 4 ≤ (unread s).length then IO_NORMAL else IO_EOF,
          if 4 ≤ (unread s).length then some (valueLE ((unread s).take 4).reverse) else none,
          s1) ∧
      Inv s1 ∧ NonFailing s1 ∧ unread s1 = (unread s).drop 4 := by
  obtain ⟨s1, r1, r2, r3, r4, _⟩ := Read_spec hi hn true 4
  refine ⟨s1, ?_, r2, r3, r4⟩
  unfold ReadU32
  rw [r1]
  by_cases h : 4 ≤ (unread s).length
  · have hl : ((unread s).take 4).length = 4 := by
      rw [List.length_take]; omega
    simp only [Option.map_some', h, if_true, decode32 le _ hl]
  · simp only [Option.map_some', h, if_false]
    rfl

/-- `ReadTag` in any state over a channel that does not fail, in terms of
the first two network-order words of the unread bytes. -/
theorem ReadTag_any {s s1 : MCObjectInputStream} (hi : Inv s) (hn : NonFailing s) (le : Bool)
    (v : Option Tag) (h : ReadTag le s = some (IO_NORMAL, v, s1)) :
    (valueLE ((unread s).take 4).reverse < 2147483648 ∧ 4 ≤ (unread s).length ∧
      v = some { flags := valueLE ((unread s).take 4).reverse % 256
                 length := valueLE ((unread s).take 4).reverse / 256
                 header_length := 4 } ∧
      unread s1 = (unread s).drop 4) ∨
    (2147483648 ≤ valueLE ((unread s).take 4).reverse ∧ 8 ≤ (unread s).length ∧
      v = some { flags := valueLE ((unread s).take 4).reverse % 256 +
                   (valueLE (((unread s).drop 4).take 4).reverse % 16777216) * 256
                 length := valueLE ((unread s).take 4).reverse / 256 % 8388608 +
                   (valueLE (((unread s).drop 4).take 4).reverse / 16777216 % 256) * 8388608
                 header_length := 8 } ∧
      unread s1 = (unread s).drop 8) := by
  obtain ⟨t1, r1, r2, r3, r4⟩ := ReadU32_any hi hn le
  obtain ⟨t2, q1, q2, q3, q4⟩ := ReadU32_any r2 r3 le
  have hw : valueLE ((unread s).take 4).reverse < 256 ^ ((unread s).take 4).reverse.length :=
    valueLE_lt _
  have hw2 : valueLE ((unread s).take 4).reverse < 4294967296 := by
    have h4 : ((unread s).take 4).reverse.length ≤ 4 := by
      rw [List.length_reverse, List.length_take]; omega
    have := Nat.pow_le_pow_right (by omega : 0 < 256) h4
    omega
  unfold ReadTag at h
  rw [r1] at h
  by_cases h4 : 4 ≤ (unread s).length
  · simp only [h4, if_true] at h
    by_cases htop : valueLE ((unread s).take 4).reverse < 2147483648
    · rw [if_pos ((tag_top_bit _ hw2).mpr htop), and_0xFF, shr8] at h
      simp only [Option.some.injEq, Prod.mk.injEq, true_and] at h
      obtain ⟨hv, hs⟩ := h
      left
      exact ⟨htop, h4, hv.symm, by rw [← hs, r4]⟩
    · rw [if_neg (by rw [tag_top_bit _ hw2]; exact htop), q1, r4] at h
      by_cases h8 : 4 ≤ ((unread s).drop 4).length
      · simp only [h8, if_true] at h
        rw [tag_read_flags, tag_read_length] at h
        simp only [Option.some.injEq, Prod.mk.injEq, true_and] at h
        obtain ⟨hv, hs⟩ := h
        right
        refine ⟨by omega, by rw [List.length_drop] at h8; omega, hv.symm, ?_⟩
        rw [← hs, q4, r4, List.drop_drop]
      · simp only [h8, if_false, Option.some.injEq, Prod.mk.injEq] at h
        exact absurd h.1 (by decide)
  · simp only [h4, if_false, Option.some.injEq, Prod.mk.injEq] at h
    exact absurd h.1 (by decide)

end MCObjectInputStream

/-! ## Fixed-width reads are reads -/

namespace MCObjectInputStream

theorem ReadU8_is_read {s s1 : MCObjectInputStream} {st : IO_stat} {v : Option Nat}
    (h : ReadU8 s = some (st, v, s1)) : ∃ st0 out, Read s true 1 = some (st0, out, s1) := by
  unfold ReadU8 at h
  rcases hr : Read s true 1 with _ | ⟨st0, out, s0⟩
  · rw [hr] at h; cases h
  · rw [hr] at h
    simp only [Option.map_some', Option.some.injEq, Prod.mk.injEq] at h
    obtain ⟨_, _, rfl⟩ := h
    exact ⟨st0, out, rfl⟩

theorem ReadU16_is_read {s s1 : MCObjectInputStream} {le : Bool} {st : IO_stat}
    {v : Option Nat}
    (h : ReadU16 le s = some (st, v, s1)) : ∃ st0 out, Read s true 2 = some (st0, out, s1) := by
  unfold ReadU16 at h
  rcases hr : Read s true 2 with _ | ⟨st0, out, s0⟩
  · rw [hr] at h; cases h
  · rw [hr] at h
    simp only [Option.map_some', Option.some.injEq, Prod.mk.injEq] at h
    obtain ⟨_, _, rfl⟩ := h
    exact ⟨st0, out, rfl⟩

theorem ReadU32_is_read {s s1 : MCObjectInputStream} {le : Bool} {st : IO_stat}
    {v : Option Nat}
    (h : ReadU32 le s = some (st, v, s1)) : ∃ st0 out, Read s true 4 = some (st0, out, s1) := by
  unfold ReadU32 at h
  rcases hr : Read s true 4 with _ | ⟨st0, out, s0⟩
  · rw [hr] at h; cases h
  · rw [hr] at h
    simp only [Option.map_some', Option.some.injEq, Prod.mk.injEq] at h
    obtain ⟨_, _, rfl⟩ := h
    exact ⟨st0, out, rfl⟩

theorem ReadU64_is_read {s s1 : MCObjectInputStream} {le : Bool} {st : IO_stat}
    {v : Option Nat}
    (h : ReadU64 le s = some (st, v, s1)) : ∃ st0 out, Read s true 8 = some (st0, out, s1) := by
  unfold ReadU64 at h
  rcases hr : Read s true 8 with _ | ⟨st0, out, s0⟩
  · rw [hr] at h; cases h
  · rw [hr] at h
    simp only [Option.map_some', Option.some.injEq, Prod.mk.injEq] at h
    obtain ⟨_, _, rfl⟩ := h
    exact ⟨st0, out, rfl⟩

theorem ReadS16_is_read {s s1 : MCObjectInputStream} {le : Bool} {st : IO_stat}
    {v : Option Int}
    (h : ReadS16 le s = some (st, v, s1)) : ∃ st0 out, Read s true 2 = some (st0, out, s1) := by
  unfold ReadS16 at h
  rcases hr : Read s true 2 with _ | ⟨st0, out, s0⟩
  · rw [hr] at h; cases h
  · rw [hr] at h
    simp only [Option.map_some', Option.some.injEq, Prod.mk.injEq] at h
    obtain ⟨_, _, rfl⟩ := h
    exact ⟨st0, out, rfl⟩

theorem Mark_m_remaining (s : MCObjectInputStream) :
    (Mark s).2.m_remaining = s.m_remaining := by
  rw [Mark_snd]

/-- A state reached by one `Read` from a reachable state is reachable and
has no larger `m_remaining`. -/
theorem Reachable_of_read {s s1 : MCObjectInputStream} {b : Bool} {n : Nat}
    (hre : Reachable s) (h : ∃ st0 out, Read s b n = some (st0, out, s1)) :
    Reachable s1 ∧ s1.m_remaining ≤ s.m_remaining := by
  obtain ⟨st0, out, h⟩ := h
  exact ⟨Reachable.read hre h, (Read_Inv (Reachable_Inv hre) h).2⟩

end MCObjectInputStream

/-! ## The output invariant over any channel -/

namespace MCObjectOutputStream

/-- What `Flush` does when the channel write fails: the status is
returned, the frontier and the buffer stay as they are. -/
theorem Flush_failed (s : MCObjectOutputStream) (e : Bool)
    (h : (MCS_write s.m_stream (slice s.m_buffer 0 s.m_frontier)).1 ≠ IO_NORMAL) :
    Flush s e = ((MCS_write s.m_stream (slice s.m_buffer 0 s.m_frontier)).1,
      { s with m_mark := s.m_frontier
               m_stream := (MCS_write s.m_stream (slice s.m_buffer 0 s.m_frontier)).2 }) := by
  unfold Flush
  rcases hw : MCS_write s.m_stream (slice s.m_buffer 0 s.m_frontier) with ⟨st, hd⟩
  rw [hw] at h
  dsimp only at h ⊢
  rw [hw]
  cases st
  · exact absurd rfl h
  · rfl
  · rfl

/-- What `Flush` does when the channel write succeeds. -/
theorem Flush_ok (s : MCObjectOutputStream) (e : Bool)
    (h : (MCS_write s.m_stream (slice s.m_buffer 0 s.m_frontier)).1 = IO_NORMAL) :
    Flush s e = (IO_NORMAL,
      { m_stream := (MCS_write s.m_stream (slice s.m_buffer 0 s.m_frontier)).2
        m_buffer := blit s.m_buffer 0
          (slice s.m_buffer s.m_frontier (sub32 s.m_frontier s.m_frontier))
        m_frontier := sub32 s.m_frontier s.m_frontier
        m_mark := 0 }) := by
  unfold Flush
  rcases hw : MCS_write s.m_stream (slice s.m_buffer 0 s.m_frontier) with ⟨st, hd⟩
  rw [hw] at h
  dsimp only at h ⊢
  rw [hw]
  subst h
  rfl

theorem Flush_keeps_Inv {s : MCObjectOutputStream} (hi : Inv s) (e : Bool) :
    Inv (Flush s e).2 := by
  obtain ⟨h1, h2⟩ := hi
  by_cases h : (MCS_write s.m_stream (slice s.m_buffer 0 s.m_frontier)).1 = IO_NORMAL
  · rw [Flush_ok s e h]
    have h0 : sub32 s.m_frontier s.m_frontier = 0 := by
      rw [sub32_of_le (Nat.le_refl _) (by omega)]; omega
    rw [h0]
    refine ⟨Nat.zero_le _, ?_⟩
    show (blit s.m_buffer 0 (slice s.m_buffer s.m_frontier 0)).length = 16384
    rw [blit_length]
    · exact h2
    · simp only [slice, List.take_zero, List.length_nil]; omega
  · rw [Flush_failed s e h]
    exact ⟨h1, h2⟩

/-- The write loop keeps the structural invariant, whatever the channel
does and whatever status results. -/
theorem WriteLoop_keeps_Inv (fuel : Nat) : ∀ (s s1 : MCObjectOutputStream) (d : List Byte)
    (n : Nat) (st : IO_stat),
    Inv s → WriteLoop fuel s d n = some (st, s1) → Inv s1 := by
  induction fuel with
  | zero =>
    intro s s1 d n st hi h
    unfold WriteLoop at h
    by_cases h0 : n = 0
    · simp only [h0, if_true, Option.some.injEq, Prod.mk.injEq] at h
      obtain ⟨_, rfl⟩ := h
      exact hi
    · simp only [h0, if_false] at h
      cases h
  | succ fuel ih =>
    intro s s1 d n st hi h
    by_cases h0 : n = 0
    · subst h0
      rw [WriteLoop_zero] at h
      simp only [Option.some.injEq, Prod.mk.injEq] at h
      obtain ⟨_, rfl⟩ := h
      exact hi
    have hr1 : Inv (if s.m_frontier = 16384 then Flush s false else (IO_NORMAL, s)).2 := by
      by_cases hf : s.m_frontier = 16384
      · rw [if_pos hf]; exact Flush_keeps_Inv hi false
      · rw [if_neg hf]; exact hi
    have hr2 : (if s.m_frontier = 16384 then Flush s false else (IO_NORMAL, s)).1 = IO_NORMAL →
        (if s.m_frontier = 16384 then Flush s false else (IO_NORMAL, s)).2.m_frontier
          < 16384 := by
      by_cases hf : s.m_frontier = 16384
      · rw [if_pos hf]
        intro hn
        by_cases hw : (MCS_write s.m_stream (slice s.m_buffer 0 s.m_frontier)).1 = IO_NORMAL
        · rw [Flush_ok s false hw]
          dsimp only
          rw [sub32_of_le (Nat.le_refl _) (by omega)]; omega
        · rw [Flush_failed s false hw] at hn
          exact absurd hn hw
      · rw [if_neg hf]
        intro _
        have := hi.1
        dsimp only
        omega
    rcases hr : (if s.m_frontier = 16384 then Flush s false else (IO_NORMAL, s)) with ⟨st0, s0⟩
    rw [hr] at hr1 hr2
    dsimp only at hr1 hr2
    by_cases hst : st0 = IO_NORMAL
    · subst hst
      rw [WriteLoop_step fuel s s0 d n _ h0 rfl hr] at h
      have hlt := hr2 rfl
      obtain ⟨g1, g2⟩ := hr1
      have ht : MCU_min (sub32 16384 s0.m_frontier) n ≤ 16384 - s0.m_frontier := by
        rw [MCU_min_eq, sub32_of_le (by omega) (by omega)]; omega
      refine ih _ _ _ _ _ ⟨?_, ?_⟩ h
      · dsimp only
        rw [add32_of_lt (by omega)]; omega
      · show (blit s0.m_buffer s0.m_frontier
            (d.take (MCU_min (sub32 16384 s0.m_frontier) n))).length = 16384
        rw [blit_length]
        · exact g2
        · rw [List.length_take]; omega
    · conv at h => lhs; unfold WriteLoop
      simp only [h0, if_false, hr, ne_eq, hst, not_false_eq_true, if_true, Option.some.injEq,
        Prod.mk.injEq] at h
      obtain ⟨_, rfl⟩ := h
      exact hr1

theorem Write_keeps_Inv {s s1 : MCObjectOutputStream} {d : List Byte} {n : Nat}
    {st : IO_stat} (hi : Inv s) (h : Write s d n = some (st, s1)) : Inv s1 :=
  WriteLoop_keeps_Inv n s s1 d n st hi h

theorem WriteTag_keeps_Inv {s s1 : MCObjectOutputStream} {le : Bool} {flags length : Nat}
    {st : IO_stat} (hi : Inv s) (h : WriteTag le s flags length = some (st, s1)) : Inv s1 := by
  unfold WriteTag at h
  split at h
  · exact Write_keeps_Inv hi h
  · split at h
    · rename_i s0 h1
      exact Write_keeps_Inv (Write_keeps_Inv hi h1) h
    · rename_i r hne
      exact Write_keeps_Inv hi h

theorem WriteCString_keeps_Inv {s s1 : MCObjectOutputStream} {v : Option (List Byte)}
    {st : IO_stat} (hi : Inv s) (h : WriteCString s v = some (st, s1)) : Inv s1 := by
  unfold WriteCString at h
  split at h
  · exact Write_keeps_Inv hi h
  · exact Write_keeps_Inv hi h

/-- Every reachable output-stream state satisfies the structural
invariant. -/
theorem Reachable_keeps_Inv {s : MCObjectOutputStream} (h : Reachable s) : Inv s := by
  induction h with
  | new p_stream => exact Inv_fresh p_stream
  | write _ h ih => exact Write_keeps_Inv ih h
  | writeTag _ h ih => exact WriteTag_keeps_Inv ih h
  | writeCString _ h ih => exact WriteCString_keeps_Inv ih h
  | flush _ ih => exact Flush_keeps_Inv ih _

end MCObjectOutputStream

/-! ## Termination of the read loops over any channel -/

namespace MCObjectInputStream

/-- A fill that is triggered with `frontier = limit` and succeeds loads
`min(remaining, 16384) ≥ 1` bytes into the emptied buffer. -/
theorem Fill_progress {s : MCObjectInputStream} (hi : Inv s) (hf : s.m_limit = s.m_frontier)
    (hst : (Fill s).1 = IO_NORMAL) :
    (Fill s).2.m_frontier = 0 ∧ (Fill s).2.m_limit = min s.m_remaining 16384 ∧
      1 ≤ (Fill s).2.m_limit ∧ (Fill s).2.m_remaining + (Fill s).2.m_limit = s.m_remaining := by
  obtain ⟨h1, h2, h3, h4, h5⟩ := hi
  unfold Fill at hst ⊢
  by_cases hr : s.m_remaining = 0
  · rw [if_pos hr] at hst
    cases hst
  rw [if_neg hr] at hst ⊢
  have hb : sub32 s.m_bound s.m_frontier = 0 := by
    rw [sub32_of_le (by omega) (by omega)]; omega
  have hl : sub32 s.m_limit s.m_frontier = 0 := by
    rw [sub32_of_le (by omega) (by omega)]; omega
  have h16 : sub32 16384 0 = 16384 := sub32_of_le (by omega) (by omega)
  simp only [hb, hl, h16, MCU_min_eq] at hst ⊢
  rcases hrd : IO_read s.m_stream (min s.m_remaining 16384) with ⟨st, bytes, h⟩
  rw [hrd] at hst
  cases st
  · dsimp only
    rw [add32_of_lt (by omega), sub32_of_le (by omega) h4]
    refine ⟨rfl, ?_, ?_, ?_⟩ <;> omega
  · cases hst
  · cases hst

/-- The optional fill at the head of an iteration, when it succeeds,
leaves at least one buffered byte and takes what it loads off
`m_remaining`. -/
theorem refill_progress {s s0 : MCObjectInputStream} (hi : Inv s)
    (hr : (if s.m_limit = s.m_frontier then Fill s else (IO_NORMAL, s)) = (IO_NORMAL, s0)) :
    s0.m_frontier < s0.m_limit ∧
      s0.m_remaining + (if s.m_limit = s.m_frontier then 1 else 0) ≤ s.m_remaining := by
  by_cases hf : s.m_limit = s.m_frontier
  · rw [if_pos hf] at hr ⊢
    have hst : (Fill s).1 = IO_NORMAL := by rw [hr]
    obtain ⟨p1, p2, p3, p4⟩ := Fill_progress hi hf hst
    rw [hr] at p1 p2 p3 p4
    dsimp only at p1 p2 p3 p4
    omega
  · rw [if_neg hf] at hr ⊢
    simp only [Prod.mk.injEq, true_and] at hr
    subst hr
    have := hi.1
    omega

/-- With fuel for `n` iterations the read loop returns, whatever the
channel does. -/
theorem ReadLoop_total (fuel : Nat) : ∀ (s : MCObjectInputStream) (b : Bool) (n : Nat),
    Inv s → n ≤ fuel → ∃ r, ReadLoop fuel s b n = some r := by
  induction fuel with
  | zero =>
    intro s b n _ hle
    have h0 : n = 0 := by omega
    subst h0
    exact ⟨_, ReadLoop_zero 0 s b⟩
  | succ fuel ih =>
    intro s b n hi hle
    by_cases h0 : n = 0
    · subst h0
      exact ⟨_, ReadLoop_zero _ s b⟩
    obtain ⟨r1, _⟩ := refill_Inv hi
    rcases hr : (if s.m_limit = s.m_frontier then Fill s else (IO_NORMAL, s)) with ⟨st0, s0⟩
    rw [hr] at r1
    dsimp only at r1
    by_cases hst : st0 = IO_NORMAL
    · subst hst
      obtain ⟨p1, _⟩ := refill_progress hi hr
      have ht : MCU_min (sub32 s0.m_limit s0.m_frontier) n
          = min (s0.m_limit - s0.m_frontier) n := by
        rw [MCU_min_eq, sub32_of_le (by omega)
          (by have := r1.2.1; have := r1.2.2.1; omega)]
      have hadv := advance32_Inv r1 (MCU_min (sub32 s0.m_limit s0.m_frontier) n)
        (by rw [ht]; omega)
      obtain ⟨r, hr2⟩ := ih _ b (n - MCU_min (sub32 s0.m_limit s0.m_frontier) n) hadv
        (by rw [ht]; omega)
      rw [ReadLoop_step fuel s s0 b n _ h0 rfl hr, hr2]
      exact ⟨_, rfl⟩
    · exact ⟨_, ReadLoop_fail fuel s s0 b n st0 h0 hst hr⟩

/-- More fuel does not change what the read loop returns. -/
theorem ReadLoop_mono (fuel : Nat) : ∀ (s : MCObjectInputStream) (b : Bool) (n : Nat)
    (r : IO_stat × List Byte × MCObjectInputStream),
    ReadLoop fuel s b n = some r → ReadLoop (fuel + 1) s b n = some r := by
  induction fuel with
  | zero =>
    intro s b n r h
    by_cases h0 : n = 0
    · subst h0
      rw [ReadLoop_zero] at h ⊢
      exact h
    · unfold ReadLoop at h
      simp only [h0, if_false] at h
      cases h
  | succ fuel ih =>
    intro s b n r h
    by_cases h0 : n = 0
    · subst h0
      rw [ReadLoop_zero] at h ⊢
      exact h
    rcases hr : (if s.m_limit = s.m_frontier then Fill s else (IO_NORMAL, s)) with ⟨st0, s0⟩
    by_cases hst : st0 = IO_NORMAL
    · subst hst
      obtain ⟨t, ht⟩ : ∃ t, t = MCU_min (sub32 s0.m_limit s0.m_frontier) n := ⟨_, rfl⟩
      rw [ReadLoop_step fuel s s0 b n t h0 ht hr] at h
      rw [ReadLoop_step (fuel + 1) s s0 b n t h0 ht hr]
      rcases hin : ReadLoop fuel { s0 with m_frontier := add32 s0.m_frontier t } b (n - t)
        with _ | r2
      · rw [hin] at h
        cases h
      · rw [hin] at h
        rw [ih _ _ _ _ hin]
        exact h
    · rw [ReadLoop_fail fuel s s0 b n st0 h0 hst hr] at h
      rw [ReadLoop_fail (fuel + 1) s s0 b n st0 h0 hst hr]
      exact h

/-- With any fuel of at least `n` the read loop returns what `Read`
returns. -/
theorem ReadLoop_fuel (s : MCObjectInputStream) (b : Bool) (n k : Nat)
    (r : IO_stat × List Byte × MCObjectInputStream) (h : Read s b n = some r) :
    ReadLoop (n + k) s b n = some r := by
  induction k with
  | zero => exact h
  | succ k ih => exact ReadLoop_mono _ s b n r ih

theorem scanCString_false (l : List Byte) (h : (scanCString l).2 = false) :
    (scanCString l).1 = l.length := by
  induction l with
  | nil => rfl
  | cons b bs ih =>
    unfold scanCString at h ⊢
    by_cases hb : b = 0
    · rw [if_pos hb] at h
      cases h
    · rw [if_neg hb] at h ⊢
      dsimp only at h ⊢
      rw [ih h, List.length_cons]

/-- With fuel for one iteration per remaining byte and two more, the
string loop returns, whatever the channel does. -/
theorem ReadCStringLoop_total (fuel : Nat) : ∀ (s : MCObjectInputStream) (acc : List Byte),
    Inv s → s.m_remaining + 1 + (if s.m_frontier < s.m_limit then 1 else 0) ≤ fuel →
    ∃ r, ReadCStringLoop fuel s acc = some r := by
  induction fuel with
  | zero =>
    intro s acc _ hle
    omega
  | succ fuel ih =>
    intro s acc hi hle
    obtain ⟨r1, _⟩ := refill_Inv hi
    rcases hr : (if s.m_limit = s.m_frontier then Fill s else (IO_NORMAL, s)) with ⟨st0, s0⟩
    rw [hr] at r1
    dsimp only at r1
    unfold ReadCStringLoop
    rw [hr]
    dsimp only
    by_cases hst : st0 = IO_NORMAL
    · subst hst
      obtain ⟨p1, p2⟩ := refill_progress hi hr
      simp only [ne_eq, not_true_eq_false, if_false]
      by_cases hsc : (scanCString
          (slice s0.bufferBytes s0.m_frontier (sub32 s0.m_limit s0.m_frontier))).2 = true
      · rw [if_pos hsc]
        exact ⟨_, rfl⟩
      · rw [if_neg hsc]
        have hsub : sub32 s0.m_limit s0.m_frontier = s0.m_limit - s0.m_frontier :=
          sub32_of_le (by omega) (by have := r1.2.1; have := r1.2.2.1; omega)
        have hoff : (scanCString
            (slice s0.bufferBytes s0.m_frontier (sub32 s0.m_limit s0.m_frontier))).1
              = s0.m_limit - s0.m_frontier := by
          rw [scanCString_false _ (by simpa using hsc), hsub]
          have := r1.2.1
          have := r1.2.2.1
          have := r1.2.2.2.2
          simp only [slice, List.length_take, List.length_drop]
          omega
        have hadv := advance32_Inv r1 (s0.m_limit - s0.m_frontier) (Nat.le_refl _)
        rw [hoff]
        have hfr : add32 s0.m_frontier (s0.m_limit - s0.m_frontier) = s0.m_limit := by
          rw [add32_of_lt (by have := r1.2.1; have := r1.2.2.1; omega)]; omega
        rw [hfr] at hadv ⊢
        refine ih _ _ hadv ?_
        dsimp only
        rw [if_neg (Nat.lt_irrefl _)]
        by_cases hf : s.m_limit = s.m_frontier
        · rw [if_pos hf] at p2
          have : ¬ s.m_frontier < s.m_limit := by omega
          rw [if_neg this] at hle
          omega
        · rw [if_neg hf] at p2
          have : s.m_frontier < s.m_limit := by have := hi.1; omega
          rw [if_pos this] at hle
          omega
    · simp only [ne_eq, hst, not_false_eq_true, if_true]
      exact ⟨_, rfl⟩

end MCObjectInputStream

/-! ## Strings over a channel that does not fail -/

theorem takeWhile_text (text rest : List Byte) (hz : ∀ b ∈ text, b ≠ 0) :
    (text ++ 0 :: rest).takeWhile (fun b => b ≠ 0) = text := by
  induction text with
  | nil => simp
  | cons b bs ih =>
    have hb : b ≠ 0 := hz b (List.mem_cons_self _ _)
    have ih2 := ih (fun c hc => hz c (List.mem_cons_of_mem _ hc))
    simp only [List.cons_append, List.takeWhile_cons, ne_eq, hb, not_false_eq_true,
      decide_True, if_true, ih2]

theorem strlen_text (text rest : List Byte) (hz : ∀ b ∈ text, b ≠ 0) :
    MCObjectOutputStream.strlen (text ++ 0 :: rest) = text.length := by
  unfold MCObjectOutputStream.strlen
  induction text with
  | nil => simp
  | cons b bs ih =>
    have hb : b ≠ 0 := hz b (List.mem_cons_self _ _)
    have ih2 := ih (fun c hc => hz c (List.mem_cons_of_mem _ hc))
    simp only [List.cons_append, List.takeWhile_cons, ne_eq, hb, not_false_eq_true,
      decide_True, if_true, List.length_cons, ih2]

namespace MCObjectInputStream

theorem scanCString_none (l : List Byte) (hz : ∀ b ∈ l, b ≠ 0) :
    scanCString l = (l.length, false) := by
  induction l with
  | nil => rfl
  | cons b bs ih =>
    have hb : b ≠ 0 := hz b (List.mem_cons_self _ _)
    have ih2 := ih (fun c hc => hz c (List.mem_cons_of_mem _ hc))
    unfold scanCString
    rw [if_neg hb, ih2]
    rfl

theorem scanCString_found (pre post : List Byte) (hz : ∀ b ∈ pre, b ≠ 0) :
    scanCString (pre ++ 0 :: post) = (pre.length + 1, true) := by
  induction pre with
  | nil =>
    unfold scanCString
    simp
  | cons b bs ih =>
    have hb : b ≠ 0 := hz b (List.mem_cons_self _ _)
    have ih2 := ih (fun c hc => hz c (List.mem_cons_of_mem _ hc))
    rw [List.cons_append]
    unfold scanCString
    rw [if_neg hb, ih2]
    rfl

/-- Advancing the frontier by `t` buffered bytes, in terms of the unread
bytes. -/
theorem advance_unread {s : MCObjectInputStream} (hi : Inv s) (t : Nat)
    (ht : t ≤ s.m_limit - s.m_frontier) :
    slice s.bufferBytes s.m_frontier t = (unread s).take t ∧
      unread { s with m_frontier := s.m_frontier + t } = (unread s).drop t := by
  obtain ⟨_, _, a3, _⟩ := advance_spec hi t ht
  have hl : (slice s.bufferBytes s.m_frontier t).length = t := by
    have := hi.1
    have := hi.2.1
    have := hi.2.2.1
    have := hi.2.2.2.2
    simp only [slice, List.length_take, List.length_drop]
    omega
  constructor
  · conv_rhs => rw [a3, List.take_left' hl]
  · conv_rhs => rw [a3, List.drop_left' hl]

/-- The string loop over a channel that does not fail, when the unread
bytes hold a zero byte: it returns `IO_NORMAL`, has appended the bytes up
to and including the first zero byte to the block, and has consumed
exactly those. -/
theorem ReadCStringLoop_spec (fuel : Nat) : ∀ (s : MCObjectInputStream)
    (acc str rest : List Byte),
    Inv s → NonFailing s → unread s = str ++ 0 :: rest → (∀ b ∈ str, b ≠ 0) →
    s.m_remaining + 1 + (if s.m_frontier < s.m_limit then 1 else 0) ≤ fuel →
    ∃ s1, ReadCStringLoop fuel s acc = some (IO_NORMAL, acc ++ str ++ [0], s1) ∧
      Inv s1 ∧ NonFailing s1 ∧ unread s1 = rest := by
  induction fuel with
  | zero =>
    intro s acc str rest _ _ _ _ hle
    omega
  | succ fuel ih =>
    intro s acc str rest hi hn hu hz hle
    have hlen := unread_length hi hn
    have hpos : 1 ≤ (unread s).length := by
      rw [hu, List.length_append, List.length_cons]; omega
    -- the state after the optional fill
    have hre : ∃ s0, (if s.m_limit = s.m_frontier then Fill s else (IO_NORMAL, s))
        = (IO_NORMAL, s0) ∧ Inv s0 ∧ NonFailing s0 ∧ s0.m_frontier < s0.m_limit ∧
        unread s0 = unread s ∧ s0.m_remaining + 1 ≤ fuel := by
      by_cases hf : s.m_limit = s.m_frontier
      · have hr : s.m_remaining ≠ 0 := by omega
        obtain ⟨f1, f2, f3, f4, f5, f6, _, f8⟩ := Fill_spec hi hn hf hr
        refine ⟨(Fill s).2, ?_, f2, f3, by omega, f6, ?_⟩
        · rw [if_pos hf]; exact Prod.ext f1 rfl
        · have : ¬ s.m_frontier < s.m_limit := by omega
          rw [if_neg this] at hle
          omega
      · have hlt : s.m_frontier < s.m_limit := by have := hi.1; omega
        rw [if_pos hlt] at hle
        exact ⟨s, by rw [if_neg hf], hi, hn, hlt, rfl, by omega⟩
    obtain ⟨s0, hr, hi0, hn0, hlt0, hu0, hfuel⟩ := hre
    rw [hu] at hu0
    have hsub : sub32 s0.m_limit s0.m_frontier = s0.m_limit - s0.m_frontier :=
      sub32_of_le (by omega) (by have := hi0.2.1; have := hi0.2.2.1; omega)
    obtain ⟨b1, _⟩ := advance_unread hi0 (s0.m_limit - s0.m_frontier) (Nat.le_refl _)
    rw [hu0] at b1
    unfold ReadCStringLoop
    rw [hr]
    simp only [ne_eq, not_true_eq_false, if_false, hsub, b1]
    by_cases hcase : str.length < s0.m_limit - s0.m_frontier
    · -- the terminator is among the buffered bytes
      have e1 : List.take (s0.m_limit - s0.m_frontier) (str ++ 0 :: rest)
          = str ++ 0 :: List.take (s0.m_limit - s0.m_frontier - str.length - 1) rest := by
        have e : s0.m_limit - s0.m_frontier
            = str.length + ((s0.m_limit - s0.m_frontier - str.length - 1) + 1) := by omega
        conv_lhs => rw [e, List.take_append, List.take_succ_cons]
      rw [e1, scanCString_found _ _ hz]
      simp only [if_true]
      obtain ⟨c1, c2⟩ := advance_unread hi0 (str.length + 1) (by omega)
      obtain ⟨d1, d2, _, _⟩ := advance_spec hi0 (str.length + 1) (by omega)
      rw [hu0] at c1 c2
      have e2 : List.take (str.length + 1) (str ++ 0 :: rest) = str ++ [0] := by
        rw [List.take_append, List.take_succ_cons, List.take_zero]
      have e3 : List.drop (str.length + 1) (str ++ 0 :: rest) = rest := by
        rw [List.drop_append, List.drop_succ_cons, List.drop_zero]
      rw [c1, e2, add32_of_lt (by have := hi0.2.1; have := hi0.2.2.1; omega),
        ← List.append_assoc]
      exact ⟨_, rfl, d1, d2 hn0, by rw [c2, e3]⟩
    · -- all buffered bytes belong to the string
      have hle2 : s0.m_limit - s0.m_frontier ≤ str.length := by omega
      have e1 : List.take (s0.m_limit - s0.m_frontier) (str ++ 0 :: rest)
          = List.take (s0.m_limit - s0.m_frontier) str :=
        List.take_append_of_le_length hle2
      have hz1 : ∀ b ∈ List.take (s0.m_limit - s0.m_frontier) str, b ≠ 0 :=
        fun b hb => hz b (List.mem_of_mem_take hb)
      rw [e1, scanCString_none _ hz1]
      simp only [Bool.false_eq_true, if_false, List.length_take, Nat.min_eq_left hle2]
      obtain ⟨c1, c2⟩ := advance_unread hi0 (s0.m_limit - s0.m_frontier) (Nat.le_refl _)
      obtain ⟨d1, d2, _, _⟩ := advance_spec hi0 (s0.m_limit - s0.m_frontier) (Nat.le_refl _)
      rw [hu0] at c1 c2
      rw [c1, e1, add32_of_lt (by have := hi0.2.1; have := hi0.2.2.1; omega)]
      have e3 : List.drop (s0.m_limit - s0.m_frontier) (str ++ 0 :: rest)
          = List.drop (s0.m_limit - s0.m_frontier) str ++ 0 :: rest :=
        List.drop_append_of_le_length hle2
      rw [e3] at c2
      have hz2 : ∀ b ∈ List.drop (s0.m_limit - s0.m_frontier) str, b ≠ 0 :=
        fun b hb => hz b (List.mem_of_mem_drop hb)
      obtain ⟨s1, r1, r2, r3, r4⟩ := ih _
        (acc ++ List.take (s0.m_limit - s0.m_frontier) str)
        (List.drop (s0.m_limit - s0.m_frontier) str) rest d1 (d2 hn0) c2 hz2 (by
          dsimp only
          have : ¬ (s0.m_frontier + (s0.m_limit - s0.m_frontier) < s0.m_limit) := by omega
          rw [if_neg this]
          omega)
      refine ⟨s1, ?_, r2, r3, r4⟩
      rw [r1, List.append_assoc acc, List.take_append_drop]

/-- `ReadCString` over a channel that does not fail, when the unread bytes
hold a zero byte. -/
theorem ReadCString_spec {s : MCObjectInputStream} (hi : Inv s) (hn : NonFailing s)
    (str rest : List Byte) (hz : ∀ b ∈ str, b ≠ 0) (hu : unread s = str ++ 0 :: rest) :
    ∃ s1, ReadCString s
        = some (IO_NORMAL, if str = [] then none else some (str ++ [0]), s1) ∧
      Inv s1 ∧ NonFailing s1 ∧ unread s1 = rest := by
  obtain ⟨s1, r1, r2, r3, r4⟩ := ReadCStringLoop_spec (s.m_remaining + 2) s [] str rest hi hn
    hu hz (by split <;> omega)
  refine ⟨s1, ?_, r2, r3, r4⟩
  unfold ReadCString
  rw [r1]
  cases str with
  | nil => simp
  | cons c cs =>
    have hc : c ≠ 0 := hz c (List.mem_cons_self _ _)
    simp [hc]

end MCObjectInputStream

namespace MCObjectOutputStream

/-- `WriteCString` of a text whose length plus one fits `uint32_t`, over a
channel that does not fail: the text and its terminator are written. -/
theorem WriteCString_text {s : MCObjectOutputStream} (hi : Inv s)
    (hf : s.m_stream.faults = []) (text after : List Byte) (hz : ∀ b ∈ text, b ≠ 0)
    (hlen : text.length + 1 < 4294967296) :
    ∃ s1, WriteCString s (some (text ++ 0 :: after)) = some (IO_NORMAL, s1) ∧ Inv s1 ∧
      s1.m_stream.faults = [] ∧ written s1 = written s ++ (text ++ [0]) := by
  have hl : text.length + 1 ≤ (text ++ 0 :: after).length := by
    rw [List.length_append, List.length_cons]; omega
  obtain ⟨s1, r1, r2, r3, r4⟩ := Write_spec hi hf (text ++ 0 :: after) (text.length + 1) hl
  have e : List.take (text.length + 1) (text ++ 0 :: after) = text ++ [0] := by
    rw [List.take_append, List.take_succ_cons, List.take_zero]
  rw [e] at r4
  refine ⟨s1, ?_, r2, r3, r4⟩
  unfold WriteCString
  dsimp only
  rw [strlen_text text after hz, add32_of_lt hlen]
  exact r1

/-- `WriteCString` of a text of `2^32 - 1` bytes: the length plus one wraps
to zero in `uint32_t`, and nothing is written. -/
theorem WriteCString_wraps (s : MCObjectOutputStream) (text after : List Byte)
    (hz : ∀ b ∈ text, b ≠ 0) (hlen : text.length = 4294967295) :
    WriteCString s (some (text ++ 0 :: after)) = some (IO_NORMAL, s) := by
  have e : add32 4294967295 1 = 0 := by decide
  unfold WriteCString
  dsimp only
  rw [strlen_text text after hz, hlen, e]
  exact WriteLoop_zero 0 s _

/-- `WriteCString` of a null pointer or of a text that starts with the
terminator, over a channel that does not fail: one zero byte is written. -/
theorem WriteCString_empty {s : MCObjectOutputStream} (hi : Inv s)
    (hf : s.m_stream.faults = []) (v : Option (List Byte))
    (hv : v = none ∨ ∃ after, v = some (0 :: after)) :
    ∃ s1, WriteCString s v = some (IO_NORMAL, s1) ∧ Inv s1 ∧
      s1.m_stream.faults = [] ∧ written s1 = written s ++ [0] := by
  rcases hv with hv | ⟨after, hv⟩
  · subst hv
    exact WriteU8_spec hi hf 0
  · subst hv
    exact WriteCString_text hi hf [] after (fun b hb => by cases hb) (by decide)

end MCObjectOutputStream

/-! ## Round trips -/

/-- A writer that appends `bs` and a reader that consumes `bs` and
returns `v` round-trip `v`. -/
theorem roundTrip_of {α : Type}
    (w : MCObjectOutputStream → Option (IO_stat × MCObjectOutputStream))
    (r : MCObjectInputStream → Option (IO_stat × Option α × MCObjectInputStream))
    (v : α) (bs : List Byte)
    (hw : ∀ o : MCObjectOutputStream, MCObjectOutputStream.Inv o → o.m_stream.faults = [] →
      ∃ o1, w o = some (IO_NORMAL, o1) ∧ MCObjectOutputStream.Inv o1 ∧
        o1.m_stream.faults = [] ∧
        MCObjectOutputStream.written o1 = MCObjectOutputStream.written o ++ bs)
    (hr : ∀ (s : MCObjectInputStream) (rest : List Byte), MCObjectInputStream.Inv s →
      MCObjectInputStream.NonFailing s → MCObjectInputStream.unread s = bs ++ rest →
      ∃ s1, r s = some (IO_NORMAL, some v, s1) ∧ MCObjectInputStream.Inv s1 ∧
        MCObjectInputStream.NonFailing s1 ∧ MCObjectInputStream.unread s1 = rest) :
    RoundTrip w r v := by
  obtain ⟨o1, w1, w2, w3, w4⟩ := hw _
    (MCObjectOutputStream.Inv_fresh { data := [], sink := [], faults := [] }) rfl
  rw [MCObjectOutputStream.written_new] at w4
  refine ⟨bs, MCObjectOutputStream.emitted_of w o1 bs w1 w2 w3 (by rw [w4]; rfl), ?_⟩
  intro s rest hre hnf hu
  obtain ⟨s1, r1, _, _, r4⟩ := hr s rest (MCObjectInputStream.Reachable_Inv hre) hnf hu
  exact ⟨s1, r1, r4⟩

/-- The bytes that a writer appending `bs` puts on the wire. -/
theorem emitted_eq (w : MCObjectOutputStream → Option (IO_stat × MCObjectOutputStream))
    (bs : List Byte)
    (hw : ∀ o : MCObjectOutputStream, MCObjectOutputStream.Inv o → o.m_stream.faults = [] →
      ∃ o1, w o = some (IO_NORMAL, o1) ∧ MCObjectOutputStream.Inv o1 ∧
        o1.m_stream.faults = [] ∧
        MCObjectOutputStream.written o1 = MCObjectOutputStream.written o ++ bs) :
    MCObjectOutputStream.emitted w = some bs := by
  obtain ⟨o1, w1, w2, w3, w4⟩ := hw _
    (MCObjectOutputStream.Inv_fresh { data := [], sink := [], faults := [] }) rfl
  rw [MCObjectOutputStream.written_new] at w4
  exact MCObjectOutputStream.emitted_of w o1 bs w1 w2 w3 (by rw [w4]; rfl)

theorem toInt16_pattern (sv : Int) (h1 : -32768 ≤ sv) (h2 : sv < 32768) :
    toInt16 (sv % 65536).toNat = sv := by
  unfold toInt16
  split <;> omega

theorem wire16_bytes (v : Nat) :
    (bytesLE 2 v).reverse = [Fin.ofNat ((v >>> 8) &&& 0xFF), Fin.ofNat ((v >>> 0) &&& 0xFF)] := by
  simp only [bytesLE, List.reverse_cons, List.reverse_nil, List.nil_append, List.cons_append,
    Nat.div_div_eq_div_mul, Nat.reduceMul, and_0xFF, Nat.shiftRight_eq_div_pow, Nat.reducePow,
    Nat.div_one]

theorem wire32_bytes (v : Nat) :
    (bytesLE 4 v).reverse =
      [Fin.ofNat ((v >>> 24) &&& 0xFF), Fin.ofNat ((v >>> 16) &&& 0xFF),
        Fin.ofNat ((v >>> 8) &&& 0xFF), Fin.ofNat ((v >>> 0) &&& 0xFF)] := by
  simp only [bytesLE, List.reverse_cons, List.reverse_nil, List.nil_append, List.cons_append,
    Nat.div_div_eq_div_mul, Nat.reduceMul, and_0xFF, Nat.shiftRight_eq_div_pow, Nat.reducePow,
    Nat.div_one]

theorem wire64_bytes (v : Nat) :
    (bytesLE 8 v).reverse =
      [Fin.ofNat ((v >>> 56) &&& 0xFF), Fin.ofNat ((v >>> 48) &&& 0xFF),
        Fin.ofNat ((v >>> 40) &&& 0xFF), Fin.ofNat ((v >>> 32) &&& 0xFF),
        Fin.ofNat ((v >>> 24) &&& 0xFF), Fin.ofNat ((v >>> 16) &&& 0xFF),
        Fin.ofNat ((v >>> 8) &&& 0xFF), Fin.ofNat ((v >>> 0) &&& 0xFF)] := by
  simp only [bytesLE, List.reverse_cons, List.reverse_nil, List.nil_append, List.cons_append,
    Nat.div_div_eq_div_mul, Nat.reduceMul, and_0xFF, Nat.shiftRight_eq_div_pow, Nat.reducePow,
    Nat.div_one]

/-! ## Claims about the input stream -/

open MCObjectInputStream

/-- C2. Buffered reading equals unbuffered reading: on a fresh input stream
over a channel that holds the bytes `data` and does not fail, with a budget
`R ≤ |data|` (a `uint32_t`), every sequence of `Read` calls whose amounts
sum to `N ≤ R` returns `IO_NORMAL` at every call, and the bytes delivered,
concatenated in call order, are exactly the first `N` bytes of `data`,
however many 16384-byte fills the calls span. -/
theorem C2_buffered_read_equals_unbuffered (data sink : List Byte) (R : Nat)
    (amounts : List Nat) (hR : R ≤ data.length) (h32 : R < 4294967296)
    (hN : amounts.sum ≤ R) :
    ∃ s1, readCalls (MCObjectInputStream.new { data := data, sink := sink, faults := [] } R)
        amounts
      = some (amounts.map (fun _ => IO_NORMAL), data.take amounts.sum, s1) := by
  have hu := unread_new { data := data, sink := sink, faults := [] } R
  have hlen : (unread (MCObjectInputStream.new
      { data := data, sink := sink, faults := [] } R)).length = R := by
    rw [hu, List.length_take]; exact Nat.min_eq_left hR
  obtain ⟨s1, r1, _⟩ := readCalls_spec amounts _
    (Inv_new { data := data, sink := sink, faults := [] } R h32) ⟨rfl, hR⟩ (by rw [hlen]; exact hN)
  refine ⟨s1, ?_⟩
  rw [r1, hu, List.take_take, Nat.min_eq_left hN]

theorem C2_buffered_read_equals_unbuffered_witness :
    (4 ≤ ([1, 2, 3, 4, 5] : List Byte).length ∧ 4 < 4294967296 ∧ [1, 2].sum ≤ 4) ∧
    ∃ s1, readCalls
        (MCObjectInputStream.new { data := [1, 2, 3, 4, 5], sink := [], faults := [] } 4) [1, 2]
      = some ([1, 2].map (fun _ => IO_NORMAL), ([1, 2, 3, 4, 5] : List Byte).take [1, 2].sum,
          s1) :=
  ⟨by decide,
    C2_buffered_read_equals_unbuffered [1, 2, 3, 4, 5] [] 4 [1, 2] (by decide) (by decide)
      (by decide)⟩

/-- C3. Exhaustion: in every reachable state over a channel that does not
fail, `Read(dest, amount)` returns, and its status is `IO_NORMAL` exactly
when `amount ≤ (limit - frontier) + remaining`; for a larger amount it is
`IO_EOF`. A call that returns `IO_NORMAL` has consumed exactly `amount`
bytes and has delivered exactly the next `amount` unread bytes to a
non-null destination. -/
theorem C3_read_exhaustion (s : MCObjectInputStream) (p_buffer : Bool) (amount : Nat)
    (hre : Reachable s) (hnf : NonFailing s) :
    ∃ st out s1, Read s p_buffer amount = some (st, out, s1) ∧
      (st = IO_NORMAL ↔ amount ≤ (s.m_limit - s.m_frontier) + s.m_remaining) ∧
      ((s.m_limit - s.m_frontier) + s.m_remaining < amount → st = IO_EOF) ∧
      (st = IO_NORMAL →
        (unread s).length = amount + (unread s1).length ∧
        (p_buffer = true → out = (unread s).take amount ∧ out.length = amount)) := by
  have hi := Reachable_Inv hre
  have hlen := unread_length hi hnf
  obtain ⟨s1, r1, _, _, r4, _⟩ := Read_spec hi hnf p_buffer amount
  refine ⟨_, _, s1, r1, ?_, ?_, ?_⟩
  · rw [hlen]
    by_cases h : amount ≤ s.m_limit - s.m_frontier + s.m_remaining
    · simp [h]
    · simp [h]
  · intro h
    rw [hlen, if_neg (by omega)]
  · rw [hlen]
    intro h
    have hle : amount ≤ s.m_limit - s.m_frontier + s.m_remaining := by
      by_contra hc
      rw [if_neg hc] at h
      cases h
    refine ⟨?_, ?_⟩
    · rw [r4, List.length_drop]; omega
    · intro hb
      subst hb
      refine ⟨rfl, ?_⟩
      show (List.take amount (unread s)).length = amount
      rw [List.length_take]; omega

theorem C3_read_exhaustion_witness :
    (Reachable (MCObjectInputStream.new { data := [1, 2, 3], sink := [], faults := [] } 3) ∧
      NonFailing (MCObjectInputStream.new { data := [1, 2, 3], sink := [], faults := [] } 3)) ∧
    ∃ st out s1,
      Read (MCObjectInputStream.new { data := [1, 2, 3], sink := [], faults := [] } 3) true 4
        = some (st, out, s1) ∧
      (st = IO_NORMAL ↔ 4 ≤
        ((MCObjectInputStream.new { data := [1, 2, 3], sink := [], faults := [] } 3).m_limit -
          (MCObjectInputStream.new { data := [1, 2, 3], sink := [], faults := [] } 3).m_frontier)
        + (MCObjectInputStream.new { data := [1, 2, 3], sink := [], faults := [] } 3).m_remaining) ∧
      (((MCObjectInputStream.new { data := [1, 2, 3], sink := [], faults := [] } 3).m_limit -
          (MCObjectInputStream.new { data := [1, 2, 3], sink := [], faults := [] } 3).m_frontier)
        + (MCObjectInputStream.new { data := [1, 2, 3], sink := [], faults := [] } 3).m_remaining
          < 4 → st = IO_EOF) ∧
      (st = IO_NORMAL →
        (unread (MCObjectInputStream.new
          { data := [1, 2, 3], sink := [], faults := [] } 3)).length = 4 + (unread s1).length ∧
        (true = true → out = (unread (MCObjectInputStream.new
          { data := [1, 2, 3], sink := [], faults := [] } 3)).take 4 ∧ out.length = 4)) :=
  ⟨⟨Reachable.new _ _ (by decide), rfl, by decide⟩,
    C3_read_exhaustion _ true 4 (Reachable.new _ _ (by decide)) ⟨rfl, by decide⟩⟩

/-- C4, as stated, fails in its last sentence. On a stream over 2147483650
zero bytes, `Mark()` and a read of `K = 2147483649` bytes leave one byte
unread; `Skip(0)`, with `L = 0 < K`, then returns `IO_EOF` after it has
consumed that byte. -/
theorem C4_skip_after_long_read :
    ∃ s s1,
      Consumed (Mark (MCObjectInputStream.new
        { data := List.replicate 2147483650 0, sink := [], faults := [] } 2147483650)).2
        2147483649 s ∧
      (unread s).length = 1 ∧ Skip s 0 = some (IO_EOF, s1) ∧ unread s1 = [] :=
  long_read_then_skip (List.replicate 2147483650 0) (List.length_replicate _ _)

/-- C4, amended. After `Mark()` in a reachable state over a channel that
does not fail, and reads that consume `K` bytes (across any number of
refills): `Skip(L)` with `K ≤ L < 2^31` and `L - K` not above the number of
unread bytes returns `IO_NORMAL` and consumes exactly `L - K` further
bytes, so that exactly `L` bytes are consumed since the mark (nothing when
`L = K`); and `Skip(L)` with `L < K` and `K - L ≤ 2^31` returns `IO_ERROR`
and consumes no bytes. -/
theorem C4_mark_skip (s0 s : MCObjectInputStream) (K L : Nat) (hre : Reachable s0)
    (hnf : NonFailing s0) (hc : Consumed (Mark s0).2 K s) :
    (K ≤ L → L < 2147483648 → L - K ≤ (unread s).length →
      ∃ s1, Skip s L = some (IO_NORMAL, s1) ∧ unread s1 = (unread s).drop (L - K) ∧
        unread s1 = (unread s0).drop L) ∧
    (L < K → K - L ≤ 2147483648 →
      ∃ s1, Skip s L = some (IO_ERROR, s1) ∧ unread s1 = unread s) := by
  have hi0 := Reachable_Inv hre
  have hmo := markOffset_Mark hi0
  rw [Mark_snd] at hmo hc
  obtain ⟨i1, i2, i3, i4, i5⟩ := Consumed_spec hc (Inv_mark _ hi0) (NonFailing_mark _ hnf)
  rw [hmo] at i5
  have hum := unread_mark s0 (wrapInt32 (s0.m_frontier : Int))
  rw [hum] at i3 i4
  obtain ⟨sk1, sk2⟩ := Skip_spec i1 i2 L
  obtain ⟨m, hm⟩ : ∃ m, m = wrapInt32 (markOffset s + L) := ⟨_, rfl⟩
  rw [← hm] at sk1 sk2
  have hm2 : m = wrapInt32 ((L : Int) - K) := by
    have e : (0 : Int) - (K : Int) + (L : Int) = (L : Int) - (K : Int) := by omega
    rw [hm, i5, wrapInt32_add_wrap, e]
  constructor
  · intro h1 h2 h3
    have hm3 : m = ((L - K : Nat) : Int) := by
      rw [hm2]; unfold wrapInt32; omega
    obtain ⟨s1, q1, q2⟩ := sk2 (by omega)
    rw [hm3, Int.toNat_ofNat] at q1 q2
    rw [if_pos h3] at q1
    refine ⟨s1, q1, q2, ?_⟩
    have e : K + (L - K) = L := by omega
    rw [q2, i4, List.drop_drop, e]
  · intro h1 h2
    exact sk1 (by rw [hm2]; unfold wrapInt32; omega)

/-- A concrete run: after `Mark()` on a fresh stream over `[1, 2, 3]`, one
`Read` of one byte consumes one byte. -/
theorem consumed_one_of_three :
    Consumed (Mark (MCObjectInputStream.new ⟨[1, 2, 3], [], []⟩ 3)).2 1
      ((Read (Mark (MCObjectInputStream.new ⟨[1, 2, 3], [], []⟩ 3)).2 true 1).getD (IO_NORMAL,
          [], (MCObjectInputStream.new ⟨[1, 2, 3], [], []⟩ 3))).2.2 := by
  have h : Read (Mark (MCObjectInputStream.new ⟨[1, 2, 3], [], []⟩ 3)).2 true 1
      = some (IO_NORMAL, [1],
        ((Read (Mark (MCObjectInputStream.new ⟨[1, 2, 3], [], []⟩ 3)).2 true 1).getD (IO_NORMAL, [], (MCObjectInputStream.new ⟨[1, 2, 3], [], []⟩ 3))).2.2) := by
    rfl
  exact Consumed.read (Consumed.refl _) h

theorem C4_mark_skip_witness :
    (Reachable (MCObjectInputStream.new ⟨[1, 2, 3], [], []⟩ 3) ∧
      NonFailing (MCObjectInputStream.new ⟨[1, 2, 3], [], []⟩ 3) ∧
      Consumed (Mark (MCObjectInputStream.new ⟨[1, 2, 3], [], []⟩ 3)).2 1
        ((Read (Mark (MCObjectInputStream.new ⟨[1, 2, 3], [], []⟩ 3)).2 true 1).getD (IO_NORMAL,
            [], (MCObjectInputStream.new ⟨[1, 2, 3], [], []⟩ 3))).2.2) ∧
    ((1 ≤ 2 → 2 < 2147483648 →
      2 - 1 ≤ (unread ((Read (Mark (MCObjectInputStream.new ⟨[1, 2, 3], [], []⟩ 3)).2 true
          1).getD (IO_NORMAL, [], (MCObjectInputStream.new ⟨[1, 2, 3], [], []⟩ 3))).2.2).length →
      ∃ s1, Skip ((Read (Mark (MCObjectInputStream.new ⟨[1, 2, 3], [], []⟩ 3)).2 true 1).getD
          (IO_NORMAL, [], (MCObjectInputStream.new ⟨[1, 2, 3], [], []⟩ 3))).2.2 2 = some (IO_NORMAL,
          s1) ∧
        unread s1 = (unread ((Read (Mark (MCObjectInputStream.new ⟨[1, 2, 3], [], []⟩ 3)).2 true
            1).getD (IO_NORMAL, [], (MCObjectInputStream.new ⟨[1, 2, 3], [], []⟩ 3))).2.2).drop (2 -
            1) ∧
        unread s1 = (unread (MCObjectInputStream.new ⟨[1, 2, 3], [], []⟩ 3)).drop 2) ∧
    (2 < 1 → 1 - 2 ≤ 2147483648 →
      ∃ s1, Skip ((Read (Mark (MCObjectInputStream.new ⟨[1, 2, 3], [], []⟩ 3)).2 true 1).getD
          (IO_NORMAL, [], (MCObjectInputStream.new ⟨[1, 2, 3], [], []⟩ 3))).2.2 2 = some (IO_ERROR,
          s1) ∧
        unread s1 = unread ((Read (Mark (MCObjectInputStream.new ⟨[1, 2, 3], [], []⟩ 3)).2 true
            1).getD (IO_NORMAL, [], (MCObjectInputStream.new ⟨[1, 2, 3], [], []⟩ 3))).2.2)) :=
  ⟨⟨Reachable.new _ _ (by decide), ⟨rfl, by decide⟩, consumed_one_of_three⟩,
    C4_mark_skip _ _ 1 2 (Reachable.new _ _ (by decide)) ⟨rfl, by decide⟩
      consumed_one_of_three⟩

/-- C5, evaluated at a failing input. After one byte has been read from a
fresh stream over the two bytes `[1, 2]` with budget 2, the second byte is
buffered and `m_remaining` is 0; `Flush()` returns `IO_NORMAL` and leaves
the frontier at 1 below the limit 2: the buffered byte is still unread, so
the stream is not exhausted. -/
theorem C5_flush_keeps_buffered_bytes :
    (Read (MCObjectInputStream.new { data := [1, 2], sink := [], faults := [] } 2) true 1).bind
        (fun r => (Flush r.2.2).map fun q =>
          (r.1, r.2.1, q.1, q.2.m_remaining, q.2.m_frontier, q.2.m_limit))
      = some (IO_NORMAL, [1], IO_NORMAL, 0, 1, 2) := by
  decide

/-- C6, as stated, fails: a stream that has read one byte since
construction has `mark - frontier = -1`, and `Skip(0)` returns
`IO_ERROR`, not `IO_EOF`. -/
theorem C6_backward_skip_is_not_eof :
    (Read (MCObjectInputStream.new { data := [5], sink := [], faults := [] } 1) true 1).bind
        (fun r => (Skip r.2.2 0).map fun q =>
          (r.1, r.2.2.m_mark - r.2.2.m_frontier + 0, q.1))
      = some (IO_NORMAL, -1, IO_ERROR) := by
  decide

/-- C6, amended. For every input-stream state and every length for which
`(mark - frontier) + length`, computed in signed 32-bit arithmetic as the
source does, is negative, `Skip(length)` returns `IO_ERROR` (the status of
a failed channel) without reading: only `m_mark` has changed. -/
theorem C6_backward_skip_status (s : MCObjectInputStream) (p_length : Nat)
    (hneg : wrapInt32 (wrapInt32 (s.m_mark - s.m_frontier) + p_length) < 0) :
    Skip s p_length = some (IO_ERROR,
      { s with m_mark := wrapInt32 (wrapInt32 (s.m_mark - s.m_frontier) + p_length) }) := by
  unfold Skip
  simp only [hneg, if_true]

theorem C6_backward_skip_status_witness :
    wrapInt32 (wrapInt32
      ((MCObjectInputStream.mk { data := [], sink := [], faults := [] } none 3 3 3 0 1).m_mark -
        ((MCObjectInputStream.mk { data := [], sink := [], faults := [] } none 3 3 3 0
          1).m_frontier : Nat)) + (1 : Nat)) < 0 ∧
    Skip (MCObjectInputStream.mk { data := [], sink := [], faults := [] } none 3 3 3 0 1) 1
      = some (IO_ERROR,
        { MCObjectInputStream.mk { data := [], sink := [], faults := [] } none 3 3 3 0 1 with
          m_mark := wrapInt32 (wrapInt32
            ((MCObjectInputStream.mk { data := [], sink := [], faults := [] } none 3 3 3 0
              1).m_mark -
            ((MCObjectInputStream.mk { data := [], sink := [], faults := [] } none 3 3 3 0
              1).m_frontier : Nat)) + (1 : Nat)) }) :=
  ⟨by decide, C6_backward_skip_status _ 1 (by decide)⟩

/-! ## Claims about the output stream and the codecs -/

/-- C7. The output stream preserves the byte sequence: on a fresh output
stream over a channel that does not fail, every sequence of `Write` calls
with byte strings `d1 .. dk` of any lengths returns `IO_NORMAL` at every
call; after the calls (and so after every number of calls) the bytes
handed to the channel followed by `buffer[0, frontier)` are
`d1 ++ .. ++ dk`, the frontier stays within the 16384 bytes, and a final
`Flush` returns `IO_NORMAL` with the channel holding exactly
`d1 ++ .. ++ dk` and the frontier at 0. -/
theorem C7_output_preserves_bytes (data : List Byte) (ds : List (List Byte)) :
    (∀ k, ∃ s, MCObjectOutputStream.writeCalls
          (MCObjectOutputStream.new { data := data, sink := [], faults := [] }) (ds.take k)
        = some ((ds.take k).map (fun _ => IO_NORMAL), s) ∧
      s.m_stream.sink ++ s.m_buffer.take s.m_frontier = (ds.take k).flatten) ∧
    ∃ s, MCObjectOutputStream.writeCalls
          (MCObjectOutputStream.new { data := data, sink := [], faults := [] }) ds
        = some (ds.map (fun _ => IO_NORMAL), s) ∧
      s.m_stream.sink ++ s.m_buffer.take s.m_frontier = ds.flatten ∧
      s.m_frontier ≤ 16384 ∧
      (MCObjectOutputStream.Flush s true).1 = IO_NORMAL ∧
      (MCObjectOutputStream.Flush s true).2.m_stream.sink = ds.flatten ∧
      (MCObjectOutputStream.Flush s true).2.m_frontier = 0 := by
  have main : ∀ l : List (List Byte), ∃ s, MCObjectOutputStream.writeCalls
        (MCObjectOutputStream.new { data := data, sink := [], faults := [] }) l
      = some (l.map (fun _ => IO_NORMAL), s) ∧
      s.m_stream.sink ++ s.m_buffer.take s.m_frontier = l.flatten ∧
      MCObjectOutputStream.Inv s ∧ s.m_stream.faults = [] ∧
      MCObjectOutputStream.written s = l.flatten := by
    intro l
    obtain ⟨s, r1, r2, r3, r4⟩ := MCObjectOutputStream.writeCalls_spec l _
      (MCObjectOutputStream.Inv_fresh { data := data, sink := [], faults := [] }) rfl
    rw [MCObjectOutputStream.written_new] at r4
    have r5 : MCObjectOutputStream.written s = l.flatten := by rw [r4]; rfl
    refine ⟨s, r1, ?_, r2, r3, r5⟩
    rw [← r5]
    simp only [MCObjectOutputStream.written, slice, List.drop_zero]
  refine ⟨fun k => ?_, ?_⟩
  · obtain ⟨s, r1, r2, _⟩ := main (ds.take k)
    exact ⟨s, r1, r2⟩
  · obtain ⟨s, r1, r2, r3, r4, r5⟩ := main ds
    obtain ⟨f1, _, _, f4, f5, _⟩ := MCObjectOutputStream.Flush_spec r3 r4 true
    exact ⟨s, r1, r2, r3.1, f1, by rw [f5, r5], f4⟩

/-- C8. Fixed-width integer round trip: on a host of either endianness,
for every 8-, 16-, 32- and 64-bit unsigned value the bytes emitted by
`WriteU8`/`WriteU16`/`WriteU32`/`WriteU64` are read back by the matching
reader with `IO_NORMAL` and exactly that value, and for every signed
16-bit value `sv`, `ReadS16` reads `sv` back from the bytes that
`WriteU16` emits for the two's-complement pattern of `sv`. -/
theorem C8_integer_round_trip (le : Bool) (v8 v16 v32 v64 : Nat) (sv : Int)
    (h8 : v8 < 256) (h16 : v16 < 65536) (h32 : v32 < 4294967296)
    (h64 : v64 < 18446744073709551616) (hs1 : -32768 ≤ sv) (hs2 : sv < 32768) :
    RoundTrip (fun o => MCObjectOutputStream.WriteU8 o v8) ReadU8 v8 ∧
    RoundTrip (fun o => MCObjectOutputStream.WriteU16 le o v16) (ReadU16 le) v16 ∧
    RoundTrip (fun o => MCObjectOutputStream.WriteU32 le o v32) (ReadU32 le) v32 ∧
    RoundTrip (fun o => MCObjectOutputStream.WriteU64 le o v64) (ReadU64 le) v64 ∧
    RoundTrip (fun o => MCObjectOutputStream.WriteU16 le o (sv % 65536).toNat) (ReadS16 le)
      sv := by
  refine ⟨?_, ?_, ?_, ?_, ?_⟩
  · exact roundTrip_of _ _ v8 (bytesLE 1 v8)
      (fun o hi hf => MCObjectOutputStream.WriteU8_spec hi hf v8)
      (fun s rest hi hn hu => ReadU8_spec hi hn v8 h8 rest hu)
  · exact roundTrip_of _ _ v16 (bytesLE 2 v16).reverse
      (fun o hi hf => MCObjectOutputStream.WriteU16_spec hi hf le v16 h16)
      (fun s rest hi hn hu => ReadU16_spec hi hn le v16 h16 rest hu)
  · exact roundTrip_of _ _ v32 (bytesLE 4 v32).reverse
      (fun o hi hf => MCObjectOutputStream.WriteU32_spec hi hf le v32 h32)
      (fun s rest hi hn hu => ReadU32_spec hi hn le v32 h32 rest hu)
  · exact roundTrip_of _ _ v64 (bytesLE 8 v64).reverse
      (fun o hi hf => MCObjectOutputStream.WriteU64_spec hi hf le v64 h64)
      (fun s rest hi hn hu => ReadU64_spec hi hn le v64 h64 rest hu)
  · have hp : (sv % 65536).toNat < 65536 := by omega
    refine roundTrip_of _ _ sv (bytesLE 2 (sv % 65536).toNat).reverse
      (fun o hi hf => MCObjectOutputStream.WriteU16_spec hi hf le _ hp) ?_
    intro s rest hi hn hu
    have h := ReadS16_spec hi hn le _ hp rest hu
    rwa [toInt16_pattern sv hs1 hs2] at h

theorem C8_integer_round_trip_witness :
    (200 < 256 ∧ 43981 < 65536 ∧ 3735928559 < 4294967296 ∧
      81985529216486895 < 18446744073709551616 ∧ (-32768 : Int) ≤ -2 ∧ (-2 : Int) < 32768) ∧
    (RoundTrip (fun o => MCObjectOutputStream.WriteU8 o 200) ReadU8 200 ∧
    RoundTrip (fun o => MCObjectOutputStream.WriteU16 true o 43981) (ReadU16 true) 43981 ∧
    RoundTrip (fun o => MCObjectOutputStream.WriteU32 true o 3735928559) (ReadU32 true)
      3735928559 ∧
    RoundTrip (fun o => MCObjectOutputStream.WriteU64 true o 81985529216486895) (ReadU64 true)
      81985529216486895 ∧
    RoundTrip (fun o => MCObjectOutputStream.WriteU16 true o ((-2 : Int) % 65536).toNat)
      (ReadS16 true) (-2)) :=
  ⟨by decide,
    C8_integer_round_trip true 200 43981 3735928559 81985529216486895 (-2) (by decide)
      (by decide) (by decide) (by decide) (by decide) (by decide)⟩

/-- C9. Network byte order on the wire: on a host of either endianness,
`WriteU64(v)` emits the 8 bytes of `v` most significant first (wire byte
`i` is `(v >> (56 - 8 i)) & 0xFF`), `WriteU32` and `WriteU16` likewise
emit 4 and 2 bytes most significant first, and the shift-and-mask
expression of the little-endian branch is the exact byte reversal of `v`:
the value whose memory image is the reversed memory image of `v`. -/
theorem C9_network_byte_order (le : Bool) (v16 v32 v64 : Nat) (h16 : v16 < 65536)
    (h32 : v32 < 4294967296) (h64 : v64 < 18446744073709551616) :
    MCObjectOutputStream.emitted (fun o => MCObjectOutputStream.WriteU64 le o v64) =
      some [Fin.ofNat ((v64 >>> 56) &&& 0xFF), Fin.ofNat ((v64 >>> 48) &&& 0xFF),
        Fin.ofNat ((v64 >>> 40) &&& 0xFF), Fin.ofNat ((v64 >>> 32) &&& 0xFF),
        Fin.ofNat ((v64 >>> 24) &&& 0xFF), Fin.ofNat ((v64 >>> 16) &&& 0xFF),
        Fin.ofNat ((v64 >>> 8) &&& 0xFF), Fin.ofNat ((v64 >>> 0) &&& 0xFF)] ∧
    MCObjectOutputStream.emitted (fun o => MCObjectOutputStream.WriteU32 le o v32) =
      some [Fin.ofNat ((v32 >>> 24) &&& 0xFF), Fin.ofNat ((v32 >>> 16) &&& 0xFF),
        Fin.ofNat ((v32 >>> 8) &&& 0xFF), Fin.ofNat ((v32 >>> 0) &&& 0xFF)] ∧
    MCObjectOutputStream.emitted (fun o => MCObjectOutputStream.WriteU16 le o v16) =
      some [Fin.ofNat ((v16 >>> 8) &&& 0xFF), Fin.ofNat ((v16 >>> 0) &&& 0xFF)] ∧
    bytesLE 8 (swapInt64 true v64) = (bytesLE 8 v64).reverse := by
  refine ⟨?_, ?_, ?_, ?_⟩
  · rw [← wire64_bytes]
    exact emitted_eq _ _ (fun o hi hf => MCObjectOutputStream.WriteU64_spec hi hf le v64 h64)
  · rw [← wire32_bytes]
    exact emitted_eq _ _ (fun o hi hf => MCObjectOutputStream.WriteU32_spec hi hf le v32 h32)
  · rw [← wire16_bytes]
    exact emitted_eq _ _ (fun o hi hf => MCObjectOutputStream.WriteU16_spec hi hf le v16 h16)
  · exact hostBytes_network64 true v64 h64

theorem C9_network_byte_order_witness :
    (258 < 65536 ∧ 16909060 < 4294967296 ∧ 72623859790382856 < 18446744073709551616) ∧
    (MCObjectOutputStream.emitted (fun o => MCObjectOutputStream.WriteU64 true o
        72623859790382856) =
      some [Fin.ofNat ((72623859790382856 >>> 56) &&& 0xFF),
        Fin.ofNat ((72623859790382856 >>> 48) &&& 0xFF),
        Fin.ofNat ((72623859790382856 >>> 40) &&& 0xFF),
        Fin.ofNat ((72623859790382856 >>> 32) &&& 0xFF),
        Fin.ofNat ((72623859790382856 >>> 24) &&& 0xFF),
        Fin.ofNat ((72623859790382856 >>> 16) &&& 0xFF),
        Fin.ofNat ((72623859790382856 >>> 8) &&& 0xFF),
        Fin.ofNat ((72623859790382856 >>> 0) &&& 0xFF)] ∧
    MCObjectOutputStream.emitted (fun o => MCObjectOutputStream.WriteU32 true o 16909060) =
      some [Fin.ofNat ((16909060 >>> 24) &&& 0xFF), Fin.ofNat ((16909060 >>> 16) &&& 0xFF),
        Fin.ofNat ((16909060 >>> 8) &&& 0xFF), Fin.ofNat ((16909060 >>> 0) &&& 0xFF)] ∧
    MCObjectOutputStream.emitted (fun o => MCObjectOutputStream.WriteU16 true o 258) =
      some [Fin.ofNat ((258 >>> 8) &&& 0xFF), Fin.ofNat ((258 >>> 0) &&& 0xFF)] ∧
    bytesLE 8 (swapInt64 true 72623859790382856) = (bytesLE 8 72623859790382856).reverse) :=
  ⟨by decide,
    C9_network_byte_order true 258 16909060 72623859790382856 (by decide) (by decide)
      (by decide)⟩

/-- C1. Tag round trip: on a host of either endianness, for every
`flags < 2^32` and every `length < 2^31`, `ReadTag` applied to the bytes
emitted by `WriteTag(flags, length)` returns `IO_NORMAL` with exactly
`(flags, length)`, and the header length it reports is 4 when
`flags ≤ 255` and `length < 2^23`, and 8 otherwise. -/
theorem C1_tag_round_trip (le : Bool) (flags length : Nat) (hf : flags < 4294967296)
    (hl : length < 2147483648) :
    RoundTrip (fun o => MCObjectOutputStream.WriteTag le o flags length) (ReadTag le)
      { flags := flags, length := length,
        header_length := if flags ≤ 255 ∧ length < 8388608 then 4 else 8 } := by
  by_cases h : flags ≤ 255 ∧ length < 8388608
  · rw [if_pos h]
    refine roundTrip_of _ _ _ (bytesLE 4 (flags + length * 256)).reverse
      (fun o hi hfo => MCObjectOutputStream.WriteTag_short hi hfo le flags length h.1 h.2) ?_
    intro s rest hi hn hu
    have hr := ReadTag_short hi hn le (flags + length * 256) (by omega) rest hu
    have e1 : (flags + length * 256) % 256 = flags := by omega
    have e2 : (flags + length * 256) / 256 = length := by omega
    rwa [e1, e2] at hr
  · rw [if_neg h]
    refine roundTrip_of _ _ _
      ((bytesLE 4 (flags % 256 + (length % 8388608) * 256 + 2147483648)).reverse ++
        (bytesLE 4 (flags / 256 + (length / 8388608 % 256) * 16777216)).reverse)
      (fun o hi hfo => MCObjectOutputStream.WriteTag_long hi hfo le flags length hf h) ?_
    intro s rest hi hn hu
    rw [List.append_assoc] at hu
    have hr := ReadTag_long hi hn le (flags % 256 + (length % 8388608) * 256 + 2147483648)
      (flags / 256 + (length / 8388608 % 256) * 16777216) (by omega) (by omega) (by omega)
      rest hu
    have e1 : (flags % 256 + (length % 8388608) * 256 + 2147483648) % 256 = flags % 256 := by
      omega
    have e2 : (flags / 256 + (length / 8388608 % 256) * 16777216) % 16777216 = flags / 256 := by
      omega
    have e3 : (flags % 256 + (length % 8388608) * 256 + 2147483648) / 256 % 8388608
        = length % 8388608 := by omega
    have e4 : (flags / 256 + (length / 8388608 % 256) * 16777216) / 16777216 % 256
        = length / 8388608 := by omega
    have e5 : flags % 256 + flags / 256 * 256 = flags := by omega
    have e6 : length % 8388608 + length / 8388608 * 8388608 = length := by omega
    rwa [e1, e2, e3, e4, e5, e6] at hr

theorem C1_tag_round_trip_witness :
    (256 < 4294967296 ∧ 8388608 < 2147483648) ∧
    RoundTrip (fun o => MCObjectOutputStream.WriteTag true o 256 8388608) (ReadTag true)
      { flags := 256, length := 8388608,
        header_length := if 256 ≤ 255 ∧ 8388608 < 8388608 then 4 else 8 } :=
  ⟨by decide, C1_tag_round_trip true 256 8388608 (by decide) (by decide)⟩

/-- C10, as stated, fails for the second word: for `flags = 65536` and
`length = 0` the second word on the wire is 256, so its low 8 bits are 0
while `flags` shifted right by 8 is 256 (which the low 24 bits hold). -/
theorem C10_second_word_low_byte :
    (MCObjectOutputStream.emitted (fun o => MCObjectOutputStream.WriteTag true o 65536 0)).map
        (fun bs => (bs, hostValue false (bs.drop 4) % 256,
          hostValue false (bs.drop 4) % 16777216))
      = some ([128, 0, 0, 0, 0, 0, 1, 0], 0, 256) ∧
    65536 >>> 8 = 256 := by
  decide

/-- C10, amended. Tag wire layout, for `flags` and `length` below `2^32`:
`WriteTag` emits one 32-bit word in network order when `flags ≤ 255` and
`length < 2^23`, whose low 8 bits are `flags`, next 23 bits `length` and
top bit 0; otherwise it emits two 32-bit words in network order, the first
with low 8 bits the low 8 bits of `flags`, next 23 bits the low 23 bits of
`length` and top bit 1, the second with low 24 bits `flags` shifted right
by 8 and top 8 bits the low 8 bits of `length` shifted right by 23. -/
theorem C10_tag_wire_layout (le : Bool) (flags length : Nat) (hf : flags < 4294967296)
    (hl : length < 4294967296) :
    (flags ≤ 255 ∧ length < 8388608 →
      ∃ w, w < 4294967296 ∧
        MCObjectOutputStream.emitted (fun o => MCObjectOutputStream.WriteTag le o flags length)
          = some (bytesLE 4 w).reverse ∧
        w % 256 = flags ∧ w / 256 % 8388608 = length ∧ w / 2147483648 = 0) ∧
    (¬ (flags ≤ 255 ∧ length < 8388608) →
      ∃ w1 w2, w1 < 4294967296 ∧ w2 < 4294967296 ∧
        MCObjectOutputStream.emitted (fun o => MCObjectOutputStream.WriteTag le o flags length)
          = some ((bytesLE 4 w1).reverse ++ (bytesLE 4 w2).reverse) ∧
        w1 % 256 = flags % 256 ∧ w1 / 256 % 8388608 = length % 8388608 ∧
        w1 / 2147483648 = 1 ∧
        w2 % 16777216 = flags / 256 ∧ w2 / 16777216 = length / 8388608 % 256) := by
  constructor
  · intro h
    refine ⟨flags + length * 256, by omega, ?_, by omega, by omega, by omega⟩
    exact emitted_eq _ _
      (fun o hi hfo => MCObjectOutputStream.WriteTag_short hi hfo le flags length h.1 h.2)
  · intro h
    refine ⟨flags % 256 + (length % 8388608) * 256 + 2147483648,
      flags / 256 + (length / 8388608 % 256) * 16777216, by omega, by omega, ?_,
      by omega, by omega, by omega, by omega, by omega⟩
    exact emitted_eq _ _
      (fun o hi hfo => MCObjectOutputStream.WriteTag_long hi hfo le flags length hf h)

theorem C10_tag_wire_layout_witness :
    (65536 < 4294967296 ∧ 2147483648 < 4294967296) ∧
    ((65536 ≤ 255 ∧ 2147483648 < 8388608 →
      ∃ w, w < 4294967296 ∧
        MCObjectOutputStream.emitted
            (fun o => MCObjectOutputStream.WriteTag true o 65536 2147483648)
          = some (bytesLE 4 w).reverse ∧
        w % 256 = 65536 ∧ w / 256 % 8388608 = 2147483648 ∧ w / 2147483648 = 0) ∧
    (¬ (65536 ≤ 255 ∧ 2147483648 < 8388608) →
      ∃ w1 w2, w1 < 4294967296 ∧ w2 < 4294967296 ∧
        MCObjectOutputStream.emitted
            (fun o => MCObjectOutputStream.WriteTag true o 65536 2147483648)
          = some ((bytesLE 4 w1).reverse ++ (bytesLE 4 w2).reverse) ∧
        w1 % 256 = 65536 % 256 ∧ w1 / 256 % 8388608 = 2147483648 % 8388608 ∧
        w1 / 2147483648 = 1 ∧
        w2 % 16777216 = 65536 / 256 ∧ w2 / 16777216 = 2147483648 / 8388608 % 256)) :=
  ⟨by decide, C10_tag_wire_layout true 65536 2147483648 (by decide) (by decide)⟩

/-! ## Claims about exhaustion and flushing of the input stream -/

/-- C19. State after `IO_EOF`: in every reachable state over a channel that
does not fail, with `u = (limit - frontier) + remaining` unread bytes, a
`Read(dest, amount)` with `amount > u` returns `IO_EOF`, has copied exactly
the `u` unread bytes in stream order to a non-null destination (nothing to
a null one) and leaves the stream exhausted: `remaining = 0` and
`frontier = limit`. -/
theorem C19_state_after_eof (s : MCObjectInputStream) (amount : Nat) (hre : Reachable s)
    (hnf : NonFailing s) (hgt : (s.m_limit - s.m_frontier) + s.m_remaining < amount) :
    (unread s).length = (s.m_limit - s.m_frontier) + s.m_remaining ∧
    (∃ s1, Read s true amount = some (IO_EOF, unread s, s1) ∧ unread s1 = [] ∧
      s1.m_remaining = 0 ∧ s1.m_frontier = s1.m_limit) ∧
    (∃ s1, Read s false amount = some (IO_EOF, [], s1) ∧ unread s1 = [] ∧
      s1.m_remaining = 0 ∧ s1.m_frontier = s1.m_limit) := by
  have hi := Reachable_Inv hre
  have hlen := unread_length hi hnf
  have key : ∀ b : Bool, ∃ s1, Read s b amount
      = some (IO_EOF, if b then unread s else [], s1) ∧ unread s1 = [] ∧
        s1.m_remaining = 0 ∧ s1.m_frontier = s1.m_limit := by
    intro b
    obtain ⟨s1, r1, r2, r3, r4, _⟩ := Read_spec hi hnf b amount
    rw [if_neg (by omega), List.take_of_length_le (by omega)] at r1
    rw [List.drop_eq_nil_of_le (by omega)] at r4
    have hl1 := unread_length r2 r3
    rw [r4, List.length_nil] at hl1
    have := r2.1
    exact ⟨s1, r1, r4, by omega, by omega⟩
  exact ⟨hlen, key true, key false⟩

theorem C19_state_after_eof_witness :
    (Reachable (MCObjectInputStream.new ⟨[1, 2, 3], [], []⟩ 3) ∧
      NonFailing (MCObjectInputStream.new ⟨[1, 2, 3], [], []⟩ 3) ∧
      ((MCObjectInputStream.new ⟨[1, 2, 3], [], []⟩ 3).m_limit -
          (MCObjectInputStream.new ⟨[1, 2, 3], [], []⟩ 3).m_frontier) +
        (MCObjectInputStream.new ⟨[1, 2, 3], [], []⟩ 3).m_remaining < 5) ∧
    ((unread (MCObjectInputStream.new ⟨[1, 2, 3], [], []⟩ 3)).length =
      ((MCObjectInputStream.new ⟨[1, 2, 3], [], []⟩ 3).m_limit -
          (MCObjectInputStream.new ⟨[1, 2, 3], [], []⟩ 3).m_frontier) +
        (MCObjectInputStream.new ⟨[1, 2, 3], [], []⟩ 3).m_remaining ∧
    (∃ s1, Read (MCObjectInputStream.new ⟨[1, 2, 3], [], []⟩ 3) true 5
        = some (IO_EOF, unread (MCObjectInputStream.new ⟨[1, 2, 3], [], []⟩ 3), s1) ∧
      unread s1 = [] ∧ s1.m_remaining = 0 ∧ s1.m_frontier = s1.m_limit) ∧
    (∃ s1, Read (MCObjectInputStream.new ⟨[1, 2, 3], [], []⟩ 3) false 5
        = some (IO_EOF, [], s1) ∧
      unread s1 = [] ∧ s1.m_remaining = 0 ∧ s1.m_frontier = s1.m_limit)) :=
  ⟨⟨Reachable.new _ _ (by decide), ⟨rfl, by decide⟩, by decide⟩,
    C19_state_after_eof _ 5 (Reachable.new _ _ (by decide)) ⟨rfl, by decide⟩ (by decide)⟩

/-- C20. Exact effect of the input `Flush()`: in every reachable state over
a channel that does not fail, with `b = limit - frontier` buffered unread
bytes and `r = remaining`, `Flush()` returns `IO_NORMAL`, consumes exactly
the next `r` unread bytes and leaves exactly `b` bytes unread; it consumes
nothing when `remaining = 0`. -/
theorem C20_flush_exact (s : MCObjectInputStream) (hre : Reachable s) (hnf : NonFailing s) :
    ∃ s1, Flush s = some (IO_NORMAL, s1) ∧
      unread s1 = (unread s).drop s.m_remaining ∧
      (unread s1).length = s.m_limit - s.m_frontier ∧
      (s1.m_limit - s1.m_frontier) + s1.m_remaining = s.m_limit - s.m_frontier ∧
      (s.m_remaining = 0 → unread s1 = unread s) := by
  have hi := Reachable_Inv hre
  have hlen := unread_length hi hnf
  obtain ⟨s1, r1, r2, r3, r4, _⟩ := Read_spec hi hnf false s.m_remaining
  rw [if_pos (by omega)] at r1
  have hl1 := unread_length r2 r3
  have hl2 : (unread s1).length = s.m_limit - s.m_frontier := by
    rw [r4, List.length_drop]; omega
  refine ⟨s1, ?_, r4, hl2, by omega, ?_⟩
  · unfold Flush
    rw [r1]
    rfl
  · intro h0
    rw [r4, h0, List.drop_zero]

/-- A concrete run: the state after one byte has been read from a fresh
stream over `[1, 2, 3]`; two bytes are buffered and none remains in the
channel. -/
theorem reachable_one_of_three :
    Reachable ((Read (MCObjectInputStream.new ⟨[1, 2, 3], [], []⟩ 3) true 1).getD (IO_NORMAL,
        [], (MCObjectInputStream.new ⟨[1, 2, 3], [], []⟩ 3))).2.2 ∧
    NonFailing ((Read (MCObjectInputStream.new ⟨[1, 2, 3], [], []⟩ 3) true 1).getD (IO_NORMAL,
        [], (MCObjectInputStream.new ⟨[1, 2, 3], [], []⟩ 3))).2.2 := by
  have h : Read (MCObjectInputStream.new ⟨[1, 2, 3], [], []⟩ 3) true 1
      = some (IO_NORMAL, [1],
        ((Read (MCObjectInputStream.new ⟨[1, 2, 3], [], []⟩ 3) true 1).getD (IO_NORMAL, [],
            (MCObjectInputStream.new ⟨[1, 2, 3], [], []⟩ 3))).2.2) := by
    rfl
  exact ⟨Reachable.read (Reachable.new _ _ (by decide)) h, rfl, by decide⟩

theorem C20_flush_exact_witness :
    (Reachable ((Read (MCObjectInputStream.new ⟨[1, 2, 3], [], []⟩ 3) true 1).getD (IO_NORMAL,
        [], (MCObjectInputStream.new ⟨[1, 2, 3], [], []⟩ 3))).2.2 ∧
      NonFailing ((Read (MCObjectInputStream.new ⟨[1, 2, 3], [], []⟩ 3) true 1).getD (IO_NORMAL,
          [], (MCObjectInputStream.new ⟨[1, 2, 3], [], []⟩ 3))).2.2) ∧
    ∃ s1, Flush ((Read (MCObjectInputStream.new ⟨[1, 2, 3], [], []⟩ 3) true 1).getD (IO_NORMAL,
        [], (MCObjectInputStream.new ⟨[1, 2, 3], [], []⟩ 3))).2.2 = some (IO_NORMAL, s1) ∧
      unread s1 = (unread ((Read (MCObjectInputStream.new ⟨[1, 2, 3], [], []⟩ 3) true 1).getD
          (IO_NORMAL, [], (MCObjectInputStream.new ⟨[1, 2, 3], [], []⟩ 3))).2.2).drop
        ((Read (MCObjectInputStream.new ⟨[1, 2, 3], [], []⟩ 3) true 1).getD (IO_NORMAL, [],
            (MCObjectInputStream.new ⟨[1, 2, 3], [], []⟩ 3))).2.2.m_remaining ∧
      (unread s1).length = ((Read (MCObjectInputStream.new ⟨[1, 2, 3], [], []⟩ 3) true 1).getD
          (IO_NORMAL, [], (MCObjectInputStream.new ⟨[1, 2, 3], [], []⟩ 3))).2.2.m_limit -
        ((Read (MCObjectInputStream.new ⟨[1, 2, 3], [], []⟩ 3) true 1).getD (IO_NORMAL, [],
            (MCObjectInputStream.new ⟨[1, 2, 3], [], []⟩ 3))).2.2.m_frontier ∧
      (s1.m_limit - s1.m_frontier) + s1.m_remaining =
        ((Read (MCObjectInputStream.new ⟨[1, 2, 3], [], []⟩ 3) true 1).getD (IO_NORMAL, [],
            (MCObjectInputStream.new ⟨[1, 2, 3], [], []⟩ 3))).2.2.m_limit -
          ((Read (MCObjectInputStream.new ⟨[1, 2, 3], [], []⟩ 3) true 1).getD (IO_NORMAL, [],
              (MCObjectInputStream.new ⟨[1, 2, 3], [], []⟩ 3))).2.2.m_frontier ∧
      (((Read (MCObjectInputStream.new ⟨[1, 2, 3], [], []⟩ 3) true 1).getD (IO_NORMAL, [],
          (MCObjectInputStream.new ⟨[1, 2, 3], [], []⟩ 3))).2.2.m_remaining = 0 →
        unread s1 = unread ((Read (MCObjectInputStream.new ⟨[1, 2, 3], [], []⟩ 3) true 1).getD
            (IO_NORMAL, [], (MCObjectInputStream.new ⟨[1, 2, 3], [], []⟩ 3))).2.2) :=
  ⟨reachable_one_of_three,
    C20_flush_exact _ reachable_one_of_three.1 reachable_one_of_three.2⟩

/-! ## Further claims about the tag header codec -/

/-- C16. The reported header length equals the bytes consumed: in every
reachable state over a channel that does not fail, whatever the unread
bytes are, a `ReadTag` that returns `IO_NORMAL` reports a header length
that is the number of bytes it consumed, and that is 4 when the top bit of
the first network-order 32-bit word is 0 and 8 when it is 1. -/
theorem C16_header_length_is_consumed (le : Bool) (s s1 : MCObjectInputStream)
    (v : Option Tag) (hre : Reachable s) (hnf : NonFailing s)
    (h : ReadTag le s = some (IO_NORMAL, v, s1)) :
    ∃ tag, v = some tag ∧
      unread s1 = (unread s).drop tag.header_length ∧
      (unread s).length = tag.header_length + (unread s1).length ∧
      (valueLE ((unread s).take 4).reverse < 2147483648 → tag.header_length = 4) ∧
      (2147483648 ≤ valueLE ((unread s).take 4).reverse → tag.header_length = 8) := by
  rcases ReadTag_any (Reachable_Inv hre) hnf le v h with ⟨h1, h2, h3, h4⟩ | ⟨h1, h2, h3, h4⟩
  · refine ⟨_, h3, h4, ?_, fun _ => rfl, fun hc => ?_⟩
    · rw [h4, List.length_drop]; dsimp only; omega
    · omega
  · refine ⟨_, h3, h4, ?_, fun hc => ?_, fun _ => rfl⟩
    · rw [h4, List.length_drop]; dsimp only; omega
    · omega

theorem C16_header_length_is_consumed_witness :
    (Reachable (MCObjectInputStream.new ⟨[0, 0, 5, 7, 9], [], []⟩ 5) ∧
      NonFailing (MCObjectInputStream.new ⟨[0, 0, 5, 7, 9], [], []⟩ 5) ∧
      ReadTag true (MCObjectInputStream.new ⟨[0, 0, 5, 7, 9], [], []⟩ 5)
        = some (IO_NORMAL, some ⟨7, 5, 4⟩,
          ((ReadTag true (MCObjectInputStream.new ⟨[0, 0, 5, 7, 9], [], []⟩ 5)).getD
            (IO_NORMAL, none, MCObjectInputStream.new ⟨[0, 0, 5, 7, 9], [], []⟩ 5)).2.2)) ∧
    ∃ tag, some (Tag.mk 7 5 4) = some tag ∧
      unread ((ReadTag true (MCObjectInputStream.new ⟨[0, 0, 5, 7, 9], [], []⟩ 5)).getD
          (IO_NORMAL, none, MCObjectInputStream.new ⟨[0, 0, 5, 7, 9], [], []⟩ 5)).2.2
        = (unread (MCObjectInputStream.new ⟨[0, 0, 5, 7, 9], [], []⟩ 5)).drop
          tag.header_length ∧
      (unread (MCObjectInputStream.new ⟨[0, 0, 5, 7, 9], [], []⟩ 5)).length
        = tag.header_length +
          (unread ((ReadTag true (MCObjectInputStream.new ⟨[0, 0, 5, 7, 9], [], []⟩ 5)).getD
            (IO_NORMAL, none,
              MCObjectInputStream.new ⟨[0, 0, 5, 7, 9], [], []⟩ 5)).2.2).length ∧
      (valueLE ((unread (MCObjectInputStream.new ⟨[0, 0, 5, 7, 9], [], []⟩ 5)).take 4).reverse
          < 2147483648 → tag.header_length = 4) ∧
      (2147483648 ≤
          valueLE ((unread (MCObjectInputStream.new ⟨[0, 0, 5, 7, 9], [], []⟩ 5)).take 4).reverse →
        tag.header_length = 8) :=
  ⟨⟨Reachable.new _ _ (by decide), ⟨rfl, by decide⟩, by rfl⟩,
    C16_header_length_is_consumed true _ _ _ (Reachable.new _ _ (by decide)) ⟨rfl, by decide⟩
      (by rfl)⟩

/-- C17. Length truncation from `2^31` on: for every `flags < 2^32` and
every `length` with `2^31 ≤ length < 2^32`, on either host, `ReadTag`
applied to the bytes emitted by `WriteTag(flags, length)` returns
`IO_NORMAL` with the same flags, header length 8 and `length - 2^31` as
the length, which differs from `length`. -/
theorem C17_length_truncation (le : Bool) (flags length : Nat) (hf : flags < 4294967296)
    (hl1 : 2147483648 ≤ length) (hl2 : length < 4294967296) :
    RoundTrip (fun o => MCObjectOutputStream.WriteTag le o flags length) (ReadTag le)
      { flags := flags, length := length - 2147483648, header_length := 8 } ∧
    length - 2147483648 ≠ length := by
  refine ⟨?_, by omega⟩
  have h : ¬ (flags ≤ 255 ∧ length < 8388608) := by omega
  refine roundTrip_of _ _ _
    ((bytesLE 4 (flags % 256 + (length % 8388608) * 256 + 2147483648)).reverse ++
      (bytesLE 4 (flags / 256 + (length / 8388608 % 256) * 16777216)).reverse)
    (fun o hi hfo => MCObjectOutputStream.WriteTag_long hi hfo le flags length hf h) ?_
  intro s rest hi hn hu
  rw [List.append_assoc] at hu
  have hr := ReadTag_long hi hn le (flags % 256 + (length % 8388608) * 256 + 2147483648)
    (flags / 256 + (length / 8388608 % 256) * 16777216) (by omega) (by omega) (by omega)
    rest hu
  have e1 : (flags % 256 + (length % 8388608) * 256 + 2147483648) % 256 = flags % 256 := by
    omega
  have e2 : (flags / 256 + (length / 8388608 % 256) * 16777216) % 16777216 = flags / 256 := by
    omega
  have e3 : (flags % 256 + (length % 8388608) * 256 + 2147483648) / 256 % 8388608
      = length % 8388608 := by omega
  have e4 : (flags / 256 + (length / 8388608 % 256) * 16777216) / 16777216 % 256
      = length / 8388608 % 256 := by omega
  have e5 : flags % 256 + flags / 256 * 256 = flags := by omega
  have e6 : length % 8388608 + length / 8388608 % 256 * 8388608 = length - 2147483648 := by
    omega
  rwa [e1, e2, e3, e4, e5, e6] at hr

theorem C17_length_truncation_witness :
    (7 < 4294967296 ∧ 2147483653 ≥ 2147483648 ∧ 2147483653 < 4294967296) ∧
    (RoundTrip (fun o => MCObjectOutputStream.WriteTag true o 7 2147483653) (ReadTag true)
      { flags := 7, length := 2147483653 - 2147483648, header_length := 8 } ∧
    2147483653 - 2147483648 ≠ 2147483653) :=
  ⟨by decide, C17_length_truncation true 7 2147483653 (by decide) (by decide) (by decide)⟩

/-! ## Invariants -/

/-- C14. Input-stream invariant: in every state reachable from
construction by `Read`, `ReadCString`, `ReadTag`, the fixed-width reads,
`Mark`, `Skip` and `Flush` calls, whatever their status and whatever the
channel does, `0 ≤ frontier ≤ limit ≤ bound ≤ 16384` and `limit = bound`
hold; and every one of these operations leaves `remaining` no larger than
it was and ends in a reachable state. -/
theorem C14_input_invariant (s : MCObjectInputStream) (hre : Reachable s) :
    (s.m_frontier ≤ s.m_limit ∧ s.m_limit ≤ s.m_bound ∧ s.m_bound ≤ 16384 ∧
      s.m_limit = s.m_bound) ∧
    (∀ b n st out s1, Read s b n = some (st, out, s1) →
      Reachable s1 ∧ s1.m_remaining ≤ s.m_remaining) ∧
    (∀ st v s1, ReadCString s = some (st, v, s1) →
      Reachable s1 ∧ s1.m_remaining ≤ s.m_remaining) ∧
    (∀ le st v s1, ReadTag le s = some (st, v, s1) →
      Reachable s1 ∧ s1.m_remaining ≤ s.m_remaining) ∧
    (∀ st v s1, ReadU8 s = some (st, v, s1) →
      Reachable s1 ∧ s1.m_remaining ≤ s.m_remaining) ∧
    (∀ le st v s1, ReadU16 le s = some (st, v, s1) →
      Reachable s1 ∧ s1.m_remaining ≤ s.m_remaining) ∧
    (∀ le st v s1, ReadU32 le s = some (st, v, s1) →
      Reachable s1 ∧ s1.m_remaining ≤ s.m_remaining) ∧
    (∀ le st v s1, ReadU64 le s = some (st, v, s1) →
      Reachable s1 ∧ s1.m_remaining ≤ s.m_remaining) ∧
    (∀ le st v s1, ReadS16 le s = some (st, v, s1) →
      Reachable s1 ∧ s1.m_remaining ≤ s.m_remaining) ∧
    (Reachable (Mark s).2 ∧ (Mark s).2.m_remaining ≤ s.m_remaining) ∧
    (∀ n st s1, Skip s n = some (st, s1) →
      Reachable s1 ∧ s1.m_remaining ≤ s.m_remaining) ∧
    (∀ st s1, Flush s = some (st, s1) →
      Reachable s1 ∧ s1.m_remaining ≤ s.m_remaining) := by
  have hi := Reachable_Inv hre
  refine ⟨⟨hi.1, Nat.le_of_eq hi.2.1, hi.2.2.1, hi.2.1⟩, ?_, ?_, ?_, ?_, ?_, ?_, ?_, ?_, ?_, ?_, ?_⟩
  · intro b n st out s1 h
    exact ⟨Reachable.read hre h, (Read_Inv hi h).2⟩
  · intro st v s1 h
    exact ⟨Reachable.readCString hre h, (ReadCString_Inv hi h).2⟩
  · intro le st v s1 h
    exact ⟨Reachable.readTag hre h, (ReadTag_Inv hi h).2⟩
  · intro st v s1 h
    exact Reachable_of_read hre (ReadU8_is_read h)
  · intro le st v s1 h
    exact Reachable_of_read hre (ReadU16_is_read h)
  · intro le st v s1 h
    exact Reachable_of_read hre (ReadU32_is_read h)
  · intro le st v s1 h
    exact Reachable_of_read hre (ReadU64_is_read h)
  · intro le st v s1 h
    exact Reachable_of_read hre (ReadS16_is_read h)
  · exact ⟨Reachable.mark hre, Nat.le_of_eq (Mark_m_remaining s)⟩
  · intro n st s1 h
    exact ⟨Reachable.skip hre h, (Skip_Inv hi h).2⟩
  · intro st s1 h
    exact ⟨Reachable.flush hre h, (Flush_Inv hi h).2⟩

theorem C14_input_invariant_witness :
    Reachable (MCObjectInputStream.new ⟨[1, 2, 3], [], []⟩ 3) ∧
    (((MCObjectInputStream.new ⟨[1, 2, 3], [], []⟩ 3).m_frontier ≤ (MCObjectInputStream.new ⟨[1,
        2, 3], [], []⟩ 3).m_limit ∧ (MCObjectInputStream.new ⟨[1, 2, 3], [], []⟩ 3).m_limit ≤
        (MCObjectInputStream.new ⟨[1, 2, 3], [], []⟩ 3).m_bound ∧ (MCObjectInputStream.new ⟨[1, 2,
        3], [], []⟩ 3).m_bound ≤ 16384 ∧
      (MCObjectInputStream.new ⟨[1, 2, 3], [], []⟩ 3).m_limit = (MCObjectInputStream.new ⟨[1, 2,
          3], [], []⟩ 3).m_bound) ∧
    (∀ b n st out s1, Read (MCObjectInputStream.new ⟨[1, 2, 3], [], []⟩ 3) b n = some (st, out,
        s1) →
      Reachable s1 ∧ s1.m_remaining ≤ (MCObjectInputStream.new ⟨[1, 2, 3], [], []⟩ 3).m_remaining) ∧
    (∀ st v s1, ReadCString (MCObjectInputStream.new ⟨[1, 2, 3], [], []⟩ 3) = some (st, v, s1) →
      Reachable s1 ∧ s1.m_remaining ≤ (MCObjectInputStream.new ⟨[1, 2, 3], [], []⟩ 3).m_remaining) ∧
    (∀ le st v s1, ReadTag le (MCObjectInputStream.new ⟨[1, 2, 3], [], []⟩ 3) = some (st, v, s1) →
      Reachable s1 ∧ s1.m_remaining ≤ (MCObjectInputStream.new ⟨[1, 2, 3], [], []⟩ 3).m_remaining) ∧
    (∀ st v s1, ReadU8 (MCObjectInputStream.new ⟨[1, 2, 3], [], []⟩ 3) = some (st, v, s1) →
      Reachable s1 ∧ s1.m_remaining ≤ (MCObjectInputStream.new ⟨[1, 2, 3], [], []⟩ 3).m_remaining) ∧
    (∀ le st v s1, ReadU16 le (MCObjectInputStream.new ⟨[1, 2, 3], [], []⟩ 3) = some (st, v, s1) →
      Reachable s1 ∧ s1.m_remaining ≤ (MCObjectInputStream.new ⟨[1, 2, 3], [], []⟩ 3).m_remaining) ∧
    (∀ le st v s1, ReadU32 le (MCObjectInputStream.new ⟨[1, 2, 3], [], []⟩ 3) = some (st, v, s1) →
      Reachable s1 ∧ s1.m_remaining ≤ (MCObjectInputStream.new ⟨[1, 2, 3], [], []⟩ 3).m_remaining) ∧
    (∀ le st v s1, ReadU64 le (MCObjectInputStream.new ⟨[1, 2, 3], [], []⟩ 3) = some (st, v, s1) →
      Reachable s1 ∧ s1.m_remaining ≤ (MCObjectInputStream.new ⟨[1, 2, 3], [], []⟩ 3).m_remaining) ∧
    (∀ le st v s1, ReadS16 le (MCObjectInputStream.new ⟨[1, 2, 3], [], []⟩ 3) = some (st, v, s1) →
      Reachable s1 ∧ s1.m_remaining ≤ (MCObjectInputStream.new ⟨[1, 2, 3], [], []⟩ 3).m_remaining) ∧
    (Reachable (Mark (MCObjectInputStream.new ⟨[1, 2, 3], [], []⟩ 3)).2 ∧ (Mark
        (MCObjectInputStream.new ⟨[1, 2, 3], [], []⟩ 3)).2.m_remaining ≤ (MCObjectInputStream.new
        ⟨[1, 2, 3], [], []⟩ 3).m_remaining) ∧
    (∀ n st s1, Skip (MCObjectInputStream.new ⟨[1, 2, 3], [], []⟩ 3) n = some (st, s1) →
      Reachable s1 ∧ s1.m_remaining ≤ (MCObjectInputStream.new ⟨[1, 2, 3], [], []⟩ 3).m_remaining) ∧
    (∀ st s1, Flush (MCObjectInputStream.new ⟨[1, 2, 3], [], []⟩ 3) = some (st, s1) →
      Reachable s1 ∧ s1.m_remaining ≤ (MCObjectInputStream.new ⟨[1, 2, 3], [], []⟩
          3).m_remaining)) :=
  ⟨Reachable.new _ _ (by decide), C14_input_invariant _ (Reachable.new _ _ (by decide))⟩

/-- C15. Output-stream invariant: in every state reachable from
construction by `Write`, typed write and `Flush` calls, whatever the
channel does (states after a failed channel write included),
`0 ≤ frontier ≤ 16384` holds and every such call ends in a reachable
state; and a `Flush` whose channel write fails returns the status of the
channel and leaves the frontier and the buffer, hence the buffered bytes
`[0, frontier)`, unchanged. -/
theorem C15_output_invariant (s : MCObjectOutputStream)
    (hre : MCObjectOutputStream.Reachable s) :
    s.m_frontier ≤ 16384 ∧
    (∀ d n st s1, MCObjectOutputStream.Write s d n = some (st, s1) →
      MCObjectOutputStream.Reachable s1 ∧ s1.m_frontier ≤ 16384) ∧
    (∀ v st s1, MCObjectOutputStream.WriteU8 s v = some (st, s1) →
      MCObjectOutputStream.Reachable s1 ∧ s1.m_frontier ≤ 16384) ∧
    (∀ le v st s1, MCObjectOutputStream.WriteU16 le s v = some (st, s1) →
      MCObjectOutputStream.Reachable s1 ∧ s1.m_frontier ≤ 16384) ∧
    (∀ le v st s1, MCObjectOutputStream.WriteU32 le s v = some (st, s1) →
      MCObjectOutputStream.Reachable s1 ∧ s1.m_frontier ≤ 16384) ∧
    (∀ le v st s1, MCObjectOutputStream.WriteU64 le s v = some (st, s1) →
      MCObjectOutputStream.Reachable s1 ∧ s1.m_frontier ≤ 16384) ∧
    (∀ le flags length st s1, MCObjectOutputStream.WriteTag le s flags length = some (st, s1) →
      MCObjectOutputStream.Reachable s1 ∧ s1.m_frontier ≤ 16384) ∧
    (∀ v st s1, MCObjectOutputStream.WriteCString s v = some (st, s1) →
      MCObjectOutputStream.Reachable s1 ∧ s1.m_frontier ≤ 16384) ∧
    (∀ p_end, MCObjectOutputStream.Reachable (MCObjectOutputStream.Flush s p_end).2 ∧
      (MCObjectOutputStream.Flush s p_end).2.m_frontier ≤ 16384) ∧
    (∀ p_end, (MCS_write s.m_stream (slice s.m_buffer 0 s.m_frontier)).1 ≠ IO_NORMAL →
      (MCObjectOutputStream.Flush s p_end).1
        = (MCS_write s.m_stream (slice s.m_buffer 0 s.m_frontier)).1 ∧
      (MCObjectOutputStream.Flush s p_end).2.m_frontier = s.m_frontier ∧
      (MCObjectOutputStream.Flush s p_end).2.m_buffer = s.m_buffer) := by
  have hw : ∀ d n st s1, MCObjectOutputStream.Write s d n = some (st, s1) →
      MCObjectOutputStream.Reachable s1 ∧ s1.m_frontier ≤ 16384 := by
    intro d n st s1 h
    have hr := MCObjectOutputStream.Reachable.write hre h
    exact ⟨hr, (MCObjectOutputStream.Reachable_keeps_Inv hr).1⟩
  refine ⟨(MCObjectOutputStream.Reachable_keeps_Inv hre).1, hw, ?_, ?_, ?_, ?_, ?_, ?_, ?_, ?_⟩
  · intro v st s1 h
    exact hw _ _ st s1 h
  · intro le v st s1 h
    exact hw _ _ st s1 h
  · intro le v st s1 h
    exact hw _ _ st s1 h
  · intro le v st s1 h
    exact hw _ _ st s1 h
  · intro le flags length st s1 h
    have hr := MCObjectOutputStream.Reachable.writeTag hre h
    exact ⟨hr, (MCObjectOutputStream.Reachable_keeps_Inv hr).1⟩
  · intro v st s1 h
    have hr := MCObjectOutputStream.Reachable.writeCString hre h
    exact ⟨hr, (MCObjectOutputStream.Reachable_keeps_Inv hr).1⟩
  · intro p_end
    have hr : MCObjectOutputStream.Reachable (MCObjectOutputStream.Flush s p_end).2 :=
      MCObjectOutputStream.Reachable.flush hre
    exact ⟨hr, (MCObjectOutputStream.Reachable_keeps_Inv hr).1⟩
  · intro p_end h
    rw [MCObjectOutputStream.Flush_failed s p_end h]
    exact ⟨rfl, rfl, rfl⟩

/-- A concrete run: the state after one byte has been written to a fresh
output stream whose channel will fail with `IO_ERROR`. -/
theorem reachable_after_one_write :
    MCObjectOutputStream.Reachable
      ((MCObjectOutputStream.Write (MCObjectOutputStream.new ⟨[], [], [IO_ERROR]⟩) [42] 1).getD
          (IO_NORMAL, (MCObjectOutputStream.new ⟨[], [], [IO_ERROR]⟩))).2 := by
  have h : MCObjectOutputStream.Write (MCObjectOutputStream.new ⟨[], [], [IO_ERROR]⟩) [42] 1
      = some (IO_NORMAL,
        ((MCObjectOutputStream.Write (MCObjectOutputStream.new ⟨[], [], [IO_ERROR]⟩) [42]
            1).getD (IO_NORMAL, (MCObjectOutputStream.new ⟨[], [], [IO_ERROR]⟩))).2) := by
    rfl
  exact MCObjectOutputStream.Reachable.write (MCObjectOutputStream.Reachable.new _) h

theorem C15_output_invariant_witness :
    MCObjectOutputStream.Reachable
      ((MCObjectOutputStream.Write (MCObjectOutputStream.new ⟨[], [], [IO_ERROR]⟩) [42] 1).getD
          (IO_NORMAL, (MCObjectOutputStream.new ⟨[], [], [IO_ERROR]⟩))).2 ∧
    (((MCObjectOutputStream.Write (MCObjectOutputStream.new ⟨[], [], [IO_ERROR]⟩) [42] 1).getD
        (IO_NORMAL, (MCObjectOutputStream.new ⟨[], [], [IO_ERROR]⟩))).2.m_frontier ≤ 16384 ∧
    (∀ d n st s1, MCObjectOutputStream.Write ((MCObjectOutputStream.Write
        (MCObjectOutputStream.new ⟨[], [], [IO_ERROR]⟩) [42] 1).getD (IO_NORMAL,
        (MCObjectOutputStream.new ⟨[], [], [IO_ERROR]⟩))).2 d n = some (st, s1) →
      MCObjectOutputStream.Reachable s1 ∧ s1.m_frontier ≤ 16384) ∧
    (∀ v st s1, MCObjectOutputStream.WriteU8 ((MCObjectOutputStream.Write
        (MCObjectOutputStream.new ⟨[], [], [IO_ERROR]⟩) [42] 1).getD (IO_NORMAL,
        (MCObjectOutputStream.new ⟨[], [], [IO_ERROR]⟩))).2 v = some (st, s1) →
      MCObjectOutputStream.Reachable s1 ∧ s1.m_frontier ≤ 16384) ∧
    (∀ le v st s1, MCObjectOutputStream.WriteU16 le ((MCObjectOutputStream.Write
        (MCObjectOutputStream.new ⟨[], [], [IO_ERROR]⟩) [42] 1).getD (IO_NORMAL,
        (MCObjectOutputStream.new ⟨[], [], [IO_ERROR]⟩))).2 v = some (st, s1) →
      MCObjectOutputStream.Reachable s1 ∧ s1.m_frontier ≤ 16384) ∧
    (∀ le v st s1, MCObjectOutputStream.WriteU32 le ((MCObjectOutputStream.Write
        (MCObjectOutputStream.new ⟨[], [], [IO_ERROR]⟩) [42] 1).getD (IO_NORMAL,
        (MCObjectOutputStream.new ⟨[], [], [IO_ERROR]⟩))).2 v = some (st, s1) →
      MCObjectOutputStream.Reachable s1 ∧ s1.m_frontier ≤ 16384) ∧
    (∀ le v st s1, MCObjectOutputStream.WriteU64 le ((MCObjectOutputStream.Write
        (MCObjectOutputStream.new ⟨[], [], [IO_ERROR]⟩) [42] 1).getD (IO_NORMAL,
        (MCObjectOutputStream.new ⟨[], [], [IO_ERROR]⟩))).2 v = some (st, s1) →
      MCObjectOutputStream.Reachable s1 ∧ s1.m_frontier ≤ 16384) ∧
    (∀ le flags length st s1, MCObjectOutputStream.WriteTag le ((MCObjectOutputStream.Write
        (MCObjectOutputStream.new ⟨[], [], [IO_ERROR]⟩) [42] 1).getD (IO_NORMAL,
        (MCObjectOutputStream.new ⟨[], [], [IO_ERROR]⟩))).2 flags length = some (st, s1) →
      MCObjectOutputStream.Reachable s1 ∧ s1.m_frontier ≤ 16384) ∧
    (∀ v st s1, MCObjectOutputStream.WriteCString ((MCObjectOutputStream.Write
        (MCObjectOutputStream.new ⟨[], [], [IO_ERROR]⟩) [42] 1).getD (IO_NORMAL,
        (MCObjectOutputStream.new ⟨[], [], [IO_ERROR]⟩))).2 v = some (st, s1) →
      MCObjectOutputStream.Reachable s1 ∧ s1.m_frontier ≤ 16384) ∧
    (∀ p_end, MCObjectOutputStream.Reachable (MCObjectOutputStream.Flush
        ((MCObjectOutputStream.Write (MCObjectOutputStream.new ⟨[], [], [IO_ERROR]⟩) [42] 1).getD
        (IO_NORMAL, (MCObjectOutputStream.new ⟨[], [], [IO_ERROR]⟩))).2 p_end).2 ∧
      (MCObjectOutputStream.Flush ((MCObjectOutputStream.Write (MCObjectOutputStream.new ⟨[],
          [], [IO_ERROR]⟩) [42] 1).getD (IO_NORMAL, (MCObjectOutputStream.new ⟨[], [],
          [IO_ERROR]⟩))).2 p_end).2.m_frontier ≤ 16384) ∧
    (∀ p_end, (MCS_write ((MCObjectOutputStream.Write (MCObjectOutputStream.new ⟨[], [],
        [IO_ERROR]⟩) [42] 1).getD (IO_NORMAL, (MCObjectOutputStream.new ⟨[], [],
        [IO_ERROR]⟩))).2.m_stream (slice ((MCObjectOutputStream.Write (MCObjectOutputStream.new ⟨[],
        [], [IO_ERROR]⟩) [42] 1).getD (IO_NORMAL, (MCObjectOutputStream.new ⟨[], [],
        [IO_ERROR]⟩))).2.m_buffer 0 ((MCObjectOutputStream.Write (MCObjectOutputStream.new ⟨[], [],
        [IO_ERROR]⟩) [42] 1).getD (IO_NORMAL, (MCObjectOutputStream.new ⟨[], [],
        [IO_ERROR]⟩))).2.m_frontier)).1 ≠ IO_NORMAL →
      (MCObjectOutputStream.Flush ((MCObjectOutputStream.Write (MCObjectOutputStream.new ⟨[],
          [], [IO_ERROR]⟩) [42] 1).getD (IO_NORMAL, (MCObjectOutputStream.new ⟨[], [],
          [IO_ERROR]⟩))).2 p_end).1
        = (MCS_write ((MCObjectOutputStream.Write (MCObjectOutputStream.new ⟨[], [],
            [IO_ERROR]⟩) [42] 1).getD (IO_NORMAL, (MCObjectOutputStream.new ⟨[], [],
            [IO_ERROR]⟩))).2.m_stream (slice ((MCObjectOutputStream.Write (MCObjectOutputStream.new
            ⟨[], [], [IO_ERROR]⟩) [42] 1).getD (IO_NORMAL, (MCObjectOutputStream.new ⟨[], [],
            [IO_ERROR]⟩))).2.m_buffer 0 ((MCObjectOutputStream.Write (MCObjectOutputStream.new ⟨[],
            [], [IO_ERROR]⟩) [42] 1).getD (IO_NORMAL, (MCObjectOutputStream.new ⟨[], [],
            [IO_ERROR]⟩))).2.m_frontier)).1 ∧
      (MCObjectOutputStream.Flush ((MCObjectOutputStream.Write (MCObjectOutputStream.new ⟨[],
          [], [IO_ERROR]⟩) [42] 1).getD (IO_NORMAL, (MCObjectOutputStream.new ⟨[], [],
          [IO_ERROR]⟩))).2 p_end).2.m_frontier = ((MCObjectOutputStream.Write
          (MCObjectOutputStream.new ⟨[], [], [IO_ERROR]⟩) [42] 1).getD (IO_NORMAL,
          (MCObjectOutputStream.new ⟨[], [], [IO_ERROR]⟩))).2.m_frontier ∧
      (MCObjectOutputStream.Flush ((MCObjectOutputStream.Write (MCObjectOutputStream.new ⟨[],
          [], [IO_ERROR]⟩) [42] 1).getD (IO_NORMAL, (MCObjectOutputStream.new ⟨[], [],
          [IO_ERROR]⟩))).2 p_end).2.m_buffer = ((MCObjectOutputStream.Write
          (MCObjectOutputStream.new ⟨[], [], [IO_ERROR]⟩) [42] 1).getD (IO_NORMAL,
          (MCObjectOutputStream.new ⟨[], [], [IO_ERROR]⟩))).2.m_buffer)) :=
  ⟨reachable_after_one_write, C15_output_invariant _ reachable_after_one_write⟩

/-! ## Termination -/

/-- C18. Termination of reading: in every reachable input-stream state,
whatever the channel holds or does, `Read(dest, amount)` returns for every
amount (with any fuel of at least `amount` the loop returns the same
result) and `ReadCString` returns; every fill they trigger happens with
`frontier = limit`, and when it succeeds the buffer starts at 0 and holds
`min(remaining, 16384) ≥ 1` bytes, so that an iteration that does not
return consumes at least one byte. -/
theorem C18_reading_terminates (s : MCObjectInputStream) (hre : Reachable s) :
    (∀ b n, ∃ st out s1, Read s b n = some (st, out, s1)) ∧
    (∀ b n k, ReadLoop (n + k) s b n = Read s b n) ∧
    (∃ st v s1, ReadCString s = some (st, v, s1)) ∧
    (s.m_limit = s.m_frontier → (Fill s).1 = IO_NORMAL →
      (Fill s).2.m_frontier = 0 ∧ (Fill s).2.m_limit = min s.m_remaining 16384 ∧
      1 ≤ (Fill s).2.m_limit) := by
  have hi := Reachable_Inv hre
  have htot : ∀ b n, ∃ st out s1, Read s b n = some (st, out, s1) := by
    intro b n
    obtain ⟨⟨st, out, s1⟩, h⟩ := ReadLoop_total n s b n hi (Nat.le_refl n)
    exact ⟨st, out, s1, h⟩
  refine ⟨htot, ?_, ?_, ?_⟩
  · intro b n k
    obtain ⟨st, out, s1, h⟩ := htot b n
    rw [h]
    exact ReadLoop_fuel s b n k _ h
  · obtain ⟨⟨st, out, s1⟩, h⟩ := ReadCStringLoop_total (s.m_remaining + 2) s [] hi (by
      split <;> omega)
    unfold ReadCString
    rw [h]
    cases st
    · cases out with
      | nil => exact ⟨_, _, _, rfl⟩
      | cons b bs =>
        dsimp only
        by_cases hb : b = 0
        · rw [if_pos hb]; exact ⟨_, _, _, rfl⟩
        · rw [if_neg hb]; exact ⟨_, _, _, rfl⟩
    · exact ⟨_, _, _, rfl⟩
    · exact ⟨_, _, _, rfl⟩
  · intro hf hst
    obtain ⟨p1, p2, p3, _⟩ := Fill_progress hi hf hst
    exact ⟨p1, p2, p3⟩

theorem C18_reading_terminates_witness :
    Reachable (MCObjectInputStream.new ⟨[1, 2, 3], [], []⟩ 3) ∧
    ((∀ b n, ∃ st out s1, Read (MCObjectInputStream.new ⟨[1, 2, 3], [], []⟩ 3) b n = some (st,
        out, s1)) ∧
    (∀ b n k, ReadLoop (n + k) (MCObjectInputStream.new ⟨[1, 2, 3], [], []⟩ 3) b n = Read
        (MCObjectInputStream.new ⟨[1, 2, 3], [], []⟩ 3) b n) ∧
    (∃ st v s1, ReadCString (MCObjectInputStream.new ⟨[1, 2, 3], [], []⟩ 3) = some (st, v, s1)) ∧
    ((MCObjectInputStream.new ⟨[1, 2, 3], [], []⟩ 3).m_limit = (MCObjectInputStream.new ⟨[1, 2,
        3], [], []⟩ 3).m_frontier → (Fill (MCObjectInputStream.new ⟨[1, 2, 3], [], []⟩ 3)).1 =
        IO_NORMAL →
      (Fill (MCObjectInputStream.new ⟨[1, 2, 3], [], []⟩ 3)).2.m_frontier = 0 ∧ (Fill
          (MCObjectInputStream.new ⟨[1, 2, 3], [], []⟩ 3)).2.m_limit = min (MCObjectInputStream.new
          ⟨[1, 2, 3], [], []⟩ 3).m_remaining 16384 ∧
      1 ≤ (Fill (MCObjectInputStream.new ⟨[1, 2, 3], [], []⟩ 3)).2.m_limit)) :=
  ⟨Reachable.new _ _ (by decide), C18_reading_terminates _ (Reachable.new _ _ (by decide))⟩

/-- C12. Empty-string canonicalization: over a channel that does not fail,
`WriteCString` of a null pointer and `WriteCString` of a text that starts
with its terminator (the empty text) both emit exactly the one byte 0x00;
and `ReadCString` in a reachable state whose next unread byte is 0x00
returns `IO_NORMAL` with a null result, consumes exactly that one byte and
leaves the following bytes unread. -/
theorem C12_empty_string_canonical (after : List Byte) (s : MCObjectInputStream)
    (rest : List Byte) (hre : Reachable s) (hnf : NonFailing s) (hu : unread s = 0 :: rest) :
    (MCObjectOutputStream.emitted (fun o => MCObjectOutputStream.WriteCString o none) = some [0] ∧
    MCObjectOutputStream.emitted (fun o => MCObjectOutputStream.WriteCString o (some (0 ::
        after)))
      = some [0] ∧
    ∃ s1, ReadCString s = some (IO_NORMAL, none, s1) ∧ unread s1 = rest ∧
      (unread s).length = (unread s1).length + 1) := by
  refine ⟨?_, ?_, ?_⟩
  · exact emitted_eq _ [0] (fun o hi hf =>
      MCObjectOutputStream.WriteCString_empty hi hf none (Or.inl rfl))
  · exact emitted_eq _ [0] (fun o hi hf =>
      MCObjectOutputStream.WriteCString_empty hi hf (some (0 :: after)) (Or.inr ⟨after, rfl⟩))
  · obtain ⟨s1, r1, _, _, r4⟩ := ReadCString_spec (Reachable_Inv hre) hnf [] rest
      (fun b hb => by cases hb) hu
    rw [if_pos rfl] at r1
    refine ⟨s1, r1, r4, ?_⟩
    rw [hu, r4, List.length_cons]

theorem C12_empty_string_canonical_witness :
    (Reachable (MCObjectInputStream.new ⟨[0, 5], [], []⟩ 2) ∧
      NonFailing (MCObjectInputStream.new ⟨[0, 5], [], []⟩ 2) ∧
      unread (MCObjectInputStream.new ⟨[0, 5], [], []⟩ 2) = 0 :: [5]) ∧
    (MCObjectOutputStream.emitted (fun o => MCObjectOutputStream.WriteCString o none) = some [0] ∧
    MCObjectOutputStream.emitted (fun o => MCObjectOutputStream.WriteCString o (some (0 :: [7,
        8])))
      = some [0] ∧
    ∃ s1, ReadCString (MCObjectInputStream.new ⟨[0, 5], [], []⟩ 2) = some (IO_NORMAL, none,
        s1) ∧ unread s1 = [5] ∧
      (unread (MCObjectInputStream.new ⟨[0, 5], [], []⟩ 2)).length = (unread s1).length + 1) :=
  ⟨⟨Reachable.new _ _ (by decide), ⟨rfl, by decide⟩, rfl⟩,
    C12_empty_string_canonical [7, 8] _ [5] (Reachable.new _ _ (by decide)) ⟨rfl, by decide⟩ rfl⟩

/-- C13. `ReadCString` is independent of the buffer position: on a stream
bounded to `R` bytes of a channel that does not fail, after any sequence
of reads that consumed `p` bytes, if the bytes from offset `p` on are a
zero-free string `str`, a zero byte and then `rest` (of any length, so
also with the terminator at a fill boundary or the string longer than the
buffer), `ReadCString` returns `IO_NORMAL` with the same result as on a
fresh stream that starts with the same string: the block `str` plus the
terminator (null when `str` is empty), with exactly `|str| + 1` bytes
consumed in both cases. -/
theorem C13_cstring_position_independent (data : List Byte) (R p : Nat)
    (s : MCObjectInputStream) (str rest rest2 : List Byte)
    (hR : R ≤ data.length) (h32 : R < 4294967296)
    (hc : Consumed (MCObjectInputStream.new ⟨data, [], []⟩ R) p s)
    (hz : ∀ b ∈ str, b ≠ 0)
    (hu : (data.take R).drop p = str ++ 0 :: rest)
    (h32b : (str ++ 0 :: rest2).length < 4294967296) :
    (∃ s1 s2,
      ReadCString s = some (IO_NORMAL, (if str = [] then none else some (str ++ [0])), s1) ∧
      unread s1 = rest ∧
      (unread s).length = (unread s1).length + ((str).length + 1) ∧
      ReadCString (MCObjectInputStream.new ⟨str ++ 0 :: rest2, [], []⟩ (str ++ 0 :: rest2).length)
        = some (IO_NORMAL, (if str = [] then none else some (str ++ [0])), s2) ∧
      unread s2 = rest2) := by
  obtain ⟨i1, i2, _, i4, _⟩ := Consumed_spec hc (Inv_new _ R h32) ⟨rfl, hR⟩
  rw [unread_new] at i4
  have hus : unread s = str ++ 0 :: rest := by rw [i4]; exact hu
  obtain ⟨s1, r1, _, _, r4⟩ := ReadCString_spec i1 i2 str rest hz hus
  have huf : unread (MCObjectInputStream.new ⟨str ++ 0 :: rest2, [], []⟩
      (str ++ 0 :: rest2).length) = str ++ 0 :: rest2 := by
    rw [unread_new]
    exact List.take_length _
  obtain ⟨s2, q1, _, _, q4⟩ := ReadCString_spec
    (Inv_new ⟨str ++ 0 :: rest2, [], []⟩ _ h32b) ⟨rfl, Nat.le_refl _⟩ str rest2 hz huf
  refine ⟨s1, s2, r1, r4, ?_, q1, q4⟩
  rw [hus, r4, List.length_append, List.length_cons]
  omega

theorem consumed_one_of_five :
    Consumed (MCObjectInputStream.new ⟨[1, 65, 66, 0, 9], [], []⟩ 5) 1
      ((Read (MCObjectInputStream.new ⟨[1, 65, 66, 0, 9], [], []⟩ 5) true 1).getD (IO_NORMAL,
          [], (MCObjectInputStream.new ⟨[1, 65, 66, 0, 9], [], []⟩ 5))).2.2 := by
  have h : Read (MCObjectInputStream.new ⟨[1, 65, 66, 0, 9], [], []⟩ 5) true 1
      = some (IO_NORMAL, [1],
        ((Read (MCObjectInputStream.new ⟨[1, 65, 66, 0, 9], [], []⟩ 5) true 1).getD
            (IO_NORMAL, [], (MCObjectInputStream.new ⟨[1, 65, 66, 0, 9], [], []⟩ 5))).2.2) := by
    rfl
  exact Consumed.read (Consumed.refl _) h

theorem C13_cstring_position_independent_witness :
    (5 ≤ ([1, 65, 66, 0, 9] : List Byte).length ∧ 5 < 4294967296 ∧
      Consumed (MCObjectInputStream.new ⟨[1, 65, 66, 0, 9], [], []⟩ 5) 1
        ((Read (MCObjectInputStream.new ⟨[1, 65, 66, 0, 9], [], []⟩ 5) true 1).getD
            (IO_NORMAL, [], (MCObjectInputStream.new ⟨[1, 65, 66, 0, 9], [], []⟩ 5))).2.2 ∧
      (∀ b ∈ ([65, 66] : List Byte), b ≠ 0) ∧
      (([1, 65, 66, 0, 9] : List Byte).take 5).drop 1 = [65, 66] ++ 0 :: [9] ∧
      (([65, 66] : List Byte) ++ 0 :: [7]).length < 4294967296) ∧
    (∃ s1 s2,
      ReadCString ((Read (MCObjectInputStream.new ⟨[1, 65, 66, 0, 9], [], []⟩ 5) true 1).getD
          (IO_NORMAL, [], (MCObjectInputStream.new ⟨[1, 65, 66, 0, 9], [], []⟩ 5))).2.2 = some
          (IO_NORMAL, (if ([65, 66] : List Byte) = [] then none else some (([65, 66] : List Byte)
          ++ [0])), s1) ∧
      unread s1 = [9] ∧
      (unread ((Read (MCObjectInputStream.new ⟨[1, 65, 66, 0, 9], [], []⟩ 5) true 1).getD
          (IO_NORMAL, [], (MCObjectInputStream.new ⟨[1, 65, 66, 0, 9], [], []⟩ 5))).2.2).length =
          (unread s1).length + ((([65, 66] : List Byte)).length + 1) ∧
      ReadCString (MCObjectInputStream.new ⟨([65, 66] : List Byte) ++ 0 :: [7], [], []⟩ (([65,
          66] : List Byte) ++ 0 :: [7]).length)
        = some (IO_NORMAL, (if ([65, 66] : List Byte) = [] then none else some (([65, 66] :
            List Byte) ++ [0])), s2) ∧
      unread s2 = [7]) :=
  ⟨⟨by decide, by decide, consumed_one_of_five, by simp, rfl, by decide⟩,
    C13_cstring_position_independent [1, 65, 66, 0, 9] 5 1 _ [65, 66] [9] [7] (by decide)
      (by decide) consumed_one_of_five (by simp) rfl (by decide)⟩

/-- C11, as written, fails for a text of `2^32 - 1` bytes: `WriteCString`
computes the length plus one in `uint32_t`, which wraps to zero, so for
the non-empty zero-free text of 4294967295 bytes of value 1 it returns
`IO_NORMAL` and emits nothing instead of the text and its terminator. -/
theorem C11_long_text_emits_nothing :
    List.replicate 4294967295 (1 : Byte) ≠ [] ∧
    (∀ b ∈ List.replicate 4294967295 (1 : Byte), b ≠ 0) ∧
    MCObjectOutputStream.emitted (fun o => MCObjectOutputStream.WriteCString o
      (some (List.replicate 4294967295 (1 : Byte) ++ 0 :: []))) = some [] ∧
    MCObjectOutputStream.emitted (fun o => MCObjectOutputStream.WriteCString o
      (some (List.replicate 4294967295 (1 : Byte) ++ 0 :: [])))
      ≠ some (List.replicate 4294967295 (1 : Byte) ++ [0]) := by
  have hz : ∀ b ∈ List.replicate 4294967295 (1 : Byte), b ≠ 0 := by
    intro b hb
    rw [List.eq_of_mem_replicate hb]
    decide
  have hl : (List.replicate 4294967295 (1 : Byte)).length = 4294967295 :=
    List.length_replicate _ _
  have he : MCObjectOutputStream.emitted (fun o => MCObjectOutputStream.WriteCString o
      (some (List.replicate 4294967295 (1 : Byte) ++ 0 :: []))) = some [] :=
    MCObjectOutputStream.emitted_of _ _ []
      (MCObjectOutputStream.WriteCString_wraps _ _ [] hz hl)
      (MCObjectOutputStream.Inv_fresh _) rfl (MCObjectOutputStream.written_new _)
  refine ⟨?_, hz, he, ?_⟩
  · intro h
    rw [h] at hl
    exact absurd hl (by decide)
  · rw [he]
    intro h
    have h2 := congrArg (fun o => (o.getD []).length) h
    dsimp only [Option.getD] at h2
    rw [List.length_append, hl] at h2
    exact absurd h2 (by decide)

/-- C11, amended. C-string round trip: for every non-empty text without a
zero byte whose length plus one is below `2^32`, stored in memory followed
by its terminator, `WriteCString` over a channel that does not fail emits
exactly the text followed by one zero byte (`|text| + 1` bytes), and
`ReadCString` in any reachable state whose unread bytes start with those
bytes returns `IO_NORMAL` with a block whose text (the bytes before its
first zero byte) is the text, consuming exactly those bytes and leaving
the following bytes unread. -/
theorem C11_cstring_round_trip (text after : List Byte) (hne : text ≠ [])
    (hz : ∀ b ∈ text, b ≠ 0) (hlen : text.length + 1 < 4294967296) :
    (MCObjectOutputStream.emitted (fun o => MCObjectOutputStream.WriteCString o (some (text ++
        0 :: after)))
      = some (text ++ [0]) ∧
    (text ++ [0]).length = (text).length + 1 ∧
    RoundTrip (fun o => MCObjectOutputStream.WriteCString o (some (text ++ 0 :: after)))
        ReadCString
      (text ++ [0]) ∧
    (text ++ [0]).takeWhile (fun b => b ≠ 0) = text) := by
  have hw : ∀ o : MCObjectOutputStream, MCObjectOutputStream.Inv o → o.m_stream.faults = [] →
      ∃ o1, MCObjectOutputStream.WriteCString o (some (text ++ 0 :: after))
          = some (IO_NORMAL, o1) ∧ MCObjectOutputStream.Inv o1 ∧ o1.m_stream.faults = [] ∧
        MCObjectOutputStream.written o1 = MCObjectOutputStream.written o ++ (text ++ [0]) :=
    fun o hi hf => MCObjectOutputStream.WriteCString_text hi hf text after hz hlen
  refine ⟨emitted_eq _ _ hw, ?_, roundTrip_of _ _ _ (text ++ [0]) hw ?_, ?_⟩
  · rw [List.length_append]; rfl
  · intro s rest hi hn hu
    rw [List.append_assoc, List.singleton_append] at hu
    obtain ⟨s1, r1, r2, r3, r4⟩ := ReadCString_spec hi hn text rest hz hu
    rw [if_neg hne] at r1
    exact ⟨s1, r1, r2, r3, r4⟩
  · exact takeWhile_text text [] hz

theorem C11_cstring_round_trip_witness :
    (([104, 105] : List Byte) ≠ [] ∧ (∀ b ∈ ([104, 105] : List Byte), b ≠ 0) ∧
      ([104, 105] : List Byte).length + 1 < 4294967296) ∧
    (MCObjectOutputStream.emitted (fun o => MCObjectOutputStream.WriteCString o (some (([104,
        105] : List Byte) ++ 0 :: [33])))
      = some (([104, 105] : List Byte) ++ [0]) ∧
    (([104, 105] : List Byte) ++ [0]).length = (([104, 105] : List Byte)).length + 1 ∧
    RoundTrip (fun o => MCObjectOutputStream.WriteCString o (some (([104, 105] : List Byte) ++
        0 :: [33]))) ReadCString
      (([104, 105] : List Byte) ++ [0]) ∧
    (([104, 105] : List Byte) ++ [0]).takeWhile (fun b => b ≠ 0) = ([104, 105] : List Byte)) :=
  ⟨⟨by decide, by simp, by decide⟩,
    C11_cstring_round_trip [104, 105] [33] (by decide) (by simp) (by decide)⟩

end ObjectStream
